import Mathlib

/-!
# A shallow embedding of the order-matching engine

This file models the single-symbol limit order book and matching engine of
the repository (`include/order_book.h`, `include/price_level.h`,
`src/price_level.cpp`, `include/order_pool.h`, `src/order_pool.cpp`) and
proves the specification claims about it.

Modelling conventions:

* `uint32_t` / `uint64_t` values are `Nat`s; arithmetic that can wrap in the
  source carries an explicit `% 2^32` (`wrap32` / `u32sub`) or `% 2^64`.
  Subtractions that cannot underflow in the source (`quantity -= fillQty`
  with `fillQty = min(...)`) are plain `Nat` subtraction.
* The order arena (`OrderPool`) hands out `Order*` pointers into a
  fixed block of `capacity` slots, threaded through a LIFO free list.
  We model a pointer as the slot number the order occupies: `freeList`
  is the list of free slot numbers (head = next to be allocated), and
  each live `Order` record carries its `slot`.  The record of a live
  order is stored in the price-level FIFO it is linked into, exactly as
  the source keeps each live order linked into exactly one FIFO.
* The C++ side books are `std::vector<PriceLevel>` with the BEST level at
  the BACK (`bids_` ascending, `asks_` descending).  We model the same
  sequences reversed, best level at the HEAD of the list, so that
  `vector.back()` is `List.head?` and `pop_back` drops the head:
  `bids` is strictly descending in price, `asks` strictly ascending.
* `orderIndex_` (`std::unordered_map<uint64_t, Order*>`) is an
  association list of `(orderId, slot)` pairs with unique keys;
  `try_emplace` inserts only when the key is absent, `erase` drops the
  entry with the given key.
* The trade callback is modelled by returning the list of emitted
  `Trade`s in emission order.
* `assert`s in the source compile away in release builds; behaviour that
  the source treats as a contract violation (allocating from an empty
  pool, cancelling through a dangling handle) is modelled as `Option`
  failure (`none`).
-/

/-- `enum class Side { Buy, Sell };` from `types.h`. -/
inductive Side where
  | Buy : Side
  | Sell : Side
deriving DecidableEq, Repr

/-- Trade record from `types.h`. -/
structure Trade where
  buyOrderId : Nat
  sellOrderId : Nat
  price : Nat
  quantity : Nat
deriving DecidableEq, Repr

/-- `struct Order` from `order.h`: identifier, limit price, remaining
quantity, acquisition sequence number, side and participant.  The `slot`
field models the arena slot the record occupies (i.e. the `Order*`
pointer value); the intrusive `next`/`prev` links are represented by the
position of the record in its level's FIFO list. -/
structure Order where
  orderId : Nat
  price : Nat
  quantity : Nat
  sequence : Nat
  side : Side
  participantId : Nat
  slot : Nat
deriving DecidableEq, Repr

/-- Truncation to 32 bits, for `uint32_t` arithmetic that can wrap. -/
def wrap32 (n : Nat) : Nat := n % 4294967296

/-- `uint32_t` subtraction `a - b` (two's-complement wraparound). -/
def u32sub (a b : Nat) : Nat := (a + (4294967296 - b % 4294967296)) % 4294967296

/-- Truncation to 64 bits, for the `uint64_t` sequence counter. -/
def wrap64 (n : Nat) : Nat := n % 18446744073709551616

/-- `struct PriceLevel` from `price_level.h`: price, cached total
quantity, and the FIFO of resting orders (`head`/`tail` doubly linked
list, modelled as a Lean list with the head of the FIFO first). -/
structure PriceLevel where
  price : Nat
  totalQuantity : Nat
  orders : List Order
deriving DecidableEq, Repr

namespace PriceLevel

/-- `PriceLevel::addToTail` (`src/price_level.cpp`): append at the tail,
add the order's quantity to `totalQuantity` (u32 addition). -/
def addToTail (pl : PriceLevel) (o : Order) : PriceLevel :=
  { pl with orders := pl.orders ++ [o],
            totalQuantity := wrap32 (pl.totalQuantity + o.quantity) }

/-- `bool PriceLevel::isEmpty()`. -/
def isEmptyB (pl : PriceLevel) : Bool := pl.orders.isEmpty

end PriceLevel

/-- Remove the first order with the given slot from a FIFO, returning the
removed record and the remaining list; `none` if no such order is linked
(`PriceLevel::remove` of an unlinked order is a contract violation). -/
def removeSlot : List Order → Nat → Option (Order × List Order)
  | [], _ => none
  | o :: rest, σ =>
    if o.slot = σ then some (o, rest)
    else match removeSlot rest σ with
      | none => none
      | some (r, rest') => some (r, o :: rest')

/-- Build the trade for one fill.  `matchBuy` emits
`Trade(incoming->orderId, resting->orderId, pl->price, fillQty)`;
`matchSell` emits `Trade(resting->orderId, incoming->orderId, pl->price,
fillQty)` — the incoming side decides which party is the buyer. -/
def mkTradeFor (side : Side) (incomingId restingId price fill : Nat) : Trade :=
  match side with
  | Side.Buy => ⟨incomingId, restingId, price, fill⟩
  | Side.Sell => ⟨restingId, incomingId, price, fill⟩

/-- Result of running the match loop against the FIFO of one price level.
`smpQty` is ghost output: the incoming quantity that the source discards
by `incoming->quantity = 0` when self-match prevention triggers. -/
structure FillResult where
  qty : Nat
  orders : List Order
  tq : Nat
  removed : List Order
  trades : List Trade
  blocker : Option Order
  smpQty : Nat
deriving Repr

/-- The inner iterations of `OrderBook::matchBuy` / `matchSell` that stay
on one price level `pl`: while the incoming has quantity and the level is
non-empty, take `resting = pl->front()`; stop with `blocker = resting` on
self-match; otherwise fill `min` of the two quantities, decrement
`pl->totalQuantity`, emit a trade, and drop the resting order once its
quantity reaches zero (its index entry and arena slot are released by the
caller, see `addLimitOrder`). -/
def fillLevel (side : Side) (iId pid lvlPrice : Nat) :
    Nat → Nat → List Order → FillResult
  | iq, tq, [] => ⟨iq, [], tq, [], [], none, 0⟩
  | iq, tq, r :: rest =>
    if iq = 0 then ⟨0, r :: rest, tq, [], [], none, 0⟩
    else if r.participantId = pid then ⟨0, r :: rest, tq, [], [], some r, iq⟩
    else
      let f := min iq r.quantity
      let r' : Order := { r with quantity := r.quantity - f }
      let t := mkTradeFor side iId r.orderId lvlPrice f
      let tq' := u32sub tq f
      if r.quantity - f = 0 then
        let res := fillLevel side iId pid lvlPrice (iq - f) tq' rest
        ⟨res.qty, res.orders, res.tq, r' :: res.removed, t :: res.trades,
         res.blocker, res.smpQty⟩
      else
        ⟨iq - f, r' :: rest, tq', [], [t], none, 0⟩

/-- Does the incoming order cross a level at `plPrice` on the opposite
side?  `matchBuy` continues while `!(incoming->price < pl->price)`;
`matchSell` while `!(incoming->price > pl->price)`. -/
def crossesPrice (side : Side) (iprice plPrice : Nat) : Bool :=
  match side with
  | Side.Buy => decide (plPrice ≤ iprice)
  | Side.Sell => decide (iprice ≤ plPrice)

/-- Result of the full match loop over the opposite side book. -/
structure BookResult where
  qty : Nat
  levels : List PriceLevel
  removed : List Order
  trades : List Trade
  blocker : Option Order
  smpQty : Nat
deriving Repr

/-- `OrderBook::matchBuy` (`side = Buy`) and `OrderBook::matchSell`
(`side = Sell`), which are mirror images of each other in the source.
The opposite side book is passed best-level-first (the back of the C++
vector is the head of the list); drained levels are popped, and the loop
stops when the incoming is exhausted, no longer crosses, or self-match
prevention fires (in which case the source `return`s at once). -/
def matchBook (side : Side) (iId pid iprice : Nat) :
    Nat → List PriceLevel → BookResult
  | iq, [] => ⟨iq, [], [], [], none, 0⟩
  | iq, pl :: rest =>
    if iq = 0 then ⟨iq, pl :: rest, [], [], none, 0⟩
    else if ¬ crossesPrice side iprice pl.price then ⟨iq, pl :: rest, [], [], none, 0⟩
    else
      let fr := fillLevel side iId pid pl.price iq pl.totalQuantity pl.orders
      match fr.blocker with
      | some r =>
        ⟨0, { pl with orders := fr.orders, totalQuantity := fr.tq } :: rest,
         fr.removed, fr.trades, some r, fr.smpQty⟩
      | none =>
        if fr.orders.isEmpty then
          let br := matchBook side iId pid iprice fr.qty rest
          ⟨br.qty, br.levels, fr.removed ++ br.removed, fr.trades ++ br.trades,
           br.blocker, br.smpQty⟩
        else
          ⟨fr.qty, { pl with orders := fr.orders, totalQuantity := fr.tq } :: rest,
           fr.removed, fr.trades, none, 0⟩

/-- Engine state: the two side books (best level at the head, see module
docs), the id → slot index, the arena free list, the arena capacity and
the sequence counter. -/
structure State where
  bids : List PriceLevel
  asks : List PriceLevel
  orderIndex : List (Nat × Nat)
  freeList : List Nat
  capacity : Nat
  sequence : Nat
deriving DecidableEq, Repr

/-- `OrderBook::OrderBook(capacity, callback)`: empty books, empty index,
and an arena whose free list threads slots `0, 1, ..., capacity-1` in
order (`OrderPool::OrderPool`). -/
def mkEngine (capacity : Nat) : State :=
  { bids := [], asks := [], orderIndex := [],
    freeList := List.range capacity, capacity := capacity, sequence := 0 }

/-- The side book the order rests on. -/
def ownLevels (s : State) (side : Side) : List PriceLevel :=
  match side with
  | Side.Buy => s.bids
  | Side.Sell => s.asks

/-- The opposite side book, drained by the match loop. -/
def oppLevels (s : State) (side : Side) : List PriceLevel :=
  match side with
  | Side.Buy => s.asks
  | Side.Sell => s.bids

/-- `orderIndex_.find` on the association list. -/
def idxLookup : List (Nat × Nat) → Nat → Option Nat
  | [], _ => none
  | e :: rest, k => if e.1 = k then some e.2 else idxLookup rest k

/-- `orderIndex_.erase(key)`. -/
def idxErase (idx : List (Nat × Nat)) (k : Nat) : List (Nat × Nat) :=
  idx.filter (fun e => e.1 ≠ k)

/-- `orderIndex_.try_emplace(id, order)`: insert only if the key is absent. -/
def tryEmplace (idx : List (Nat × Nat)) (k σ : Nat) : List (Nat × Nat) :=
  match idxLookup idx k with
  | some _ => idx
  | none => (k, σ) :: idx

/-- Erase the index entries of the resting orders the match loop removed
(`orderIndex_.erase(resting->orderId)` for each fully filled resting). -/
def eraseIds (removed : List Order) (idx : List (Nat × Nat)) : List (Nat × Nat) :=
  removed.foldl (fun acc r => idxErase acc r.orderId) idx

/-- `pool_.deallocate` for each removed resting order, in removal order:
each push puts the slot at the front of the free list. -/
def pushSlots (removed : List Order) (fl : List Nat) : List Nat :=
  removed.foldl (fun acc r => r.slot :: acc) fl

/-- In the side's sort order, does a level at price `p` come strictly
before (closer to the best end than) an existing level at price `q`?
Model-order is best-first: bids descending, asks ascending. -/
def priorB (side : Side) (p q : Nat) : Bool :=
  match side with
  | Side.Buy => decide (q < p)
  | Side.Sell => decide (p < q)

/-- `findOrCreateBidLevel` / `findOrCreateAskLevel` followed by
`pl->addToTail(order)`: binary-search for the price (here: walk the
sorted list from the best end), reuse an existing level or insert a fresh
`PriceLevel(price)` at the sorted position, and append the order. -/
def insertOrder (side : Side) (p : Nat) (o : Order) : List PriceLevel → List PriceLevel
  | [] => [PriceLevel.addToTail ⟨p, 0, []⟩ o]
  | pl :: rest =>
    if pl.price = p then pl.addToTail o :: rest
    else if priorB side p pl.price then PriceLevel.addToTail ⟨p, 0, []⟩ o :: pl :: rest
    else pl :: insertOrder side p o rest

/-- Does `addLimitOrder` invoke the match loop?  (`bestAsk() != nullptr
&& price >= bestAsk()->price` for a buy, symmetrically for a sell.) -/
def doCross (s : State) (side : Side) (price : Nat) : Bool :=
  match (oppLevels s side).head? with
  | some pl => crossesPrice side price pl.price
  | none => false

/-- The match-loop result of an `addLimitOrder` call (identity if the
incoming does not cross).  Matching reads only the incoming's id,
participant, price and quantity, so this is computed before a slot is
drawn from the arena. -/
def addMatchResult (s : State) (side : Side) (price qty id pid : Nat) : BookResult :=
  if doCross s side price then matchBook side id pid price qty (oppLevels s side)
  else ⟨qty, oppLevels s side, [], [], none, 0⟩

/-- Write back the book the order rests on. -/
def setOwn (s : State) (side : Side) (levels : List PriceLevel) : State :=
  match side with
  | Side.Buy => { s with bids := levels }
  | Side.Sell => { s with asks := levels }

/-- Write back the opposite book after matching. -/
def setOpp (s : State) (side : Side) (levels : List PriceLevel) : State :=
  match side with
  | Side.Buy => { s with asks := levels }
  | Side.Sell => { s with bids := levels }

/-- `OrderBook::addLimitOrder`: allocate an order record (contract
violation if the pool is exhausted), stamp it with the arguments and
`sequence_++`, run the match loop if the incoming crosses the opposite
best, then either rest the remainder (append at the tail of its level and
`try_emplace` the index entry) or release the record.  Returns the new
state and the trades emitted through the sink. -/
def addLimitOrder (s : State) (side : Side) (price qty id pid : Nat) :
    Option (State × List Trade) :=
  match s.freeList with
  | [] => none
  | slot :: fl =>
    let br := addMatchResult s side price qty id pid
    let idx1 := eraseIds br.removed s.orderIndex
    let fl1 := pushSlots br.removed fl
    let s1 := setOpp s side br.levels
    let seq' := wrap64 (s.sequence + 1)
    if 0 < br.qty then
      let o : Order := ⟨id, price, br.qty, s.sequence, side, pid, slot⟩
      let s2 := setOwn s1 side (insertOrder side price o (ownLevels s side))
      some ({ s2 with orderIndex := tryEmplace idx1 id slot,
                      freeList := fl1, sequence := seq' }, br.trades)
    else
      some ({ s1 with orderIndex := idx1,
                      freeList := slot :: fl1, sequence := seq' }, br.trades)

/-- All orders linked into a list of levels, best level first, FIFO order
within a level. -/
def levelsOrders (levels : List PriceLevel) : List Order :=
  (levels.map PriceLevel.orders).flatten

/-- Dereference an `Order*`: the live order record occupying `slot`,
searching the bid book then the ask book. -/
def findSlot (s : State) (σ : Nat) : Option Order :=
  (levelsOrders s.bids ++ levelsOrders s.asks).find? (fun o => o.slot = σ)

/-- `levelIt->remove(o)` plus `levels.erase(levelIt)` when the level
empties: walk the side book to the (unique, by sortedness) level at the
order's price, splice the order out, subtract its quantity from
`totalQuantity`, and drop the level if its FIFO is now empty.  `none` if
the level or the order is missing (assertion / contract violation in the
source). -/
def removeAt : List PriceLevel → Nat → Nat → Option (List PriceLevel)
  | [], _, _ => none
  | pl :: rest, p, σ =>
    if pl.price = p then
      match removeSlot pl.orders σ with
      | none => none
      | some (o, orders') =>
        if orders'.isEmpty then some rest
        else some ({ pl with orders := orders',
                             totalQuantity := u32sub pl.totalQuantity o.quantity } :: rest)
    else
      match removeAt rest p σ with
      | none => none
      | some rest' => some (pl :: rest')

/-- `OrderBook::cancelOrder`: look the id up in the index (silent no-op
if absent), dereference the stored handle, unlink the order from the
level on its side at its price (dropping the level if it empties), erase
the index entry, and release the slot.  The second component is ghost
output: the cancelled order, used to account for cancelled residual
quantity. -/
def cancelOrder (s : State) (orderId : Nat) : Option (State × Option Order) :=
  match idxLookup s.orderIndex orderId with
  | none => some (s, none)
  | some σ =>
    match findSlot s σ with
    | none => none
    | some o =>
      let idx' := idxErase s.orderIndex orderId
      let fl' := o.slot :: s.freeList
      match o.side with
      | Side.Buy =>
        match removeAt s.bids o.price σ with
        | none => none
        | some bids' =>
          some ({ s with bids := bids', orderIndex := idx', freeList := fl' }, some o)
      | Side.Sell =>
        match removeAt s.asks o.price σ with
        | none => none
        | some asks' =>
          some ({ s with asks := asks', orderIndex := idx', freeList := fl' }, some o)

/-- A public engine operation. -/
inductive Op where
  | add (side : Side) (price qty id pid : Nat) : Op
  | cancel (id : Nat) : Op
deriving DecidableEq, Repr

/-- One engine operation; the trades emitted through the sink are
returned.  `none` marks a contract violation (undefined behaviour in the
source). -/
def step (s : State) : Op → Option (State × List Trade)
  | Op.add side price qty id pid => addLimitOrder s side price qty id pid
  | Op.cancel id =>
    match cancelOrder s id with
    | none => none
    | some (s', _) => some (s', [])

/-- Run a list of operations from a state. -/
def runFrom (s : State) : List Op → Option State
  | [] => some s
  | op :: ops =>
    match step s op with
    | none => none
    | some (s', _) => runFrom s' ops

/-- Run a list of operations on a fresh engine of the given capacity. -/
def run (capacity : Nat) (ops : List Op) : Option State :=
  runFrom (mkEngine capacity) ops

/-- Best bid strictly below best ask whenever both books are non-empty
(`bestBid()->price < bestAsk()->price`). -/
def uncrossedB (s : State) : Bool :=
  match s.bids.head?, s.asks.head? with
  | some bb, some ba => decide (bb.price < ba.price)
  | _, _ => true

/-! ## Arithmetic and bookkeeping helpers -/

/-- Sum of the trade quantities of a list of trades. -/
def sumTr (ts : List Trade) : Nat := (ts.map Trade.quantity).sum

/-- Sum of the remaining quantities of a list of orders. -/
def sumQ (os : List Order) : Nat := (os.map Order.quantity).sum

/-- The slots of the orders linked into a list of levels. -/
def levelsSlots (levels : List PriceLevel) : List Nat :=
  (levelsOrders levels).map Order.slot

theorem wrap32_of_lt {n : Nat} (h : n < 4294967296) : wrap32 n = n :=
  Nat.mod_eq_of_lt h

theorem u32sub_lt (a b : Nat) : u32sub a b < 4294967296 :=
  Nat.mod_lt _ (by omega)

theorem u32sub_of_le {a b : Nat} (hb : b ≤ a) (ha : a < 4294967296) :
    u32sub a b = a - b := by
  unfold u32sub
  omega

theorem u32sub_wrap32_add (a b : Nat) (ha : a < 4294967296) :
    u32sub (wrap32 (a + b)) b = a := by
  unfold u32sub wrap32
  omega

theorem mkTradeFor_quantity (sd : Side) (i r p f : Nat) :
    (mkTradeFor sd i r p f).quantity = f := by
  cases sd <;> rfl

theorem mkTradeFor_price (sd : Side) (i r p f : Nat) :
    (mkTradeFor sd i r p f).price = p := by
  cases sd <;> rfl

/-- The id of the resting party of a trade produced by an incoming order
of the given side. -/
def restingIdOf (sd : Side) (t : Trade) : Nat :=
  match sd with
  | Side.Buy => t.sellOrderId
  | Side.Sell => t.buyOrderId

/-- The id of the incoming party of a trade produced by an incoming order
of the given side. -/
def incomingIdOf (sd : Side) (t : Trade) : Nat :=
  match sd with
  | Side.Buy => t.buyOrderId
  | Side.Sell => t.sellOrderId

theorem restingIdOf_mkTradeFor (sd : Side) (i r p f : Nat) :
    restingIdOf sd (mkTradeFor sd i r p f) = r := by
  cases sd <;> rfl

theorem incomingIdOf_mkTradeFor (sd : Side) (i r p f : Nat) :
    incomingIdOf sd (mkTradeFor sd i r p f) = i := by
  cases sd <;> rfl

/-! ## `fillLevel` lemmas -/

theorem fillLevel_shape (sd : Side) (iId pid P : Nat) :
    ∀ (orders : List Order) (iq tq : Nat),
    ∃ pre suf, orders = pre ++ suf ∧
      (fillLevel sd iId pid P iq tq orders).removed
        = pre.map (fun o => { o with quantity := 0 }) ∧
      ((fillLevel sd iId pid P iq tq orders).orders = suf ∨
        ∃ r rest f, suf = r :: rest ∧ 0 < f ∧ f < r.quantity ∧
          (fillLevel sd iId pid P iq tq orders).orders
            = ({ r with quantity := r.quantity - f }) :: rest) := by
  intro orders
  induction orders with
  | nil =>
    intro iq tq
    exact ⟨[], [], rfl, rfl, Or.inl rfl⟩
  | cons r rest ih =>
    intro iq tq
    by_cases h0 : iq = 0
    · exact ⟨[], r :: rest, rfl, by simp [fillLevel, h0], Or.inl (by simp [fillLevel, h0])⟩
    · by_cases hp : r.participantId = pid
      · exact ⟨[], r :: rest, rfl, by simp [fillLevel, h0, hp],
          Or.inl (by simp [fillLevel, h0, hp])⟩
      · by_cases hf : r.quantity - min iq r.quantity = 0
        · obtain ⟨pre', suf', heq, hrem, hor⟩ :=
            ih (iq - min iq r.quantity) (u32sub tq (min iq r.quantity))
          refine ⟨r :: pre', suf', by simp [heq], ?_, ?_⟩
          · simp [fillLevel, h0, hp, hf, hrem, hf]
          · simpa [fillLevel, h0, hp, hf] using hor
        · refine ⟨[], r :: rest, rfl, by simp [fillLevel, h0, hp, hf], Or.inr ?_⟩
          refine ⟨r, rest, min iq r.quantity, rfl, ?_, by omega, ?_⟩
          · omega
          · simp [fillLevel, h0, hp, hf]

theorem fillLevel_slots (sd : Side) (iId pid P : Nat) (orders : List Order)
    (iq tq : Nat) :
    (fillLevel sd iId pid P iq tq orders).removed.map Order.slot
      ++ (fillLevel sd iId pid P iq tq orders).orders.map Order.slot
      = orders.map Order.slot := by
  obtain ⟨pre, suf, heq, hrem, hor⟩ := fillLevel_shape sd iId pid P orders iq tq
  rcases hor with h | ⟨r, rest, f, hsuf, _, _, h⟩
  · rw [hrem, h, heq]; simp [List.map_map, Function.comp_def]
  · rw [hrem, h, heq, hsuf]; simp [List.map_map, Function.comp_def]

theorem fillLevel_ids (sd : Side) (iId pid P : Nat) (orders : List Order)
    (iq tq : Nat) :
    (fillLevel sd iId pid P iq tq orders).removed.map Order.orderId
      ++ (fillLevel sd iId pid P iq tq orders).orders.map Order.orderId
      = orders.map Order.orderId := by
  obtain ⟨pre, suf, heq, hrem, hor⟩ := fillLevel_shape sd iId pid P orders iq tq
  rcases hor with h | ⟨r, rest, f, hsuf, _, _, h⟩
  · rw [hrem, h, heq]; simp [List.map_map, Function.comp_def]
  · rw [hrem, h, heq, hsuf]; simp [List.map_map, Function.comp_def]

theorem fillLevel_removed_from (sd : Side) (iId pid P : Nat) (orders : List Order)
    (iq tq : Nat) :
    ∀ o ∈ (fillLevel sd iId pid P iq tq orders).removed,
      ∃ o' ∈ orders, o'.slot = o.slot ∧ o'.orderId = o.orderId ∧ o.quantity = 0 := by
  obtain ⟨pre, suf, heq, hrem, _⟩ := fillLevel_shape sd iId pid P orders iq tq
  intro o ho
  rw [hrem] at ho
  simp only [List.mem_map] at ho
  obtain ⟨o', ho', rfl⟩ := ho
  exact ⟨o', by simp [heq, ho'], rfl, rfl, rfl⟩

/-- Every order still linked after the level fill comes from the input
FIFO: identical except possibly a smaller (but still positive) quantity. -/
theorem fillLevel_orders_from (sd : Side) (iId pid P : Nat) (orders : List Order)
    (iq tq : Nat) :
    ∀ o ∈ (fillLevel sd iId pid P iq tq orders).orders,
      ∃ o' ∈ orders, o = { o' with quantity := o.quantity }
        ∧ o.quantity ≤ o'.quantity
        ∧ (o.quantity = o'.quantity ∨ 0 < o.quantity) := by
  intro o ho
  obtain ⟨pre, suf, heq, _, hor⟩ := fillLevel_shape sd iId pid P orders iq tq
  rcases hor with h | ⟨r, rest, f, hsuf, hf0, hfr, h⟩
  · exact ⟨o, by simp [heq, h ▸ ho], rfl, le_refl _, Or.inl rfl⟩
  · rw [h] at ho
    rcases List.mem_cons.mp ho with rfl | hmem
    · exact ⟨r, by simp [heq, hsuf], rfl, by simp, Or.inr (by simp; omega)⟩
    · exact ⟨o, by simp [heq, hsuf, hmem], rfl, le_refl _, Or.inl rfl⟩

theorem fillLevel_blocker_mem (sd : Side) (iId pid P : Nat) :
    ∀ (orders : List Order) (iq tq : Nat) (b : Order),
      (fillLevel sd iId pid P iq tq orders).blocker = some b →
      b ∈ orders ∧ (fillLevel sd iId pid P iq tq orders).orders.head? = some b
        ∧ (fillLevel sd iId pid P iq tq orders).qty = 0
        ∧ b.participantId = pid := by
  intro orders
  induction orders with
  | nil => intro iq tq b h; simp [fillLevel] at h
  | cons r rest ih =>
    intro iq tq b h
    by_cases h0 : iq = 0
    · simp [fillLevel, h0] at h
    · by_cases hp : r.participantId = pid
      · simp only [fillLevel, if_neg h0, if_pos hp, Option.some.injEq] at h
        subst h
        refine ⟨List.mem_cons_self _ _, ?_, ?_, hp⟩ <;> simp [fillLevel, h0, hp]
      · by_cases hf : r.quantity - min iq r.quantity = 0
        · simp only [fillLevel, if_neg h0, if_neg hp, if_pos hf] at h ⊢
          obtain ⟨hmem, hhead, hqty, hpid⟩ := ih _ _ b h
          exact ⟨List.mem_cons_of_mem _ hmem, hhead, hqty, hpid⟩
        · simp [fillLevel, h0, hp, hf] at h

theorem fillLevel_stop (sd : Side) (iId pid P : Nat) :
    ∀ (orders : List Order) (iq tq : Nat),
      (fillLevel sd iId pid P iq tq orders).blocker = none →
      (fillLevel sd iId pid P iq tq orders).orders ≠ [] →
      (fillLevel sd iId pid P iq tq orders).qty = 0 := by
  intro orders
  induction orders with
  | nil => intro iq tq _ h; simp [fillLevel] at h
  | cons r rest ih =>
    intro iq tq hb hne
    by_cases h0 : iq = 0
    · simp [fillLevel, h0]
    · by_cases hp : r.participantId = pid
      · simp [fillLevel, h0, hp] at hb
      · by_cases hf : r.quantity - min iq r.quantity = 0
        · simp only [fillLevel, if_neg h0, if_neg hp, if_pos hf] at hb hne ⊢
          exact ih _ _ hb hne
        · simp [fillLevel, h0, hp, hf]; omega

theorem fillLevel_tq_lt (sd : Side) (iId pid P : Nat) :
    ∀ (orders : List Order) (iq tq : Nat), tq < 4294967296 →
      (fillLevel sd iId pid P iq tq orders).tq < 4294967296 := by
  intro orders
  induction orders with
  | nil => intro iq tq h; simpa [fillLevel] using h
  | cons r rest ih =>
    intro iq tq h
    by_cases h0 : iq = 0
    · simpa [fillLevel, h0] using h
    · by_cases hp : r.participantId = pid
      · simpa [fillLevel, h0, hp] using h
      · by_cases hf : r.quantity - min iq r.quantity = 0
        · simp only [fillLevel, if_neg h0, if_neg hp, if_pos hf]
          exact ih _ _ (u32sub_lt _ _)
        · simpa [fillLevel, h0, hp, hf] using u32sub_lt tq (min iq r.quantity)

/-- Conservation for the incoming order at one level: what the incoming
brought in is what it keeps, plus what was traded, plus (on self-match)
what was discarded. -/
theorem fillLevel_conserv_inc (sd : Side) (iId pid P : Nat) :
    ∀ (orders : List Order) (iq tq : Nat),
      (fillLevel sd iId pid P iq tq orders).qty
        + (match (fillLevel sd iId pid P iq tq orders).blocker with
            | some _ => (fillLevel sd iId pid P iq tq orders).smpQty
            | none => 0)
        + sumTr (fillLevel sd iId pid P iq tq orders).trades = iq := by
  intro orders
  induction orders with
  | nil => intro iq tq; simp [fillLevel, sumTr]
  | cons r rest ih =>
    intro iq tq
    by_cases h0 : iq = 0
    · simp [fillLevel, h0, sumTr]
    · by_cases hp : r.participantId = pid
      · simp [fillLevel, h0, hp, sumTr]
      · by_cases hf : r.quantity - min iq r.quantity = 0
        · simp only [fillLevel, if_neg h0, if_neg hp, if_pos hf]
          have := ih (iq - min iq r.quantity) (u32sub tq (min iq r.quantity))
          simp only [sumTr, List.map_cons, List.sum_cons, mkTradeFor_quantity] at this ⊢
          omega
        · simp [fillLevel, h0, hp, hf, sumTr, mkTradeFor_quantity]

/-- Conservation on the resting side at one level: the quantity resting
in the FIFO decreases by exactly the traded quantity. -/
theorem fillLevel_conserv_book (sd : Side) (iId pid P : Nat) :
    ∀ (orders : List Order) (iq tq : Nat),
      sumQ (fillLevel sd iId pid P iq tq orders).orders
        + sumTr (fillLevel sd iId pid P iq tq orders).trades = sumQ orders := by
  intro orders
  induction orders with
  | nil => intro iq tq; simp [fillLevel, sumQ, sumTr]
  | cons r rest ih =>
    intro iq tq
    by_cases h0 : iq = 0
    · simp [fillLevel, h0, sumQ, sumTr]
    · by_cases hp : r.participantId = pid
      · simp [fillLevel, h0, hp, sumQ, sumTr]
      · by_cases hf : r.quantity - min iq r.quantity = 0
        · simp only [fillLevel, if_neg h0, if_neg hp, if_pos hf]
          have := ih (iq - min iq r.quantity) (u32sub tq (min iq r.quantity))
          simp only [sumQ, sumTr, List.map_cons, List.sum_cons, mkTradeFor_quantity] at this ⊢
          omega
        · simp [fillLevel, h0, hp, hf, sumQ, sumTr, mkTradeFor_quantity]; omega

/-- Every trade emitted while filling one level is a fill of some resting
order of that level, at the level's price, for a positive quantity within
the resting order's remaining quantity. -/
theorem fillLevel_trades (sd : Side) (iId pid P : Nat) :
    ∀ (orders : List Order) (iq tq : Nat),
      (∀ o ∈ orders, 0 < o.quantity) →
      ∀ t ∈ (fillLevel sd iId pid P iq tq orders).trades,
        ∃ r ∈ orders, ∃ f, 0 < f ∧ f ≤ r.quantity
          ∧ t = mkTradeFor sd iId r.orderId P f := by
  intro orders
  induction orders with
  | nil => intro iq tq _ t ht; simp [fillLevel] at ht
  | cons r rest ih =>
    intro iq tq hq t ht
    by_cases h0 : iq = 0
    · simp [fillLevel, h0] at ht
    · by_cases hp : r.participantId = pid
      · simp [fillLevel, h0, hp] at ht
      · by_cases hf : r.quantity - min iq r.quantity = 0
        · simp only [fillLevel, if_neg h0, if_neg hp, if_pos hf, List.mem_cons] at ht
          rcases ht with rfl | ht
          · refine ⟨r, List.mem_cons_self _ _, min iq r.quantity, ?_, min_le_right _ _, rfl⟩
            have := hq r (List.mem_cons_self _ _)
            omega
          · obtain ⟨r', hr', f, hfpos, hfle, rfl⟩ :=
              ih _ _ (fun o ho => hq o (List.mem_cons_of_mem _ ho)) t ht
            exact ⟨r', List.mem_cons_of_mem _ hr', f, hfpos, hfle, rfl⟩
        · simp only [fillLevel, if_neg h0, if_neg hp, if_neg hf, List.mem_cons,
            List.not_mem_nil, or_false] at ht
          subst ht
          refine ⟨r, List.mem_cons_self _ _, min iq r.quantity, ?_, min_le_right _ _, rfl⟩
          have := hq r (List.mem_cons_self _ _)
          omega

theorem fillLevel_incomingId (sd : Side) (iId pid P : Nat) :
    ∀ (orders : List Order) (iq tq : Nat),
      ∀ t ∈ (fillLevel sd iId pid P iq tq orders).trades,
        incomingIdOf sd t = iId := by
  intro orders
  induction orders with
  | nil => intro iq tq t ht; simp [fillLevel] at ht
  | cons r rest ih =>
    intro iq tq t ht
    by_cases h0 : iq = 0
    · simp [fillLevel, h0] at ht
    · by_cases hp : r.participantId = pid
      · simp [fillLevel, h0, hp] at ht
      · by_cases hf : r.quantity - min iq r.quantity = 0
        · simp only [fillLevel, if_neg h0, if_neg hp, if_pos hf, List.mem_cons] at ht
          rcases ht with rfl | ht
          · exact incomingIdOf_mkTradeFor sd iId r.orderId P (min iq r.quantity)
          · exact ih _ _ t ht
        · simp only [fillLevel, if_neg h0, if_neg hp, if_neg hf, List.mem_cons,
            List.not_mem_nil, or_false] at ht
          subst ht
          exact incomingIdOf_mkTradeFor sd iId r.orderId P (min iq r.quantity)

@[simp] theorem sumTr_nil : sumTr [] = 0 := rfl

@[simp] theorem sumTr_cons (t : Trade) (ts : List Trade) :
    sumTr (t :: ts) = t.quantity + sumTr ts := by simp [sumTr]

@[simp] theorem sumTr_append (ts us : List Trade) :
    sumTr (ts ++ us) = sumTr ts + sumTr us := by simp [sumTr]

@[simp] theorem sumQ_nil : sumQ [] = 0 := rfl

@[simp] theorem sumQ_cons (o : Order) (os : List Order) :
    sumQ (o :: os) = o.quantity + sumQ os := by simp [sumQ]

@[simp] theorem sumQ_append (os us : List Order) :
    sumQ (os ++ us) = sumQ os + sumQ us := by simp [sumQ]

/-- Per-id conservation on the resting side: for each order id, the
resting quantity filed under that id decreases by exactly the trade
quantity filled against resting orders with that id. -/
theorem fillLevel_perId (sd : Side) (iId pid P : Nat) :
    ∀ (orders : List Order) (iq tq : Nat) (id₀ : Nat),
      sumQ ((fillLevel sd iId pid P iq tq orders).orders.filter
              (fun o => o.orderId == id₀))
        + sumTr ((fillLevel sd iId pid P iq tq orders).trades.filter
              (fun t => restingIdOf sd t == id₀))
        = sumQ (orders.filter (fun o => o.orderId == id₀)) := by
  intro orders
  induction orders with
  | nil => intro iq tq id₀; simp [fillLevel]
  | cons r rest ih =>
    intro iq tq id₀
    by_cases h0 : iq = 0
    · simp [fillLevel, h0]
    · by_cases hp : r.participantId = pid
      · simp [fillLevel, h0, hp]
      · by_cases hf : r.quantity - min iq r.quantity = 0
        · simp only [fillLevel, if_neg h0, if_neg hp, if_pos hf]
          have := ih (iq - min iq r.quantity) (u32sub tq (min iq r.quantity)) id₀
          by_cases hid : r.orderId = id₀
          · have hbeq : (r.orderId == id₀) = true := beq_iff_eq.mpr hid
            simp only [List.filter_cons, restingIdOf_mkTradeFor, hbeq, cond_true, if_true,
              sumQ_cons, sumTr_cons, mkTradeFor_quantity]
            omega
          · have hbeq : (r.orderId == id₀) = false := beq_eq_false_iff_ne.mpr hid
            simp only [List.filter_cons, restingIdOf_mkTradeFor, hbeq, cond_false]
            exact this
        · simp only [fillLevel, if_neg h0, if_neg hp, if_neg hf]
          by_cases hid : r.orderId = id₀
          · have hbeq : (r.orderId == id₀) = true := beq_iff_eq.mpr hid
            simp only [List.filter_cons, restingIdOf_mkTradeFor, hbeq, cond_true, if_true,
              sumQ_cons, sumTr_cons, mkTradeFor_quantity, List.filter_nil, sumTr_nil]
            omega
          · have hbeq : (r.orderId == id₀) = false := beq_eq_false_iff_ne.mpr hid
            simp [List.filter_cons, restingIdOf_mkTradeFor, hbeq]

/-! ## `matchBook` lemmas -/

@[simp] theorem levelsOrders_nil : levelsOrders [] = [] := rfl

@[simp] theorem levelsOrders_cons (pl : PriceLevel) (rest : List PriceLevel) :
    levelsOrders (pl :: rest) = pl.orders ++ levelsOrders rest := by
  simp [levelsOrders]

@[simp] theorem levelsOrders_append (ls ms : List PriceLevel) :
    levelsOrders (ls ++ ms) = levelsOrders ls ++ levelsOrders ms := by
  simp [levelsOrders]

/-- Exhaustive case split for one step of the match loop. -/
theorem matchBook_cons (sd : Side) (iId pid iprice iq : Nat) (pl : PriceLevel)
    (rest : List PriceLevel) :
    (iq = 0 ∧ matchBook sd iId pid iprice iq (pl :: rest)
        = ⟨iq, pl :: rest, [], [], none, 0⟩)
    ∨ (crossesPrice sd iprice pl.price = false
        ∧ matchBook sd iId pid iprice iq (pl :: rest)
          = ⟨iq, pl :: rest, [], [], none, 0⟩)
    ∨ (∃ r, 0 < iq ∧ crossesPrice sd iprice pl.price = true
        ∧ (fillLevel sd iId pid pl.price iq pl.totalQuantity pl.orders).blocker = some r
        ∧ matchBook sd iId pid iprice iq (pl :: rest)
          = ⟨0, { pl with
                  orders := (fillLevel sd iId pid pl.price iq pl.totalQuantity pl.orders).orders,
                  totalQuantity := (fillLevel sd iId pid pl.price iq pl.totalQuantity pl.orders).tq } :: rest,
              (fillLevel sd iId pid pl.price iq pl.totalQuantity pl.orders).removed,
              (fillLevel sd iId pid pl.price iq pl.totalQuantity pl.orders).trades,
              some r,
              (fillLevel sd iId pid pl.price iq pl.totalQuantity pl.orders).smpQty⟩)
    ∨ (0 < iq ∧ crossesPrice sd iprice pl.price = true
        ∧ (fillLevel sd iId pid pl.price iq pl.totalQuantity pl.orders).blocker = none
        ∧ (fillLevel sd iId pid pl.price iq pl.totalQuantity pl.orders).orders = []
        ∧ matchBook sd iId pid iprice iq (pl :: rest)
          = ⟨(matchBook sd iId pid iprice
                (fillLevel sd iId pid pl.price iq pl.totalQuantity pl.orders).qty rest).qty,
              (matchBook sd iId pid iprice
                (fillLevel sd iId pid pl.price iq pl.totalQuantity pl.orders).qty rest).levels,
              (fillLevel sd iId pid pl.price iq pl.totalQuantity pl.orders).removed
                ++ (matchBook sd iId pid iprice
                      (fillLevel sd iId pid pl.price iq pl.totalQuantity pl.orders).qty rest).removed,
              (fillLevel sd iId pid pl.price iq pl.totalQuantity pl.orders).trades
                ++ (matchBook sd iId pid iprice
                      (fillLevel sd iId pid pl.price iq pl.totalQuantity pl.orders).qty rest).trades,
              (matchBook sd iId pid iprice
                (fillLevel sd iId pid pl.price iq pl.totalQuantity pl.orders).qty rest).blocker,
              (matchBook sd iId pid iprice
                (fillLevel sd iId pid pl.price iq pl.totalQuantity pl.orders).qty rest).smpQty⟩)
    ∨ (0 < iq ∧ crossesPrice sd iprice pl.price = true
        ∧ (fillLevel sd iId pid pl.price iq pl.totalQuantity pl.orders).blocker = none
        ∧ (fillLevel sd iId pid pl.price iq pl.totalQuantity pl.orders).orders ≠ []
        ∧ matchBook sd iId pid iprice iq (pl :: rest)
          = ⟨(fillLevel sd iId pid pl.price iq pl.totalQuantity pl.orders).qty,
              { pl with
                  orders := (fillLevel sd iId pid pl.price iq pl.totalQuantity pl.orders).orders,
                  totalQuantity := (fillLevel sd iId pid pl.price iq pl.totalQuantity pl.orders).tq } :: rest,
              (fillLevel sd iId pid pl.price iq pl.totalQuantity pl.orders).removed,
              (fillLevel sd iId pid pl.price iq pl.totalQuantity pl.orders).trades,
              none, 0⟩) := by
  by_cases h0 : iq = 0
  · exact Or.inl ⟨h0, by simp [matchBook, h0]⟩
  · by_cases hc : crossesPrice sd iprice pl.price = true
    · cases hb : (fillLevel sd iId pid pl.price iq pl.totalQuantity pl.orders).blocker with
      | some r =>
        refine Or.inr (Or.inr (Or.inl ⟨r, Nat.pos_of_ne_zero h0, hc, rfl, ?_⟩))
        simp [matchBook, h0, hc, hb]
      | none =>
        by_cases he : (fillLevel sd iId pid pl.price iq pl.totalQuantity pl.orders).orders = []
        · refine Or.inr (Or.inr (Or.inr (Or.inl
            ⟨Nat.pos_of_ne_zero h0, hc, rfl, he, ?_⟩)))
          simp [matchBook, h0, hc, hb, he]
        · refine Or.inr (Or.inr (Or.inr (Or.inr
            ⟨Nat.pos_of_ne_zero h0, hc, rfl, he, ?_⟩)))
          simp only [matchBook, if_neg h0]
          rw [if_neg (by simp [hc])]
          rw [hb]
          simp only [List.isEmpty_iff]
          rw [if_neg he]
    · refine Or.inr (Or.inl ⟨by simpa using hc, ?_⟩)
      simp only [matchBook, if_neg h0]
      rw [if_pos (by simpa using hc)]

@[simp] theorem levelsSlots_nil : levelsSlots [] = [] := rfl

@[simp] theorem levelsSlots_cons (pl : PriceLevel) (rest : List PriceLevel) :
    levelsSlots (pl :: rest) = pl.orders.map Order.slot ++ levelsSlots rest := by
  simp [levelsSlots]

@[simp] theorem levelsSlots_append (ls ms : List PriceLevel) :
    levelsSlots (ls ++ ms) = levelsSlots ls ++ levelsSlots ms := by
  simp [levelsSlots]

/-- The slots removed by the match loop together with the slots still in
the book are exactly the slots that were in the book (in order). -/
theorem matchBook_slots (sd : Side) (iId pid iprice : Nat) :
    ∀ (levels : List PriceLevel) (iq : Nat),
      (matchBook sd iId pid iprice iq levels).removed.map Order.slot
        ++ levelsSlots (matchBook sd iId pid iprice iq levels).levels
        = levelsSlots levels := by
  intro levels
  induction levels with
  | nil => intro iq; simp [matchBook]
  | cons pl rest ih =>
    intro iq
    rcases matchBook_cons sd iId pid iprice iq pl rest with
      ⟨_, hres⟩ | ⟨_, hres⟩ | ⟨r, _, _, hb, hres⟩ | ⟨_, _, hb, he, hres⟩ | ⟨_, _, hb, he, hres⟩
    · simp [hres]
    · simp [hres]
    · rw [hres]
      have := fillLevel_slots sd iId pid pl.price pl.orders iq pl.totalQuantity
      simp only [levelsSlots_cons]
      rw [← List.append_assoc, this]
    · rw [hres]
      have hfl := fillLevel_slots sd iId pid pl.price pl.orders iq pl.totalQuantity
      rw [he] at hfl
      simp only [List.map_nil, List.append_nil] at hfl
      simp only [levelsSlots_cons, List.map_append, List.append_assoc, ih, hfl]
    · rw [hres]
      have := fillLevel_slots sd iId pid pl.price pl.orders iq pl.totalQuantity
      simp only [levelsSlots_cons]
      rw [← List.append_assoc, this]

/-- Every order removed by the match loop is a fully filled copy of an
order that was linked in the book. -/
theorem matchBook_removed_from (sd : Side) (iId pid iprice : Nat) :
    ∀ (levels : List PriceLevel) (iq : Nat),
      ∀ o ∈ (matchBook sd iId pid iprice iq levels).removed,
        ∃ pl ∈ levels, ∃ o' ∈ pl.orders,
          o'.slot = o.slot ∧ o'.orderId = o.orderId ∧ o.quantity = 0 := by
  intro levels
  induction levels with
  | nil => intro iq o ho; simp [matchBook] at ho
  | cons pl rest ih =>
    intro iq o ho
    rcases matchBook_cons sd iId pid iprice iq pl rest with
      ⟨_, hres⟩ | ⟨_, hres⟩ | ⟨r, _, _, hb, hres⟩ | ⟨_, _, hb, he, hres⟩ | ⟨_, _, hb, he, hres⟩
    · rw [hres] at ho; simp at ho
    · rw [hres] at ho; simp at ho
    · rw [hres] at ho
      obtain ⟨o', ho', h1, h2, h3⟩ := fillLevel_removed_from sd iId pid pl.price pl.orders
        iq pl.totalQuantity o ho
      exact ⟨pl, List.mem_cons_self _ _, o', ho', h1, h2, h3⟩
    · rw [hres] at ho
      rcases List.mem_append.mp ho with hmem | hmem
      · obtain ⟨o', ho', h1, h2, h3⟩ := fillLevel_removed_from sd iId pid pl.price pl.orders
          iq pl.totalQuantity o hmem
        exact ⟨pl, List.mem_cons_self _ _, o', ho', h1, h2, h3⟩
      · obtain ⟨pl₀, hpl₀, o', ho', h1, h2, h3⟩ := ih _ o hmem
        exact ⟨pl₀, List.mem_cons_of_mem _ hpl₀, o', ho', h1, h2, h3⟩
    · rw [hres] at ho
      obtain ⟨o', ho', h1, h2, h3⟩ := fillLevel_removed_from sd iId pid pl.price pl.orders
        iq pl.totalQuantity o ho
      exact ⟨pl, List.mem_cons_self _ _, o', ho', h1, h2, h3⟩

/-- Well-formedness of a price level on side `rs`: non-empty FIFO, cached
total below 2^32, and each resting order carries the level's price, the
side's direction, and a positive quantity below 2^32. -/
def LevelPred (rs : Side) (pl : PriceLevel) : Prop :=
  pl.orders ≠ [] ∧ pl.totalQuantity < 4294967296 ∧
  ∀ o ∈ pl.orders, o.price = pl.price ∧ o.side = rs ∧ 0 < o.quantity
    ∧ o.quantity < 4294967296

instance (rs : Side) (pl : PriceLevel) : Decidable (LevelPred rs pl) := by
  unfold LevelPred; infer_instance

/-- The match loop preserves level well-formedness. -/
theorem matchBook_levels_pred (sd rs : Side) (iId pid iprice : Nat) :
    ∀ (levels : List PriceLevel) (iq : Nat),
      (∀ pl ∈ levels, LevelPred rs pl) →
      ∀ pl' ∈ (matchBook sd iId pid iprice iq levels).levels, LevelPred rs pl' := by
  intro levels
  induction levels with
  | nil => intro iq _ pl' h; simp [matchBook] at h
  | cons pl rest ih =>
    intro iq hlv pl' hmem
    have hpl := hlv pl (List.mem_cons_self _ _)
    have hrest : ∀ q ∈ rest, LevelPred rs q := fun q hq => hlv q (List.mem_cons_of_mem _ hq)
    have hmod : ∀ os tq, os = (fillLevel sd iId pid pl.price iq pl.totalQuantity pl.orders).orders →
        tq = (fillLevel sd iId pid pl.price iq pl.totalQuantity pl.orders).tq →
        os ≠ [] → LevelPred rs { pl with orders := os, totalQuantity := tq } := by
      intro os tq hos htq hne
      refine ⟨hne, ?_, ?_⟩
      · rw [htq]; exact fillLevel_tq_lt sd iId pid pl.price pl.orders iq pl.totalQuantity hpl.2.1
      · intro o ho
        rw [hos] at ho
        obtain ⟨o', ho', hrec, hle, hpos⟩ :=
          fillLevel_orders_from sd iId pid pl.price pl.orders iq pl.totalQuantity o ho
        obtain ⟨hp, hs, hq, hqlt⟩ := hpl.2.2 o' ho'
        have hop : o.price = o'.price := by rw [hrec]
        have hosd : o.side = o'.side := by rw [hrec]
        refine ⟨by simp [hop, hp], by simp [hosd, hs], ?_, by omega⟩
        rcases hpos with h | h
        · omega
        · exact h
    rcases matchBook_cons sd iId pid iprice iq pl rest with
      ⟨_, hres⟩ | ⟨_, hres⟩ | ⟨r, _, _, hb, hres⟩ | ⟨_, _, hb, he, hres⟩ | ⟨_, _, hb, he, hres⟩
    · rw [hres] at hmem; exact hlv pl' hmem
    · rw [hres] at hmem; exact hlv pl' hmem
    · rw [hres] at hmem
      rcases List.mem_cons.mp hmem with rfl | hmem
      · refine hmod _ _ rfl rfl ?_
        have := (fillLevel_blocker_mem sd iId pid pl.price pl.orders iq pl.totalQuantity r hb).2.1
        intro hcon
        rw [hcon] at this
        simp at this
      · exact hrest pl' hmem
    · rw [hres] at hmem
      exact ih _ hrest pl' hmem
    · rw [hres] at hmem
      rcases List.mem_cons.mp hmem with rfl | hmem
      · exact hmod _ _ rfl rfl he
      · exact hrest pl' hmem

/-- The price sequence of the remaining book is a suffix of the input
price sequence (levels are only consumed from the best end; a partially
drained level keeps its price). -/
theorem matchBook_prices_suffix (sd : Side) (iId pid iprice : Nat) :
    ∀ (levels : List PriceLevel) (iq : Nat),
      ∃ dropped, levels.map PriceLevel.price
        = dropped ++ (matchBook sd iId pid iprice iq levels).levels.map PriceLevel.price := by
  intro levels
  induction levels with
  | nil => intro iq; exact ⟨[], by simp [matchBook]⟩
  | cons pl rest ih =>
    intro iq
    rcases matchBook_cons sd iId pid iprice iq pl rest with
      ⟨_, hres⟩ | ⟨_, hres⟩ | ⟨r, _, _, hb, hres⟩ | ⟨_, _, hb, he, hres⟩ | ⟨_, _, hb, he, hres⟩
    · exact ⟨[], by simp [hres]⟩
    · exact ⟨[], by simp [hres]⟩
    · exact ⟨[], by simp [hres]⟩
    · obtain ⟨d, hd⟩ := ih ((fillLevel sd iId pid pl.price iq pl.totalQuantity pl.orders).qty)
      exact ⟨pl.price :: d, by simp [hres, hd]⟩
    · exact ⟨[], by simp [hres]⟩

/-- When self-match prevention stops the loop: the incoming is consumed,
the blocking resting order is an untouched record from the input book
whose participant matches the incoming, and it sits at the front of the
best remaining level. -/
theorem matchBook_blocker (sd : Side) (iId pid iprice : Nat) :
    ∀ (levels : List PriceLevel) (iq : Nat) (b : Order),
      (matchBook sd iId pid iprice iq levels).blocker = some b →
      (matchBook sd iId pid iprice iq levels).qty = 0
        ∧ (∃ pl₀ ∈ levels, b ∈ pl₀.orders ∧ crossesPrice sd iprice pl₀.price = true)
        ∧ b.participantId = pid
        ∧ (∃ plh lrest, (matchBook sd iId pid iprice iq levels).levels = plh :: lrest
            ∧ plh.orders.head? = some b) := by
  intro levels
  induction levels with
  | nil => intro iq b h; simp [matchBook] at h
  | cons pl rest ih =>
    intro iq b h
    rcases matchBook_cons sd iId pid iprice iq pl rest with
      ⟨_, hres⟩ | ⟨_, hres⟩ | ⟨r, _, hc, hb, hres⟩ | ⟨_, _, hb, he, hres⟩ | ⟨_, _, hb, he, hres⟩
    · rw [hres] at h; simp at h
    · rw [hres] at h; simp at h
    · rw [hres] at h
      simp only [Option.some.injEq] at h
      subst h
      obtain ⟨hmem, hhead, hqty, hpid⟩ :=
        fillLevel_blocker_mem sd iId pid pl.price pl.orders iq pl.totalQuantity r hb
      refine ⟨by rw [hres], ⟨pl, List.mem_cons_self _ _, hmem, hc⟩, hpid, ?_⟩
      rw [hres]
      exact ⟨_, _, rfl, hhead⟩
    · rw [hres] at h
      obtain ⟨hqty, ⟨pl₀, hpl₀, hbm, hc₀⟩, hpid, plh, lrest, hlev, hhead⟩ := ih _ b h
      refine ⟨by rw [hres]; exact hqty, ⟨pl₀, List.mem_cons_of_mem _ hpl₀, hbm, hc₀⟩, hpid, ?_⟩
      rw [hres]
      exact ⟨plh, lrest, hlev, hhead⟩
    · rw [hres] at h; simp at h

/-- If the match loop ends with quantity left and no self-match, the
remaining book is empty or its best level no longer crosses. -/
theorem matchBook_noRest (sd : Side) (iId pid iprice : Nat) :
    ∀ (levels : List PriceLevel) (iq : Nat),
      (matchBook sd iId pid iprice iq levels).blocker = none →
      0 < (matchBook sd iId pid iprice iq levels).qty →
      (matchBook sd iId pid iprice iq levels).levels = []
        ∨ ∃ plh lrest, (matchBook sd iId pid iprice iq levels).levels = plh :: lrest
            ∧ crossesPrice sd iprice plh.price = false := by
  intro levels
  induction levels with
  | nil => intro iq _ _; left; simp [matchBook]
  | cons pl rest ih =>
    intro iq hb0 hq0
    rcases matchBook_cons sd iId pid iprice iq pl rest with
      ⟨hz, hres⟩ | ⟨hc, hres⟩ | ⟨r, _, _, hb, hres⟩ | ⟨_, _, hb, he, hres⟩ | ⟨_, _, hb, he, hres⟩
    · rw [hres] at hq0; simp only at hq0; omega
    · right; exact ⟨pl, rest, by rw [hres], hc⟩
    · rw [hres] at hb0; simp at hb0
    · rw [hres] at hb0 hq0 ⊢
      exact ih _ hb0 hq0
    · rw [hres] at hq0
      have := fillLevel_stop sd iId pid pl.price pl.orders iq pl.totalQuantity hb he
      simp only at hq0
      omega

/-- Conservation for the incoming order over the whole match loop. -/
theorem matchBook_conserv_inc (sd : Side) (iId pid iprice : Nat) :
    ∀ (levels : List PriceLevel) (iq : Nat),
      (matchBook sd iId pid iprice iq levels).qty
        + (match (matchBook sd iId pid iprice iq levels).blocker with
            | some _ => (matchBook sd iId pid iprice iq levels).smpQty
            | none => 0)
        + sumTr (matchBook sd iId pid iprice iq levels).trades = iq := by
  intro levels
  induction levels with
  | nil => intro iq; simp [matchBook]
  | cons pl rest ih =>
    intro iq
    rcases matchBook_cons sd iId pid iprice iq pl rest with
      ⟨_, hres⟩ | ⟨_, hres⟩ | ⟨r, _, _, hb, hres⟩ | ⟨_, _, hb, he, hres⟩ | ⟨_, _, hb, he, hres⟩
    · rw [hres]; simp
    · rw [hres]; simp
    · rw [hres]
      have hc := fillLevel_conserv_inc sd iId pid pl.price pl.orders iq pl.totalQuantity
      have hq0 := (fillLevel_blocker_mem sd iId pid pl.price pl.orders iq pl.totalQuantity r hb).2.2.1
      rw [hb] at hc
      simp only at hc ⊢
      omega
    · rw [hres]
      have hc := fillLevel_conserv_inc sd iId pid pl.price pl.orders iq pl.totalQuantity
      rw [hb] at hc
      simp only at hc
      have := ih ((fillLevel sd iId pid pl.price iq pl.totalQuantity pl.orders).qty)
      simp only [sumTr_append] at this ⊢
      cases hbr : (matchBook sd iId pid iprice
          (fillLevel sd iId pid pl.price iq pl.totalQuantity pl.orders).qty rest).blocker <;>
        rw [hbr] at this <;> simp only at this ⊢ <;> omega
    · rw [hres]
      have hc := fillLevel_conserv_inc sd iId pid pl.price pl.orders iq pl.totalQuantity
      rw [hb] at hc
      simp only at hc ⊢
      omega

/-- Conservation on the resting side over the whole match loop. -/
theorem matchBook_conserv_book (sd : Side) (iId pid iprice : Nat) :
    ∀ (levels : List PriceLevel) (iq : Nat),
      sumQ (levelsOrders (matchBook sd iId pid iprice iq levels).levels)
        + sumTr (matchBook sd iId pid iprice iq levels).trades
        = sumQ (levelsOrders levels) := by
  intro levels
  induction levels with
  | nil => intro iq; simp [matchBook]
  | cons pl rest ih =>
    intro iq
    rcases matchBook_cons sd iId pid iprice iq pl rest with
      ⟨_, hres⟩ | ⟨_, hres⟩ | ⟨r, _, _, hb, hres⟩ | ⟨_, _, hb, he, hres⟩ | ⟨_, _, hb, he, hres⟩
    · rw [hres]; simp
    · rw [hres]; simp
    · rw [hres]
      have hc := fillLevel_conserv_book sd iId pid pl.price pl.orders iq pl.totalQuantity
      simp only [levelsOrders_cons, sumQ_append] at hc ⊢
      omega
    · rw [hres]
      have hc := fillLevel_conserv_book sd iId pid pl.price pl.orders iq pl.totalQuantity
      rw [he] at hc
      have := ih ((fillLevel sd iId pid pl.price iq pl.totalQuantity pl.orders).qty)
      simp only [levelsOrders_cons, sumQ_append, sumTr_append, sumQ_nil] at hc this ⊢
      omega
    · rw [hres]
      have hc := fillLevel_conserv_book sd iId pid pl.price pl.orders iq pl.totalQuantity
      simp only [levelsOrders_cons, sumQ_append] at hc ⊢
      omega

/-- Per-id conservation on the resting side over the whole match loop. -/
theorem matchBook_perId (sd : Side) (iId pid iprice : Nat) :
    ∀ (levels : List PriceLevel) (iq : Nat) (id₀ : Nat),
      sumQ ((levelsOrders (matchBook sd iId pid iprice iq levels).levels).filter
              (fun o => o.orderId == id₀))
        + sumTr ((matchBook sd iId pid iprice iq levels).trades.filter
              (fun t => restingIdOf sd t == id₀))
        = sumQ ((levelsOrders levels).filter (fun o => o.orderId == id₀)) := by
  intro levels
  induction levels with
  | nil => intro iq id₀; simp [matchBook]
  | cons pl rest ih =>
    intro iq id₀
    rcases matchBook_cons sd iId pid iprice iq pl rest with
      ⟨_, hres⟩ | ⟨_, hres⟩ | ⟨r, _, _, hb, hres⟩ | ⟨_, _, hb, he, hres⟩ | ⟨_, _, hb, he, hres⟩
    · rw [hres]; simp
    · rw [hres]; simp
    · rw [hres]
      have hc := fillLevel_perId sd iId pid pl.price pl.orders iq pl.totalQuantity id₀
      simp only [levelsOrders_cons, List.filter_append, sumQ_append] at hc ⊢
      omega
    · rw [hres]
      have hc := fillLevel_perId sd iId pid pl.price pl.orders iq pl.totalQuantity id₀
      rw [he] at hc
      have := ih ((fillLevel sd iId pid pl.price iq pl.totalQuantity pl.orders).qty) id₀
      simp only [levelsOrders_cons, List.filter_append, sumQ_append, sumTr_append,
        List.filter_nil, sumQ_nil] at hc this ⊢
      omega
    · rw [hres]
      have hc := fillLevel_perId sd iId pid pl.price pl.orders iq pl.totalQuantity id₀
      simp only [levelsOrders_cons, List.filter_append, sumQ_append] at hc ⊢
      omega

/-- Every trade emitted by the match loop fills some resting order of a
crossed level, at that level's price, for a positive quantity. -/
theorem matchBook_trades (sd : Side) (iId pid iprice : Nat) :
    ∀ (levels : List PriceLevel) (iq : Nat),
      (∀ pl ∈ levels, ∀ o ∈ pl.orders, 0 < o.quantity) →
      ∀ t ∈ (matchBook sd iId pid iprice iq levels).trades,
        ∃ pl ∈ levels, crossesPrice sd iprice pl.price = true
          ∧ ∃ r ∈ pl.orders, ∃ f, 0 < f ∧ f ≤ r.quantity
              ∧ t = mkTradeFor sd iId r.orderId pl.price f := by
  intro levels
  induction levels with
  | nil => intro iq _ t ht; simp [matchBook] at ht
  | cons pl rest ih =>
    intro iq hq t ht
    have hpl : ∀ o ∈ pl.orders, 0 < o.quantity := hq pl (List.mem_cons_self _ _)
    have hrest : ∀ q ∈ rest, ∀ o ∈ q.orders, 0 < o.quantity :=
      fun q hqm => hq q (List.mem_cons_of_mem _ hqm)
    rcases matchBook_cons sd iId pid iprice iq pl rest with
      ⟨_, hres⟩ | ⟨_, hres⟩ | ⟨r, _, hc, hb, hres⟩ | ⟨_, hc, hb, he, hres⟩ | ⟨_, hc, hb, he, hres⟩
    · rw [hres] at ht; simp at ht
    · rw [hres] at ht; simp at ht
    · rw [hres] at ht
      obtain ⟨r', hr', f, hf0, hfle, rfl⟩ :=
        fillLevel_trades sd iId pid pl.price pl.orders iq pl.totalQuantity hpl t ht
      exact ⟨pl, List.mem_cons_self _ _, hc, r', hr', f, hf0, hfle, rfl⟩
    · rw [hres] at ht
      rcases List.mem_append.mp ht with hmem | hmem
      · obtain ⟨r', hr', f, hf0, hfle, rfl⟩ :=
          fillLevel_trades sd iId pid pl.price pl.orders iq pl.totalQuantity hpl t hmem
        exact ⟨pl, List.mem_cons_self _ _, hc, r', hr', f, hf0, hfle, rfl⟩
      · obtain ⟨pl₀, hpl₀, hc₀, r', hr', f, hf0, hfle, rfl⟩ := ih _ hrest t hmem
        exact ⟨pl₀, List.mem_cons_of_mem _ hpl₀, hc₀, r', hr', f, hf0, hfle, rfl⟩
    · rw [hres] at ht
      obtain ⟨r', hr', f, hf0, hfle, rfl⟩ :=
        fillLevel_trades sd iId pid pl.price pl.orders iq pl.totalQuantity hpl t ht
      exact ⟨pl, List.mem_cons_self _ _, hc, r', hr', f, hf0, hfle, rfl⟩

/-- The incoming party of every trade emitted by the match loop is the
incoming order. -/
theorem matchBook_incomingId (sd : Side) (iId pid iprice : Nat) :
    ∀ (levels : List PriceLevel) (iq : Nat),
      ∀ t ∈ (matchBook sd iId pid iprice iq levels).trades,
        incomingIdOf sd t = iId := by
  intro levels
  induction levels with
  | nil => intro iq t ht; simp [matchBook] at ht
  | cons pl rest ih =>
    intro iq t ht
    rcases matchBook_cons sd iId pid iprice iq pl rest with
      ⟨_, hres⟩ | ⟨_, hres⟩ | ⟨r, _, _, hb, hres⟩ | ⟨_, _, hb, he, hres⟩ | ⟨_, _, hb, he, hres⟩
    · rw [hres] at ht; simp at ht
    · rw [hres] at ht; simp at ht
    · rw [hres] at ht
      exact fillLevel_incomingId sd iId pid pl.price pl.orders iq pl.totalQuantity t ht
    · rw [hres] at ht
      rcases List.mem_append.mp ht with hmem | hmem
      · exact fillLevel_incomingId sd iId pid pl.price pl.orders iq pl.totalQuantity t hmem
      · exact ih _ t hmem
    · rw [hres] at ht
      exact fillLevel_incomingId sd iId pid pl.price pl.orders iq pl.totalQuantity t ht

/-! ## Side-book ordering, index and free-list helpers -/

/-- A side book is sorted best-first: bids strictly descending in price,
asks strictly ascending (the reversal of the C++ `bids_` ascending /
`asks_` descending vectors). -/
def sortedSide (sd : Side) (levels : List PriceLevel) : Prop :=
  List.Pairwise (fun x y => priorB sd x y = true) (levels.map PriceLevel.price)

instance (sd : Side) (levels : List PriceLevel) : Decidable (sortedSide sd levels) := by
  unfold sortedSide; infer_instance

theorem priorB_total {sd : Side} {p q : Nat} (hne : p ≠ q)
    (h : priorB sd p q = false) : priorB sd q p = true := by
  cases sd <;> simp [priorB] at h ⊢ <;> omega

theorem priorB_trans {sd : Side} {p q r : Nat} (h1 : priorB sd p q = true)
    (h2 : priorB sd q r = true) : priorB sd p r = true := by
  cases sd <;> simp [priorB] at h1 h2 ⊢ <;> omega

theorem priorB_irrefl {sd : Side} {p q : Nat} (h : priorB sd p q = true) : p ≠ q := by
  cases sd <;> simp [priorB] at h <;> omega

/-- Book-level provenance: every order remaining after the match loop is
an order of the input book, with the same fields except possibly a
reduced quantity. -/
theorem matchBook_orders_from (sd : Side) (iId pid iprice : Nat) :
    ∀ (levels : List PriceLevel) (iq : Nat),
      ∀ o ∈ levelsOrders (matchBook sd iId pid iprice iq levels).levels,
        ∃ o' ∈ levelsOrders levels, o = { o' with quantity := o.quantity }
          ∧ o.quantity ≤ o'.quantity := by
  intro levels
  induction levels with
  | nil => intro iq o ho; simp [matchBook] at ho
  | cons pl rest ih =>
    intro iq o ho
    rcases matchBook_cons sd iId pid iprice iq pl rest with
      ⟨_, hres⟩ | ⟨_, hres⟩ | ⟨r, _, _, hb, hres⟩ | ⟨_, _, hb, he, hres⟩ | ⟨_, _, hb, he, hres⟩
    · rw [hres] at ho; exact ⟨o, ho, rfl, le_refl _⟩
    · rw [hres] at ho; exact ⟨o, ho, rfl, le_refl _⟩
    · rw [hres] at ho
      simp only [levelsOrders_cons, List.mem_append] at ho ⊢
      rcases ho with hmem | hmem
      · obtain ⟨o', ho', heq, hle, _⟩ :=
          fillLevel_orders_from sd iId pid pl.price pl.orders iq pl.totalQuantity o hmem
        exact ⟨o', Or.inl ho', heq, hle⟩
      · exact ⟨o, Or.inr hmem, rfl, le_refl _⟩
    · rw [hres] at ho
      obtain ⟨o', ho', heq, hle⟩ := ih _ o ho
      simp only [levelsOrders_cons, List.mem_append]
      exact ⟨o', Or.inr ho', heq, hle⟩
    · rw [hres] at ho
      simp only [levelsOrders_cons, List.mem_append] at ho ⊢
      rcases ho with hmem | hmem
      · obtain ⟨o', ho', heq, hle, _⟩ :=
          fillLevel_orders_from sd iId pid pl.price pl.orders iq pl.totalQuantity o hmem
        exact ⟨o', Or.inl ho', heq, hle⟩
      · exact ⟨o, Or.inr hmem, rfl, le_refl _⟩

theorem insertOrder_mem (sd : Side) (p : Nat) (o : Order) :
    ∀ (levels : List PriceLevel) (q : PriceLevel),
      q ∈ insertOrder sd p o levels →
      q ∈ levels ∨ q = PriceLevel.addToTail ⟨p, 0, []⟩ o
        ∨ ∃ pl ∈ levels, pl.price = p ∧ q = pl.addToTail o := by
  intro levels
  induction levels with
  | nil =>
    intro q hq
    simp only [insertOrder, List.mem_singleton] at hq
    subst hq
    right; left; rfl
  | cons pl rest ih =>
    intro q hq
    by_cases hp : pl.price = p
    · simp only [insertOrder, if_pos hp, List.mem_cons] at hq
      rcases hq with rfl | hq
      · exact Or.inr (Or.inr ⟨pl, List.mem_cons_self _ _, hp, rfl⟩)
      · exact Or.inl (List.mem_cons_of_mem _ hq)
    · by_cases hb : priorB sd p pl.price
      · simp only [insertOrder, if_neg hp, if_pos hb, List.mem_cons] at hq
        rcases hq with rfl | hq
        · right; left; rfl
        · exact Or.inl (List.mem_cons.mpr hq)
      · simp only [insertOrder, if_neg hp, if_neg hb, List.mem_cons] at hq
        rcases hq with rfl | hq
        · exact Or.inl (List.mem_cons_self _ _)
        · rcases ih q hq with h | h | ⟨pl₀, hpl₀, h1, h2⟩
          · exact Or.inl (List.mem_cons_of_mem _ h)
          · exact Or.inr (Or.inl h)
          · exact Or.inr (Or.inr ⟨pl₀, List.mem_cons_of_mem _ hpl₀, h1, h2⟩)

theorem insertOrder_prices (sd : Side) (p : Nat) (o : Order) :
    ∀ (levels : List PriceLevel) (q : Nat),
      q ∈ (insertOrder sd p o levels).map PriceLevel.price →
      q ∈ levels.map PriceLevel.price ∨ q = p := by
  intro levels q hq
  simp only [List.mem_map] at hq
  obtain ⟨pl', hpl', rfl⟩ := hq
  rcases insertOrder_mem sd p o levels pl' hpl' with h | h | ⟨pl₀, hpl₀, h1, h2⟩
  · exact Or.inl (List.mem_map_of_mem _ h)
  · right; rw [h]; rfl
  · left
    rw [h2]
    simpa [PriceLevel.addToTail] using List.mem_map_of_mem PriceLevel.price hpl₀

theorem insertOrder_sorted (sd : Side) (p : Nat) (o : Order) :
    ∀ (levels : List PriceLevel), sortedSide sd levels →
      sortedSide sd (insertOrder sd p o levels) := by
  intro levels
  induction levels with
  | nil => intro _; simp [insertOrder, sortedSide, PriceLevel.addToTail]
  | cons pl rest ih =>
    intro hs
    rw [sortedSide, List.map_cons, List.pairwise_cons] at hs
    obtain ⟨hhd, hrest⟩ := hs
    by_cases hp : pl.price = p
    · simp only [insertOrder, if_pos hp]
      rw [sortedSide, List.map_cons, List.pairwise_cons]
      exact ⟨by simpa [PriceLevel.addToTail] using hhd, hrest⟩
    · by_cases hb : priorB sd p pl.price
      · simp only [insertOrder, if_neg hp, if_pos hb]
        rw [sortedSide, List.map_cons, List.pairwise_cons]
        constructor
        · intro q hq
          simp only [PriceLevel.addToTail, List.map_cons, List.mem_cons] at hq ⊢
          rcases hq with rfl | hq
          · exact hb
          · exact priorB_trans hb (hhd q hq)
        · rw [sortedSide, List.map_cons, List.pairwise_cons] at *
          exact ⟨hhd, hrest⟩
      · simp only [insertOrder, if_neg hp, if_neg hb]
        rw [sortedSide, List.map_cons, List.pairwise_cons]
        constructor
        · intro q hq
          rcases insertOrder_prices sd p o rest q hq with h | rfl
          · exact hhd q h
          · exact priorB_total (fun h => hp h.symm) (by simpa using hb)
        · exact ih hrest

theorem insertOrder_orders_perm (sd : Side) (p : Nat) (o : Order) :
    ∀ (levels : List PriceLevel),
      List.Perm (levelsOrders (insertOrder sd p o levels)) (o :: levelsOrders levels) := by
  intro levels
  induction levels with
  | nil => simp [insertOrder, PriceLevel.addToTail]
  | cons pl rest ih =>
    by_cases hp : pl.price = p
    · simp only [insertOrder, if_pos hp, levelsOrders_cons, PriceLevel.addToTail]
      have h1 := List.Perm.append_right (levelsOrders rest)
        (List.perm_append_singleton o pl.orders)
      simp only [List.append_assoc, List.singleton_append] at h1 ⊢
      exact h1
    · by_cases hb : priorB sd p pl.price
      · simp [insertOrder, if_neg hp, if_pos hb, PriceLevel.addToTail]
      · simp only [insertOrder, if_neg hp, if_neg hb, levelsOrders_cons]
        have h2 := List.Perm.append_left pl.orders ih
        exact h2.trans List.perm_middle

theorem insertOrder_levels_pred (sd rs : Side) (p : Nat) (o : Order)
    (hop : o.price = p) (hos : o.side = rs) (hoq : 0 < o.quantity)
    (hoqlt : o.quantity < 4294967296) :
    ∀ (levels : List PriceLevel), (∀ pl ∈ levels, LevelPred rs pl) →
      ∀ pl' ∈ insertOrder sd p o levels, LevelPred rs pl' := by
  intro levels hlv pl' hmem
  rcases insertOrder_mem sd p o levels pl' hmem with h | h | ⟨pl₀, hpl₀, h1, h2⟩
  · exact hlv pl' h
  · subst h
    refine ⟨by simp [PriceLevel.addToTail], ?_, ?_⟩
    · simp only [PriceLevel.addToTail]
      exact Nat.mod_lt _ (by omega)
    · intro x hx
      simp only [PriceLevel.addToTail, List.nil_append, List.mem_singleton] at hx
      subst hx
      exact ⟨hop, hos, hoq, hoqlt⟩
  · subst h2
    obtain ⟨hne, htq, hord⟩ := hlv pl₀ hpl₀
    refine ⟨by simp [PriceLevel.addToTail], ?_, ?_⟩
    · simp only [PriceLevel.addToTail]
      exact Nat.mod_lt _ (by omega)
    · intro x hx
      simp only [PriceLevel.addToTail, List.mem_append, List.mem_singleton] at hx
      rcases hx with hx | rfl
      · simpa [PriceLevel.addToTail] using hord x hx
      · exact ⟨by simp [PriceLevel.addToTail, hop, h1], by simp [PriceLevel.addToTail, hos],
          hoq, hoqlt⟩

theorem insertOrder_head (sd : Side) (p : Nat) (o : Order) :
    ∀ (levels : List PriceLevel), ∃ hd, (insertOrder sd p o levels).head? = some hd
      ∧ (hd.price = p ∨ ∃ pl, levels.head? = some pl ∧ hd.price = pl.price) := by
  intro levels
  cases levels with
  | nil => exact ⟨_, rfl, Or.inl rfl⟩
  | cons pl rest =>
    by_cases hp : pl.price = p
    · refine ⟨pl.addToTail o, by simp [insertOrder, hp], ?_⟩
      right; exact ⟨pl, rfl, by simp [PriceLevel.addToTail]⟩
    · by_cases hb : priorB sd p pl.price
      · refine ⟨PriceLevel.addToTail ⟨p, 0, []⟩ o, by simp [insertOrder, hp, hb], ?_⟩
        left
        simp [PriceLevel.addToTail]
      · exact ⟨pl, by simp [insertOrder, hp, hb], Or.inr ⟨pl, rfl, rfl⟩⟩

theorem idxLookup_eq_none_iff (idx : List (Nat × Nat)) (k : Nat) :
    idxLookup idx k = none ↔ ∀ e ∈ idx, e.1 ≠ k := by
  induction idx with
  | nil => simp [idxLookup]
  | cons e rest ih =>
    by_cases h : e.1 = k
    · simp [idxLookup, h]
    · simp [idxLookup, h, ih]

theorem idxLookup_isSome_iff (idx : List (Nat × Nat)) (k : Nat) :
    (idxLookup idx k).isSome = true ↔ ∃ σ, (k, σ) ∈ idx := by
  induction idx with
  | nil => simp [idxLookup]
  | cons e rest ih =>
    by_cases h : e.1 = k
    · subst h
      simp only [idxLookup, eq_self_iff_true, if_true, Option.isSome_some, true_iff]
      refine ⟨e.2, ?_⟩
      exact List.mem_cons_self _ _
    · simp only [idxLookup, if_neg h, ih, List.mem_cons]
      constructor
      · rintro ⟨σ, hσ⟩; exact ⟨σ, Or.inr hσ⟩
      · rintro ⟨σ, hσ | hσ⟩
        · exact absurd (congrArg Prod.fst hσ.symm) h
        · exact ⟨σ, hσ⟩

theorem idxLookup_mem {idx : List (Nat × Nat)} {k σ : Nat}
    (h : idxLookup idx k = some σ) : (k, σ) ∈ idx := by
  induction idx with
  | nil => simp [idxLookup] at h
  | cons e rest ih =>
    by_cases he : e.1 = k
    · simp only [idxLookup, if_pos he, Option.some.injEq] at h
      have : (k, σ) = e := by
        ext
        · exact he.symm
        · exact h.symm
      rw [this]
      exact List.mem_cons_self _ _
    · simp only [idxLookup, if_neg he] at h
      exact List.mem_cons_of_mem _ (ih h)

theorem mem_idxErase (idx : List (Nat × Nat)) (k : Nat) (e : Nat × Nat) :
    e ∈ idxErase idx k ↔ e ∈ idx ∧ e.1 ≠ k := by
  simp [idxErase, List.mem_filter]

theorem idxErase_sublist (idx : List (Nat × Nat)) (k : Nat) :
    List.Sublist (idxErase idx k) idx :=
  List.filter_sublist idx

theorem mem_eraseIds (removed : List Order) :
    ∀ (idx : List (Nat × Nat)) (e : Nat × Nat),
      e ∈ eraseIds removed idx ↔ e ∈ idx ∧ ∀ r ∈ removed, e.1 ≠ r.orderId := by
  induction removed with
  | nil => intro idx e; simp [eraseIds]
  | cons r rest ih =>
    intro idx e
    show e ∈ eraseIds rest (idxErase idx r.orderId) ↔ _
    rw [ih, mem_idxErase]
    constructor
    · rintro ⟨⟨h1, h2⟩, h3⟩
      refine ⟨h1, ?_⟩
      intro x hx
      rcases List.mem_cons.mp hx with rfl | hx
      · exact h2
      · exact h3 x hx
    · rintro ⟨h1, h2⟩
      exact ⟨⟨h1, h2 r (List.mem_cons_self _ _)⟩, fun x hx => h2 x (List.mem_cons_of_mem _ hx)⟩

theorem eraseIds_sublist (removed : List Order) :
    ∀ (idx : List (Nat × Nat)), List.Sublist (eraseIds removed idx) idx := by
  induction removed with
  | nil => intro idx; exact List.Sublist.refl _
  | cons r rest ih =>
    intro idx
    exact (ih (idxErase idx r.orderId)).trans (idxErase_sublist idx r.orderId)

theorem pushSlots_eq (removed : List Order) :
    ∀ (fl : List Nat), pushSlots removed fl = (removed.map Order.slot).reverse ++ fl := by
  induction removed with
  | nil => intro fl; rfl
  | cons r rest ih =>
    intro fl
    show pushSlots rest (r.slot :: fl) = _
    rw [ih]
    simp

theorem mem_tryEmplace (idx : List (Nat × Nat)) (k σ : Nat) (e : Nat × Nat) :
    e ∈ tryEmplace idx k σ → e = (k, σ) ∨ e ∈ idx := by
  unfold tryEmplace
  cases h : idxLookup idx k with
  | some v => exact fun hm => Or.inr hm
  | none =>
    intro hm
    rcases List.mem_cons.mp hm with rfl | hm
    · exact Or.inl rfl
    · exact Or.inr hm

/-! ## State invariant -/

/-- The other side. -/
def flipSide : Side → Side
  | Side.Buy => Side.Sell
  | Side.Sell => Side.Buy

/-- All orders currently linked in the engine, bids then asks. -/
def allOrders (s : State) : List Order :=
  levelsOrders s.bids ++ levelsOrders s.asks

/-- The data-structure invariant the engine maintains between operations
(spec §3 I1-I5, P1-P5): both side books sorted best-first, the book
uncrossed, per-level well-formedness, every arena slot linked at most
once, the free list disjoint from the linked slots, and the OrderIndex
mapping ids to linked orders with matching ids, with unique keys. -/
def EngineInv (s : State) : Prop :=
  sortedSide Side.Buy s.bids ∧
  sortedSide Side.Sell s.asks ∧
  uncrossedB s = true ∧
  (∀ pl ∈ s.bids, LevelPred Side.Buy pl) ∧
  (∀ pl ∈ s.asks, LevelPred Side.Sell pl) ∧
  (levelsSlots s.bids ++ levelsSlots s.asks).Nodup ∧
  (∀ σ ∈ s.freeList, σ ∉ levelsSlots s.bids ∧ σ ∉ levelsSlots s.asks) ∧
  s.freeList.Nodup ∧
  (s.orderIndex.map Prod.fst).Nodup ∧
  (∀ e ∈ s.orderIndex, ∃ o ∈ allOrders s, o.slot = e.2 ∧ o.orderId = e.1)

instance (s : State) : Decidable (EngineInv s) := by
  unfold EngineInv; infer_instance

theorem inv_mkEngine (capacity : Nat) : EngineInv (mkEngine capacity) := by
  refine ⟨?_, ?_, ?_, ?_, ?_, ?_, ?_, ?_, ?_, ?_⟩ <;>
    simp [mkEngine, sortedSide, uncrossedB, allOrders, List.nodup_range]

/-- In a sorted side book, the head level is the best: every level price
is the head's price or strictly worse. -/
theorem sorted_head_best {sd : Side} {levels : List PriceLevel} {hd : PriceLevel}
    (hs : sortedSide sd levels) (hh : levels.head? = some hd) :
    ∀ x ∈ levels.map PriceLevel.price, x = hd.price ∨ priorB sd hd.price x = true := by
  cases levels with
  | nil => simp at hh
  | cons l rest =>
    simp only [List.head?_cons, Option.some.injEq] at hh
    subst hh
    rw [sortedSide, List.map_cons, List.pairwise_cons] at hs
    intro x hx
    simp only [List.map_cons, List.mem_cons] at hx
    rcases hx with rfl | hx
    · exact Or.inl rfl
    · exact Or.inr (hs.1 x hx)

/-- Two linked orders with the same slot are the same order. -/
theorem slot_inj {L : List PriceLevel} (hnd : (levelsSlots L).Nodup)
    {a b : Order} (ha : a ∈ levelsOrders L) (hb : b ∈ levelsOrders L)
    (hs : a.slot = b.slot) : a = b := by
  have : (List.map Order.slot (levelsOrders L)).Nodup := hnd
  exact List.inj_on_of_nodup_map this ha hb hs

theorem mem_levelsSlots {L : List PriceLevel} {x : Nat} :
    x ∈ levelsSlots L ↔ ∃ o ∈ levelsOrders L, o.slot = x := by
  simp [levelsSlots]

/-- `uncrossedB` in terms of the side-generic crossing predicate, from the
buy side's point of view. -/
theorem uncrossedB_iff_buy (s : State) :
    uncrossedB s = true ↔
      ∀ bb ∈ s.bids.head?, ∀ ba ∈ s.asks.head?,
        crossesPrice Side.Buy bb.price ba.price = false := by
  unfold uncrossedB
  cases hb : s.bids.head? with
  | none => simp
  | some bb =>
    cases ha : s.asks.head? with
    | none => simp
    | some ba => simp [crossesPrice]

/-- `uncrossedB` in terms of the side-generic crossing predicate, from the
sell side's point of view. -/
theorem uncrossedB_iff_sell (s : State) :
    uncrossedB s = true ↔
      ∀ ah ∈ s.asks.head?, ∀ bh ∈ s.bids.head?,
        crossesPrice Side.Sell ah.price bh.price = false := by
  unfold uncrossedB
  cases hb : s.bids.head? with
  | none => simp
  | some bb =>
    cases ha : s.asks.head? with
    | none => simp
    | some ba => simp [crossesPrice]

/-! ## `addMatchResult` wrappers (match loop or identity) -/

theorem addMatchResult_eq (s : State) (sd : Side) (p q id pid : Nat) :
    addMatchResult s sd p q id pid
      = if doCross s sd p then matchBook sd id pid p q (oppLevels s sd)
        else ⟨q, oppLevels s sd, [], [], none, 0⟩ := rfl

theorem amr_slots (s : State) (sd : Side) (p q id pid : Nat) :
    (addMatchResult s sd p q id pid).removed.map Order.slot
      ++ levelsSlots (addMatchResult s sd p q id pid).levels
      = levelsSlots (oppLevels s sd) := by
  rw [addMatchResult_eq]
  by_cases h : doCross s sd p
  · simp only [if_pos h]
    exact matchBook_slots sd id pid p (oppLevels s sd) q
  · simp [if_neg h]

theorem amr_orders_from (s : State) (sd : Side) (p q id pid : Nat) :
    ∀ o ∈ levelsOrders (addMatchResult s sd p q id pid).levels,
      ∃ o' ∈ levelsOrders (oppLevels s sd), o = { o' with quantity := o.quantity }
        ∧ o.quantity ≤ o'.quantity := by
  rw [addMatchResult_eq]
  by_cases h : doCross s sd p
  · simp only [if_pos h]
    exact matchBook_orders_from sd id pid p (oppLevels s sd) q
  · simp only [if_neg h]
    exact fun o ho => ⟨o, ho, rfl, le_refl _⟩

theorem amr_removed_from (s : State) (sd : Side) (p q id pid : Nat) :
    ∀ o ∈ (addMatchResult s sd p q id pid).removed,
      ∃ pl ∈ oppLevels s sd, ∃ o' ∈ pl.orders,
        o'.slot = o.slot ∧ o'.orderId = o.orderId ∧ o.quantity = 0 := by
  rw [addMatchResult_eq]
  by_cases h : doCross s sd p
  · simp only [if_pos h]
    exact matchBook_removed_from sd id pid p (oppLevels s sd) q
  · simp [if_neg h]

theorem amr_prices_suffix (s : State) (sd : Side) (p q id pid : Nat) :
    ∃ dropped, (oppLevels s sd).map PriceLevel.price
      = dropped ++ (addMatchResult s sd p q id pid).levels.map PriceLevel.price := by
  rw [addMatchResult_eq]
  by_cases h : doCross s sd p
  · simp only [if_pos h]
    exact matchBook_prices_suffix sd id pid p (oppLevels s sd) q
  · exact ⟨[], by simp [if_neg h]⟩

theorem amr_levels_pred (s : State) (sd rs : Side) (p q id pid : Nat)
    (hlv : ∀ pl ∈ oppLevels s sd, LevelPred rs pl) :
    ∀ pl' ∈ (addMatchResult s sd p q id pid).levels, LevelPred rs pl' := by
  rw [addMatchResult_eq]
  by_cases h : doCross s sd p
  · simp only [if_pos h]
    exact matchBook_levels_pred sd rs id pid p (oppLevels s sd) q hlv
  · simp only [if_neg h]
    exact hlv

theorem amr_conserv_inc (s : State) (sd : Side) (p q id pid : Nat) :
    (addMatchResult s sd p q id pid).qty
      + (match (addMatchResult s sd p q id pid).blocker with
          | some _ => (addMatchResult s sd p q id pid).smpQty
          | none => 0)
      + sumTr (addMatchResult s sd p q id pid).trades = q := by
  rw [addMatchResult_eq]
  by_cases h : doCross s sd p
  · simp only [if_pos h]
    exact matchBook_conserv_inc sd id pid p (oppLevels s sd) q
  · simp [if_neg h]

theorem amr_qty_le (s : State) (sd : Side) (p q id pid : Nat) :
    (addMatchResult s sd p q id pid).qty ≤ q := by
  have := amr_conserv_inc s sd p q id pid
  omega

theorem amr_blocker (s : State) (sd : Side) (p q id pid : Nat) (b : Order) :
    (addMatchResult s sd p q id pid).blocker = some b →
    (addMatchResult s sd p q id pid).qty = 0
      ∧ (∃ pl₀ ∈ oppLevels s sd, b ∈ pl₀.orders ∧ crossesPrice sd p pl₀.price = true)
      ∧ b.participantId = pid
      ∧ (∃ plh lrest, (addMatchResult s sd p q id pid).levels = plh :: lrest
          ∧ plh.orders.head? = some b) := by
  rw [addMatchResult_eq]
  by_cases h : doCross s sd p
  · simp only [if_pos h]
    exact matchBook_blocker sd id pid p (oppLevels s sd) q b
  · simp [if_neg h]

theorem amr_noRest (s : State) (sd : Side) (p q id pid : Nat) :
    (addMatchResult s sd p q id pid).blocker = none →
    0 < (addMatchResult s sd p q id pid).qty →
    (addMatchResult s sd p q id pid).levels = []
      ∨ ∃ plh lrest, (addMatchResult s sd p q id pid).levels = plh :: lrest
          ∧ crossesPrice sd p plh.price = false := by
  rw [addMatchResult_eq]
  by_cases h : doCross s sd p
  · simp only [if_pos h]
    exact matchBook_noRest sd id pid p (oppLevels s sd) q
  · simp only [if_neg h]
    intro _ _
    cases hop : (oppLevels s sd) with
    | nil => exact Or.inl rfl
    | cons plh lrest =>
      right
      refine ⟨plh, lrest, rfl, ?_⟩
      unfold doCross at h
      rw [hop] at h
      simpa using h

theorem amr_trades (s : State) (sd : Side) (p q id pid : Nat)
    (hq : ∀ pl ∈ oppLevels s sd, ∀ o ∈ pl.orders, 0 < o.quantity) :
    ∀ t ∈ (addMatchResult s sd p q id pid).trades,
      ∃ pl ∈ oppLevels s sd, crossesPrice sd p pl.price = true
        ∧ ∃ r ∈ pl.orders, ∃ f, 0 < f ∧ f ≤ r.quantity
            ∧ t = mkTradeFor sd id r.orderId pl.price f := by
  rw [addMatchResult_eq]
  by_cases h : doCross s sd p
  · simp only [if_pos h]
    exact matchBook_trades sd id pid p (oppLevels s sd) q hq
  · simp [if_neg h]

theorem amr_incomingId (s : State) (sd : Side) (p q id pid : Nat) :
    ∀ t ∈ (addMatchResult s sd p q id pid).trades, incomingIdOf sd t = id := by
  rw [addMatchResult_eq]
  by_cases h : doCross s sd p
  · simp only [if_pos h]
    exact matchBook_incomingId sd id pid p (oppLevels s sd) q
  · simp [if_neg h]

theorem amr_perId (s : State) (sd : Side) (p q id pid id₀ : Nat) :
    sumQ ((levelsOrders (addMatchResult s sd p q id pid).levels).filter
            (fun o => o.orderId == id₀))
      + sumTr ((addMatchResult s sd p q id pid).trades.filter
            (fun t => restingIdOf sd t == id₀))
      = sumQ ((levelsOrders (oppLevels s sd)).filter (fun o => o.orderId == id₀)) := by
  rw [addMatchResult_eq]
  by_cases h : doCross s sd p
  · simp only [if_pos h]
    exact matchBook_perId sd id pid p (oppLevels s sd) q id₀
  · simp [if_neg h]

theorem amr_conserv_book (s : State) (sd : Side) (p q id pid : Nat) :
    sumQ (levelsOrders (addMatchResult s sd p q id pid).levels)
      + sumTr (addMatchResult s sd p q id pid).trades
      = sumQ (levelsOrders (oppLevels s sd)) := by
  rw [addMatchResult_eq]
  by_cases h : doCross s sd p
  · simp only [if_pos h]
    exact matchBook_conserv_book sd id pid p (oppLevels s sd) q
  · simp [if_neg h]

/-! ## Side-generic views of the invariant -/

@[simp] theorem flipSide_buy : flipSide Side.Buy = Side.Sell := rfl

@[simp] theorem flipSide_sell : flipSide Side.Sell = Side.Buy := rfl

theorem ownLevels_setOwn (s : State) (sd : Side) (L : List PriceLevel) :
    ownLevels (setOwn s sd L) sd = L := by cases sd <;> rfl

theorem oppLevels_setOwn (s : State) (sd : Side) (L : List PriceLevel) :
    oppLevels (setOwn s sd L) sd = oppLevels s sd := by cases sd <;> rfl

theorem ownLevels_setOpp (s : State) (sd : Side) (L : List PriceLevel) :
    ownLevels (setOpp s sd L) sd = ownLevels s sd := by cases sd <;> rfl

theorem oppLevels_setOpp (s : State) (sd : Side) (L : List PriceLevel) :
    oppLevels (setOpp s sd L) sd = L := by cases sd <;> rfl

theorem inv_own_sorted {s : State} (h : EngineInv s) (sd : Side) :
    sortedSide sd (ownLevels s sd) := by
  cases sd
  · exact h.1
  · exact h.2.1

theorem inv_opp_sorted {s : State} (h : EngineInv s) (sd : Side) :
    sortedSide (flipSide sd) (oppLevels s sd) := by
  cases sd
  · exact h.2.1
  · exact h.1

theorem inv_own_pred {s : State} (h : EngineInv s) (sd : Side) :
    ∀ pl ∈ ownLevels s sd, LevelPred sd pl := by
  cases sd
  · exact h.2.2.2.1
  · exact h.2.2.2.2.1

theorem inv_opp_pred {s : State} (h : EngineInv s) (sd : Side) :
    ∀ pl ∈ oppLevels s sd, LevelPred (flipSide sd) pl := by
  cases sd
  · exact h.2.2.2.2.1
  · exact h.2.2.2.1

theorem inv_slots_nodup {s : State} (h : EngineInv s) (sd : Side) :
    (levelsSlots (ownLevels s sd) ++ levelsSlots (oppLevels s sd)).Nodup := by
  cases sd
  · exact h.2.2.2.2.2.1
  · exact (List.perm_append_comm).nodup_iff.mpr h.2.2.2.2.2.1

theorem inv_free {s : State} (h : EngineInv s) (sd : Side) :
    ∀ σ ∈ s.freeList, σ ∉ levelsSlots (ownLevels s sd)
      ∧ σ ∉ levelsSlots (oppLevels s sd) := by
  cases sd
  · exact h.2.2.2.2.2.2.1
  · intro σ hσ
    exact (h.2.2.2.2.2.2.1 σ hσ).symm

theorem inv_freeN {s : State} (h : EngineInv s) : s.freeList.Nodup :=
  h.2.2.2.2.2.2.2.1

theorem inv_keys {s : State} (h : EngineInv s) : (s.orderIndex.map Prod.fst).Nodup :=
  h.2.2.2.2.2.2.2.2.1

theorem inv_valid {s : State} (h : EngineInv s) (sd : Side) :
    ∀ e ∈ s.orderIndex, ∃ o ∈ levelsOrders (ownLevels s sd)
        ++ levelsOrders (oppLevels s sd), o.slot = e.2 ∧ o.orderId = e.1 := by
  intro e he
  obtain ⟨o, ho, h1, h2⟩ := h.2.2.2.2.2.2.2.2.2 e he
  refine ⟨o, ?_, h1, h2⟩
  cases sd
  · exact ho
  · exact List.mem_append.mpr (List.mem_append.mp ho).symm

theorem inv_uncross {s : State} (h : EngineInv s) (sd : Side) :
    ∀ oh ∈ (ownLevels s sd).head?, ∀ ph ∈ (oppLevels s sd).head?,
      crossesPrice sd oh.price ph.price = false := by
  cases sd
  · exact (uncrossedB_iff_buy s).mp h.2.2.1
  · exact (uncrossedB_iff_sell s).mp h.2.2.1

/-- Rebuild the invariant from side-generic components. -/
theorem engineInv_of_sides (s' : State) (sd : Side)
    (h1 : sortedSide sd (ownLevels s' sd))
    (h2 : sortedSide (flipSide sd) (oppLevels s' sd))
    (h3 : ∀ oh ∈ (ownLevels s' sd).head?, ∀ ph ∈ (oppLevels s' sd).head?,
        crossesPrice sd oh.price ph.price = false)
    (h4 : ∀ pl ∈ ownLevels s' sd, LevelPred sd pl)
    (h5 : ∀ pl ∈ oppLevels s' sd, LevelPred (flipSide sd) pl)
    (h6 : (levelsSlots (ownLevels s' sd) ++ levelsSlots (oppLevels s' sd)).Nodup)
    (h7 : ∀ σ ∈ s'.freeList, σ ∉ levelsSlots (ownLevels s' sd)
        ∧ σ ∉ levelsSlots (oppLevels s' sd))
    (h8 : s'.freeList.Nodup)
    (h9 : (s'.orderIndex.map Prod.fst).Nodup)
    (h10 : ∀ e ∈ s'.orderIndex, ∃ o ∈ levelsOrders (ownLevels s' sd)
        ++ levelsOrders (oppLevels s' sd), o.slot = e.2 ∧ o.orderId = e.1) :
    EngineInv s' := by
  cases sd
  · exact ⟨h1, h2, (uncrossedB_iff_buy s').mpr h3, h4, h5, h6, h7, h8, h9, h10⟩
  · refine ⟨h2, h1, (uncrossedB_iff_sell s').mpr h3, h5, h4,
      (List.perm_append_comm).nodup_iff.mpr h6,
      fun σ hσ => (h7 σ hσ).symm, h8, h9, ?_⟩
    intro e he
    obtain ⟨o, ho, ha, hb⟩ := h10 e he
    exact ⟨o, List.mem_append.mpr (List.mem_append.mp ho).symm, ha, hb⟩

theorem mem_levelsOrders {L : List PriceLevel} {o : Order} :
    o ∈ levelsOrders L ↔ ∃ pl ∈ L, o ∈ pl.orders := by
  simp [levelsOrders, List.mem_flatten]

theorem mem_of_head? {α : Type} {l : List α} {a : α} (h : l.head? = some a) : a ∈ l := by
  cases l with
  | nil => simp at h
  | cons x xs =>
    simp only [List.head?_cons, Option.some.injEq] at h
    subst h
    exact List.mem_cons_self _ _

theorem keys_not_mem {idx : List (Nat × Nat)} {k : Nat}
    (h : ∀ e ∈ idx, e.1 ≠ k) : k ∉ idx.map Prod.fst := by
  intro hk
  obtain ⟨e, he, hek⟩ := List.mem_map.mp hk
  exact h e he hek

theorem crossesPrice_mono {sd : Side} {a b b' : Nat}
    (h : crossesPrice sd a b = false)
    (h2 : b' = b ∨ priorB (flipSide sd) b b' = true) :
    crossesPrice sd a b' = false := by
  rcases h2 with rfl | h2
  · exact h
  · cases sd <;>
      simp only [crossesPrice, priorB, flipSide, decide_eq_false_iff_not,
        decide_eq_true_eq] at h h2 ⊢ <;> omega

theorem state_upd_own (x : State) (sd : Side) (i : List (Nat × Nat)) (f : List Nat)
    (n : Nat) : ownLevels { x with orderIndex := i, freeList := f, sequence := n } sd
      = ownLevels x sd := by cases sd <;> rfl

theorem state_upd_opp (x : State) (sd : Side) (i : List (Nat × Nat)) (f : List Nat)
    (n : Nat) : oppLevels { x with orderIndex := i, freeList := f, sequence := n } sd
      = oppLevels x sd := by cases sd <;> rfl

theorem setOwn_orderIndex (x : State) (sd : Side) (L : List PriceLevel) :
    (setOwn x sd L).orderIndex = x.orderIndex := by cases sd <;> rfl

theorem setOpp_orderIndex (x : State) (sd : Side) (L : List PriceLevel) :
    (setOpp x sd L).orderIndex = x.orderIndex := by cases sd <;> rfl

theorem setOwn_freeList (x : State) (sd : Side) (L : List PriceLevel) :
    (setOwn x sd L).freeList = x.freeList := by cases sd <;> rfl

theorem setOpp_freeList (x : State) (sd : Side) (L : List PriceLevel) :
    (setOpp x sd L).freeList = x.freeList := by cases sd <;> rfl

/-- Characterization of a successful `addLimitOrder` call. -/
theorem addLimitOrder_some {s : State} {sd : Side} {p q id pid : Nat} {s' : State}
    {ts : List Trade} (h : addLimitOrder s sd p q id pid = some (s', ts)) :
    ∃ slot fl, s.freeList = slot :: fl
      ∧ ts = (addMatchResult s sd p q id pid).trades
      ∧ ((0 < (addMatchResult s sd p q id pid).qty
          ∧ s' = { setOwn (setOpp s sd (addMatchResult s sd p q id pid).levels) sd
                    (insertOrder sd p
                      ⟨id, p, (addMatchResult s sd p q id pid).qty, s.sequence, sd, pid, slot⟩
                      (ownLevels s sd)) with
                    orderIndex := tryEmplace
                      (eraseIds (addMatchResult s sd p q id pid).removed s.orderIndex) id slot,
                    freeList := pushSlots (addMatchResult s sd p q id pid).removed fl,
                    sequence := wrap64 (s.sequence + 1) })
        ∨ ((addMatchResult s sd p q id pid).qty = 0
          ∧ s' = { setOpp s sd (addMatchResult s sd p q id pid).levels with
                    orderIndex := eraseIds (addMatchResult s sd p q id pid).removed s.orderIndex,
                    freeList := slot :: pushSlots (addMatchResult s sd p q id pid).removed fl,
                    sequence := wrap64 (s.sequence + 1) })) := by
  cases hfl : s.freeList with
  | nil => rw [addLimitOrder, hfl] at h; simp at h
  | cons slot fl =>
    rw [addLimitOrder, hfl] at h
    by_cases h0 : 0 < (addMatchResult s sd p q id pid).qty
    · simp only [if_pos h0, Option.some.injEq, Prod.mk.injEq] at h
      exact ⟨slot, fl, rfl, h.2.symm, Or.inl ⟨h0, h.1.symm⟩⟩
    · simp only [if_neg h0, Option.some.injEq, Prod.mk.injEq] at h
      exact ⟨slot, fl, rfl, h.2.symm, Or.inr ⟨by omega, h.1.symm⟩⟩

/-- `addLimitOrder` preserves the engine invariant (quantities are
`uint32_t` in the source, hence the bound on `q`). -/
theorem inv_addLimitOrder {s : State} {sd : Side} {p q id pid : Nat} {s' : State}
    {ts : List Trade} (hinv : EngineInv s) (hq32 : q < 4294967296)
    (hadd : addLimitOrder s sd p q id pid = some (s', ts)) : EngineInv s' := by
  obtain ⟨slot, fl, hfl, hts, hcase⟩ := addLimitOrder_some hadd
  have hOwnS := inv_own_sorted hinv sd
  have hOppS := inv_opp_sorted hinv sd
  have hOwnP := inv_own_pred hinv sd
  have hOppP := inv_opp_pred hinv sd
  have hNd := inv_slots_nodup hinv sd
  have hFree := inv_free hinv sd
  have hFlN : (slot :: fl).Nodup := hfl ▸ inv_freeN hinv
  have hKeys := inv_keys hinv
  have hValid := inv_valid hinv sd
  have hUn := inv_uncross hinv sd
  have hslots := amr_slots s sd p q id pid
  have hpred' : ∀ pl' ∈ (addMatchResult s sd p q id pid).levels, LevelPred (flipSide sd) pl' :=
    amr_levels_pred s sd _ p q id pid hOppP
  obtain ⟨dsuf, hsuffix⟩ := amr_prices_suffix s sd p q id pid
  have hOppS' : sortedSide (flipSide sd) (addMatchResult s sd p q id pid).levels := by
    unfold sortedSide at hOppS ⊢
    rw [hsuffix] at hOppS
    exact hOppS.sublist (List.sublist_append_right dsuf _)
  have hNdSplit := List.nodup_append.mp hNd
  have hOppNd : (levelsSlots (oppLevels s sd)).Nodup := hNdSplit.2.1
  have hOwnNd : (levelsSlots (ownLevels s sd)).Nodup := hNdSplit.1
  have hDisj : (levelsSlots (ownLevels s sd)).Disjoint (levelsSlots (oppLevels s sd)) :=
    hNdSplit.2.2
  have hOppSplit := hslots ▸ hOppNd
  have hOppSplitNd := List.nodup_append.mp (by rw [hslots]; exact hOppNd :
    ((addMatchResult s sd p q id pid).removed.map Order.slot
      ++ levelsSlots (addMatchResult s sd p q id pid).levels).Nodup)
  have hOppSub : ∀ x ∈ levelsSlots (addMatchResult s sd p q id pid).levels,
      x ∈ levelsSlots (oppLevels s sd) := by
    intro x hx
    rw [← hslots]
    exact List.mem_append_right _ hx
  have hRemSub : ∀ x ∈ (addMatchResult s sd p q id pid).removed.map Order.slot,
      x ∈ levelsSlots (oppLevels s sd) := by
    intro x hx
    rw [← hslots]
    exact List.mem_append_left _ hx
  have hOppSl : List.Sublist (levelsSlots (addMatchResult s sd p q id pid).levels)
      (levelsSlots (oppLevels s sd)) := by
    rw [← hslots]
    exact List.sublist_append_right _ _
  have hRemSl : List.Sublist ((addMatchResult s sd p q id pid).removed.map Order.slot)
      (levelsSlots (oppLevels s sd)) := by
    rw [← hslots]
    exact List.sublist_append_left _ _
  have hSlotFree : slot ∉ levelsSlots (ownLevels s sd)
      ∧ slot ∉ levelsSlots (oppLevels s sd) :=
    hFree slot (by rw [hfl]; exact List.mem_cons_self _ _)
  have hFlFree : ∀ σ ∈ fl, σ ∉ levelsSlots (ownLevels s sd)
      ∧ σ ∉ levelsSlots (oppLevels s sd) :=
    fun σ hσ => hFree σ (by rw [hfl]; exact List.mem_cons_of_mem _ hσ)
  -- the new best opposite level does not cross prices the old best did not
  have hOppHead : ∀ ph' ∈ (addMatchResult s sd p q id pid).levels.head?,
      ∀ ph ∈ (oppLevels s sd).head?,
        ph'.price = ph.price ∨ priorB (flipSide sd) ph.price ph'.price = true := by
    intro ph' hph' ph hph
    have hm : ph'.price ∈ (oppLevels s sd).map PriceLevel.price := by
      rw [hsuffix]
      exact List.mem_append_right _ (List.mem_map_of_mem _ (mem_of_head? hph'))
    exact sorted_head_best hOppS hph ph'.price hm
  have hOppNonempty : ∀ ph' ∈ (addMatchResult s sd p q id pid).levels.head?,
      ∃ ph, (oppLevels s sd).head? = some ph := by
    intro ph' hph'
    cases hop : oppLevels s sd with
    | nil =>
      exfalso
      have : (oppLevels s sd).map PriceLevel.price = [] := by rw [hop]; rfl
      rw [this] at hsuffix
      have := List.append_eq_nil.mp hsuffix.symm
      cases hlv : (addMatchResult s sd p q id pid).levels with
      | nil => rw [hlv] at hph'; simp at hph'
      | cons a b => rw [hlv] at this; simp at this
    | cons a b => exact ⟨a, rfl⟩
  -- index validity against the post-match books
  have hValidMatch : ∀ e ∈ eraseIds (addMatchResult s sd p q id pid).removed s.orderIndex,
      ∃ o ∈ levelsOrders (ownLevels s sd)
          ++ levelsOrders (addMatchResult s sd p q id pid).levels,
        o.slot = e.2 ∧ o.orderId = e.1 := by
    intro e he
    obtain ⟨heIdx, heNot⟩ := (mem_eraseIds _ _ _).mp he
    obtain ⟨o', ho', hs1, hs2⟩ := hValid e heIdx
    rcases List.mem_append.mp ho' with hown | hopp
    · exact ⟨o', List.mem_append_left _ hown, hs1, hs2⟩
    · by_cases hrem : o'.slot ∈ (addMatchResult s sd p q id pid).removed.map Order.slot
      · exfalso
        obtain ⟨r, hr, hrs⟩ := List.mem_map.mp hrem
        obtain ⟨pl₀, hpl₀, orig, horig, ho1, ho2, _⟩ :=
          amr_removed_from s sd p q id pid r hr
        have horigm : orig ∈ levelsOrders (oppLevels s sd) :=
          mem_levelsOrders.mpr ⟨pl₀, hpl₀, horig⟩
        have : orig = o' := slot_inj hOppNd horigm hopp (by rw [ho1, hrs])
        exact heNot r hr (by rw [← hs2, ← this, ho2])
      · have hos : o'.slot ∈ levelsSlots (addMatchResult s sd p q id pid).levels := by
          have : o'.slot ∈ levelsSlots (oppLevels s sd) :=
            mem_levelsSlots.mpr ⟨o', hopp, rfl⟩
          rw [← hslots] at this
          rcases List.mem_append.mp this with h | h
          · exact absurd h hrem
          · exact h
        obtain ⟨o'', ho'', hs''⟩ := mem_levelsSlots.mp hos
        obtain ⟨orig', horig', heq', _⟩ := amr_orders_from s sd p q id pid o'' ho''
        have horigeq : orig' = o' := slot_inj hOppNd horig' hopp (by
          have : o''.slot = orig'.slot := by rw [heq']
          rw [← this, hs''])
        refine ⟨o'', List.mem_append_right _ ho'', by rw [hs'', hs1], ?_⟩
        have : o''.orderId = orig'.orderId := by rw [heq']
        rw [this, horigeq, hs2]
  rcases hcase with ⟨hq0, hs'⟩ | ⟨hq0, hs'⟩
  · -- the remainder rests on its own side
    subst hs'
    set o : Order := ⟨id, p, (addMatchResult s sd p q id pid).qty, s.sequence, sd, pid, slot⟩
      with ho
    have hperm : List.Perm (levelsOrders (insertOrder sd p o (ownLevels s sd)))
        (o :: levelsOrders (ownLevels s sd)) := insertOrder_orders_perm sd p o _
    have hpermS : List.Perm (levelsSlots (insertOrder sd p o (ownLevels s sd)))
        (slot :: levelsSlots (ownLevels s sd)) := by
      have := hperm.map Order.slot
      simpa [levelsSlots] using this
    refine engineInv_of_sides _ sd ?_ ?_ ?_ ?_ ?_ ?_ ?_ ?_ ?_ ?_
    · simp only [state_upd_own, ownLevels_setOwn]
      exact insertOrder_sorted sd p o _ hOwnS
    · simp only [state_upd_opp, oppLevels_setOwn, oppLevels_setOpp]
      exact hOppS'
    · simp only [state_upd_own, state_upd_opp, ownLevels_setOwn, oppLevels_setOwn, oppLevels_setOpp]
      intro oh hoh ph hph
      obtain ⟨hd, hhd, hdpr⟩ := insertOrder_head sd p o (ownLevels s sd)
      rw [hhd] at hoh
      simp only [Option.mem_def, Option.some.injEq] at hoh
      subst hoh
      rcases hdpr with hdp | ⟨pl₀, hpl₀, hdp⟩
      · -- the freshly rested price does not cross the remaining best
        cases hbk : (addMatchResult s sd p q id pid).blocker with
        | some b =>
          have := (amr_blocker s sd p q id pid b hbk).1
          omega
        | none =>
          rcases amr_noRest s sd p q id pid hbk hq0 with hemp | ⟨plh, lrest, heq, hcf⟩
          · rw [hemp] at hph; simp at hph
          · rw [heq] at hph
            simp only [List.head?_cons, Option.mem_def, Option.some.injEq] at hph
            subst hph
            rw [hdp]
            exact hcf
      · -- the old best own price still does not cross
        obtain ⟨ph₀, hph₀⟩ := hOppNonempty ph hph
        have hbase := hUn pl₀ hpl₀ ph₀ hph₀
        have hrel := hOppHead ph hph ph₀ hph₀
        rw [hdp]
        exact crossesPrice_mono hbase hrel
    · simp only [state_upd_own, ownLevels_setOwn]
      refine insertOrder_levels_pred sd sd p o rfl rfl hq0 ?_ _ hOwnP
      have := amr_qty_le s sd p q id pid
      simp only [ho]
      omega
    · simp only [state_upd_opp, oppLevels_setOwn, oppLevels_setOpp]
      exact hpred'
    · simp only [state_upd_own, state_upd_opp, ownLevels_setOwn, oppLevels_setOwn, oppLevels_setOpp]
      have hstep : List.Perm
          (levelsSlots (insertOrder sd p o (ownLevels s sd))
            ++ levelsSlots (addMatchResult s sd p q id pid).levels)
          (slot :: (levelsSlots (ownLevels s sd)
            ++ levelsSlots (addMatchResult s sd p q id pid).levels)) :=
        hpermS.append_right _
      rw [List.Perm.nodup_iff hstep]
      refine List.nodup_cons.mpr ⟨?_, ?_⟩
      · intro hmem
        rcases List.mem_append.mp hmem with h | h
        · exact hSlotFree.1 h
        · exact hSlotFree.2 (hOppSub _ h)
      · refine List.nodup_append.mpr ⟨hOwnNd, hOppNd.sublist hOppSl, ?_⟩
        intro x hx hx'
        exact hDisj hx (hOppSub _ hx')
    · simp only [state_upd_own, state_upd_opp, ownLevels_setOwn, oppLevels_setOwn, oppLevels_setOpp]
      show ∀ σ ∈ pushSlots (addMatchResult s sd p q id pid).removed fl, _
      rw [pushSlots_eq]
      intro σ hσ
      rcases List.mem_append.mp hσ with h | h
      · have hrm : σ ∈ (addMatchResult s sd p q id pid).removed.map Order.slot :=
          List.mem_reverse.mp h
        have hσopp : σ ∈ levelsSlots (oppLevels s sd) := hRemSub _ hrm
        constructor
        · intro hmem
          rcases List.mem_cons.mp ((hpermS.mem_iff).mp hmem) with rfl | hmem'
          · exact hSlotFree.2 hσopp
          · exact hDisj hmem' hσopp
        · intro hmem
          exact hOppSplitNd.2.2 hrm hmem
      · obtain ⟨h1, h2⟩ := hFlFree σ h
        constructor
        · intro hmem
          rcases List.mem_cons.mp ((hpermS.mem_iff).mp hmem) with rfl | hmem'
          · exact (List.nodup_cons.mp hFlN).1 h
          · exact h1 hmem'
        · intro hmem
          exact h2 (hOppSub _ hmem)
    · show (pushSlots (addMatchResult s sd p q id pid).removed fl).Nodup
      rw [pushSlots_eq]
      refine List.nodup_append.mpr ⟨?_, (List.nodup_cons.mp hFlN).2, ?_⟩
      · exact List.nodup_reverse.mpr (hOppNd.sublist hRemSl)
      · intro x hx hx'
        have hrm : x ∈ (addMatchResult s sd p q id pid).removed.map Order.slot :=
          List.mem_reverse.mp hx
        exact (hFlFree x hx').2 (hRemSub _ hrm)
    · show ((tryEmplace (eraseIds (addMatchResult s sd p q id pid).removed s.orderIndex)
          id slot).map Prod.fst).Nodup
      have hSubKeys : ((eraseIds (addMatchResult s sd p q id pid).removed
          s.orderIndex).map Prod.fst).Nodup :=
        hKeys.sublist ((eraseIds_sublist _ _).map Prod.fst)
      unfold tryEmplace
      cases hlk : idxLookup (eraseIds (addMatchResult s sd p q id pid).removed
          s.orderIndex) id with
      | some v => exact hSubKeys
      | none =>
        simp only [List.map_cons]
        refine List.nodup_cons.mpr ⟨?_, hSubKeys⟩
        exact keys_not_mem ((idxLookup_eq_none_iff _ _).mp hlk)
    · simp only [state_upd_own, state_upd_opp, ownLevels_setOwn, oppLevels_setOwn, oppLevels_setOpp]
      intro e he
      rcases mem_tryEmplace _ _ _ _ he with rfl | he'
      · refine ⟨o, List.mem_append_left _ (hperm.mem_iff.mpr (List.mem_cons_self _ _)),
          rfl, rfl⟩
      · obtain ⟨o'', ho'', h1, h2⟩ := hValidMatch e he'
        rcases List.mem_append.mp ho'' with hown | hopp
        · exact ⟨o'', List.mem_append_left _
            (hperm.mem_iff.mpr (List.mem_cons_of_mem _ hown)), h1, h2⟩
        · exact ⟨o'', List.mem_append_right _ hopp, h1, h2⟩
  · -- fully filled or self-match-cancelled: nothing rests
    subst hs'
    refine engineInv_of_sides _ sd ?_ ?_ ?_ ?_ ?_ ?_ ?_ ?_ ?_ ?_
    · simp only [state_upd_own, ownLevels_setOpp]
      exact hOwnS
    · simp only [state_upd_opp, oppLevels_setOpp]
      exact hOppS'
    · simp only [state_upd_own, state_upd_opp, ownLevels_setOpp, oppLevels_setOpp]
      intro oh hoh ph hph
      obtain ⟨ph₀, hph₀⟩ := hOppNonempty ph hph
      exact crossesPrice_mono (hUn oh hoh ph₀ hph₀) (hOppHead ph hph ph₀ hph₀)
    · simp only [state_upd_own, ownLevels_setOpp]
      exact hOwnP
    · simp only [state_upd_opp, oppLevels_setOpp]
      exact hpred'
    · simp only [state_upd_own, state_upd_opp, ownLevels_setOpp, oppLevels_setOpp]
      refine List.nodup_append.mpr ⟨hOwnNd, hOppNd.sublist hOppSl, ?_⟩
      intro x hx hx'
      exact hDisj hx (hOppSub _ hx')
    · simp only [state_upd_own, state_upd_opp, ownLevels_setOpp, oppLevels_setOpp]
      show ∀ σ ∈ slot :: pushSlots (addMatchResult s sd p q id pid).removed fl, _
      intro σ hσ
      rcases List.mem_cons.mp hσ with rfl | hσ'
      · exact ⟨hSlotFree.1, fun hmem => hSlotFree.2 (hOppSub _ hmem)⟩
      · rw [pushSlots_eq] at hσ'
        rcases List.mem_append.mp hσ' with h | h
        · have hrm : σ ∈ (addMatchResult s sd p q id pid).removed.map Order.slot :=
            List.mem_reverse.mp h
          have hσopp : σ ∈ levelsSlots (oppLevels s sd) := hRemSub _ hrm
          exact ⟨fun hmem => hDisj hmem hσopp, fun hmem => hOppSplitNd.2.2 hrm hmem⟩
        · obtain ⟨h1, h2⟩ := hFlFree σ h
          exact ⟨h1, fun hmem => h2 (hOppSub _ hmem)⟩
    · show (slot :: pushSlots (addMatchResult s sd p q id pid).removed fl).Nodup
      rw [pushSlots_eq]
      refine List.nodup_cons.mpr ⟨?_, ?_⟩
      · intro hmem
        rcases List.mem_append.mp hmem with h | h
        · exact hSlotFree.2 (hRemSub _ (List.mem_reverse.mp h))
        · exact (List.nodup_cons.mp hFlN).1 h
      · refine List.nodup_append.mpr ⟨?_, (List.nodup_cons.mp hFlN).2, ?_⟩
        · exact List.nodup_reverse.mpr (hOppNd.sublist hRemSl)
        · intro x hx hx'
          exact (hFlFree x hx').2 (hRemSub _ (List.mem_reverse.mp hx))
    · show ((eraseIds (addMatchResult s sd p q id pid).removed
          s.orderIndex).map Prod.fst).Nodup
      exact hKeys.sublist ((eraseIds_sublist _ _).map Prod.fst)
    · simp only [state_upd_own, state_upd_opp, ownLevels_setOpp, oppLevels_setOpp]
      exact hValidMatch

/-! ## Cancellation lemmas -/

theorem removeSlot_some {orders : List Order} {σ : Nat} {o : Order} {orders' : List Order}
    (h : removeSlot orders σ = some (o, orders')) :
    ∃ pre suf, orders = pre ++ o :: suf ∧ orders' = pre ++ suf ∧ o.slot = σ
      ∧ ∀ x ∈ pre, x.slot ≠ σ := by
  induction orders generalizing orders' with
  | nil => simp [removeSlot] at h
  | cons x rest ih =>
    by_cases hx : x.slot = σ
    · simp only [removeSlot, if_pos hx, Option.some.injEq, Prod.mk.injEq] at h
      exact ⟨[], rest, by simp [h.1], by simp [h.2], by rw [← h.1]; exact hx, by simp⟩
    · simp only [removeSlot, if_neg hx] at h
      cases hr : removeSlot rest σ with
      | none => rw [hr] at h; simp at h
      | some pr =>
        obtain ⟨r0, rest0⟩ := pr
        rw [hr] at h
        simp only [Option.some.injEq, Prod.mk.injEq] at h
        obtain ⟨hro, hrest⟩ := h
        subst hro
        obtain ⟨pre, suf, h1, h2, h3, h4⟩ := ih hr
        refine ⟨x :: pre, suf, by simp [h1], ?_, h3, ?_⟩
        · rw [← hrest, h2]; rfl
        · intro y hy
          rcases List.mem_cons.mp hy with rfl | hy
          · exact hx
          · exact h4 y hy

theorem removeAt_some {levels : List PriceLevel} {p σ : Nat} {levels' : List PriceLevel}
    (h : removeAt levels p σ = some levels') :
    ∃ (o : Order) (A B : List Order), o.slot = σ
      ∧ levelsOrders levels = A ++ o :: B
      ∧ levelsOrders levels' = A ++ B
      ∧ List.Sublist (levels'.map PriceLevel.price) (levels.map PriceLevel.price)
      ∧ (∃ pl ∈ levels, pl.price = p ∧ o ∈ pl.orders) := by
  induction levels generalizing levels' with
  | nil => simp [removeAt] at h
  | cons pl rest ih =>
    by_cases hp : pl.price = p
    · simp only [removeAt, if_pos hp] at h
      cases hr : removeSlot pl.orders σ with
      | none => rw [hr] at h; simp at h
      | some pr =>
        obtain ⟨o₀, os₀⟩ := pr
        rw [hr] at h
        obtain ⟨pre, suf, h1, h2, h3, _⟩ := removeSlot_some hr
        simp only at h
        by_cases he : os₀.isEmpty
        · rw [if_pos he] at h
          simp only [Option.some.injEq] at h
          subst h
          have hempty : pre ++ suf = [] := by
            rw [← h2]; exact List.isEmpty_iff.mp he
          obtain ⟨hpre, hsuf⟩ := List.append_eq_nil.mp hempty
          refine ⟨o₀, pre, suf ++ levelsOrders rest, h3, ?_, ?_, ?_, ?_⟩
          · simp [h1]
          · simp [hpre, hsuf]
          · simp
          · exact ⟨pl, List.mem_cons_self _ _, hp, by rw [h1]; simp⟩
        · rw [if_neg he] at h
          simp only [Option.some.injEq] at h
          subst h
          refine ⟨o₀, pre, suf ++ levelsOrders rest, h3, ?_, ?_, ?_, ?_⟩
          · simp [h1]
          · simp [h2]
          · simp
          · exact ⟨pl, List.mem_cons_self _ _, hp, by rw [h1]; simp⟩
    · simp only [removeAt, if_neg hp] at h
      cases hr : removeAt rest p σ with
      | none => rw [hr] at h; simp at h
      | some rest' =>
        rw [hr] at h
        simp only [Option.some.injEq] at h
        subst h
        obtain ⟨o, A, B, h1, h2, h3, h4, pl₀, hpl₀, h5, h6⟩ := ih hr
        refine ⟨o, pl.orders ++ A, B, h1, by simp [h2], by simp [h3],
          ?_, pl₀, List.mem_cons_of_mem _ hpl₀, h5, h6⟩
        simpa using h4.cons₂ pl.price

theorem removeAt_pred (rs : Side) {levels : List PriceLevel} {p σ : Nat}
    {levels' : List PriceLevel} (hlv : ∀ pl ∈ levels, LevelPred rs pl)
    (h : removeAt levels p σ = some levels') :
    ∀ pl' ∈ levels', LevelPred rs pl' := by
  induction levels generalizing levels' with
  | nil => simp [removeAt] at h
  | cons pl rest ih =>
    by_cases hp : pl.price = p
    · simp only [removeAt, if_pos hp] at h
      cases hr : removeSlot pl.orders σ with
      | none => rw [hr] at h; simp at h
      | some pr =>
        obtain ⟨o₀, os₀⟩ := pr
        rw [hr] at h
        obtain ⟨pre, suf, h1, h2, _, _⟩ := removeSlot_some hr
        simp only at h
        by_cases he : os₀.isEmpty
        · rw [if_pos he] at h
          simp only [Option.some.injEq] at h
          subst h
          exact fun pl' hpl' => hlv pl' (List.mem_cons_of_mem _ hpl')
        · rw [if_neg he] at h
          simp only [Option.some.injEq] at h
          subst h
          intro pl' hpl'
          rcases List.mem_cons.mp hpl' with rfl | hpl'
          · obtain ⟨_, _, hord⟩ := hlv pl (List.mem_cons_self _ _)
            refine ⟨by simpa using he, u32sub_lt _ _, ?_⟩
            intro x hx
            have : x ∈ pl.orders := by
              rw [h1, h2] at *
              simp only [List.mem_append] at hx ⊢
              rcases hx with hx | hx
              · exact Or.inl hx
              · exact Or.inr (List.mem_cons_of_mem _ hx)
            simpa using hord x this
          · exact hlv pl' (List.mem_cons_of_mem _ hpl')
    · simp only [removeAt, if_neg hp] at h
      cases hr : removeAt rest p σ with
      | none => rw [hr] at h; simp at h
      | some rest' =>
        rw [hr] at h
        simp only [Option.some.injEq] at h
        subst h
        intro pl' hpl'
        rcases List.mem_cons.mp hpl' with rfl | hpl'
        · exact hlv pl' (List.mem_cons_self _ _)
        · exact ih (fun q hq => hlv q (List.mem_cons_of_mem _ hq)) hr pl' hpl'

theorem findSlot_some {s : State} {σ : Nat} {o : Order}
    (h : findSlot s σ = some o) :
    o ∈ levelsOrders s.bids ++ levelsOrders s.asks ∧ o.slot = σ := by
  unfold findSlot at h
  have hm := List.mem_of_find?_eq_some h
  have hp := List.find?_some h
  exact ⟨hm, by simpa using hp⟩

/-- Characterization of a successful `cancelOrder` call. -/
theorem cancelOrder_some {s : State} {id : Nat} {s' : State} {rem : Option Order}
    (h : cancelOrder s id = some (s', rem)) :
    (idxLookup s.orderIndex id = none ∧ s' = s ∧ rem = none)
    ∨ ∃ σ o books', idxLookup s.orderIndex id = some σ ∧ findSlot s σ = some o
        ∧ rem = some o
        ∧ ((o.side = Side.Buy ∧ removeAt s.bids o.price σ = some books'
              ∧ s' = { s with
                        bids := books',
                        orderIndex := idxErase s.orderIndex id,
                        freeList := o.slot :: s.freeList })
          ∨ (o.side = Side.Sell ∧ removeAt s.asks o.price σ = some books'
              ∧ s' = { s with
                        asks := books',
                        orderIndex := idxErase s.orderIndex id,
                        freeList := o.slot :: s.freeList })) := by
  unfold cancelOrder at h
  cases hl : idxLookup s.orderIndex id with
  | none =>
    rw [hl] at h
    simp only [Option.some.injEq, Prod.mk.injEq] at h
    exact Or.inl ⟨rfl, h.1.symm, h.2.symm⟩
  | some σ =>
    rw [hl] at h
    simp only at h
    cases hf : findSlot s σ with
    | none => rw [hf] at h; simp at h
    | some o =>
      rw [hf] at h
      simp only at h
      cases hsd : o.side with
      | Buy =>
        rw [hsd] at h
        simp only at h
        cases hra : removeAt s.bids o.price σ with
        | none => rw [hra] at h; simp at h
        | some books' =>
          rw [hra] at h
          simp only [Option.some.injEq, Prod.mk.injEq] at h
          exact Or.inr ⟨σ, o, books', rfl, hf, h.2.symm,
            Or.inl ⟨hsd, hra, h.1.symm⟩⟩
      | Sell =>
        rw [hsd] at h
        simp only at h
        cases hra : removeAt s.asks o.price σ with
        | none => rw [hra] at h; simp at h
        | some books' =>
          rw [hra] at h
          simp only [Option.some.injEq, Prod.mk.injEq] at h
          exact Or.inr ⟨σ, o, books', rfl, hf, h.2.symm,
            Or.inr ⟨hsd, hra, h.1.symm⟩⟩

theorem crossesPrice_mono_own {sd : Side} {a a' b : Nat}
    (h : crossesPrice sd a b = false)
    (h2 : a' = a ∨ priorB sd a a' = true) :
    crossesPrice sd a' b = false := by
  rcases h2 with rfl | h2
  · exact h
  · cases sd <;>
      simp only [crossesPrice, priorB, decide_eq_false_iff_not,
        decide_eq_true_eq] at h h2 ⊢ <;> omega

theorem state_upd2_own (x : State) (sd : Side) (i : List (Nat × Nat)) (f : List Nat) :
    ownLevels { x with orderIndex := i, freeList := f } sd = ownLevels x sd := by
  cases sd <;> rfl

theorem state_upd2_opp (x : State) (sd : Side) (i : List (Nat × Nat)) (f : List Nat) :
    oppLevels { x with orderIndex := i, freeList := f } sd = oppLevels x sd := by
  cases sd <;> rfl

/-- Two linked orders anywhere in the engine with the same slot are the
same order. -/
theorem slot_inj_all {s : State} (hinv : EngineInv s) {a b : Order}
    (ha : a ∈ allOrders s) (hb : b ∈ allOrders s) (hs : a.slot = b.slot) : a = b := by
  have hnd : ((allOrders s).map Order.slot).Nodup := by
    have := hinv.2.2.2.2.2.1
    simpa [allOrders, levelsSlots] using this
  exact List.inj_on_of_nodup_map hnd ha hb hs

/-- Core of `cancelOrder` invariant preservation: unlinking the order at
`σ` from its own-side level. -/
theorem cancel_core (sd : Side) {s : State} {id σ : Nat} {o : Order}
    {books' : List PriceLevel} (hinv : EngineInv s)
    (hl : idxLookup s.orderIndex id = some σ)
    (ho : o ∈ levelsOrders (ownLevels s sd)) (hslot : o.slot = σ)
    (hra : removeAt (ownLevels s sd) o.price σ = some books') :
    EngineInv { setOwn s sd books' with
                orderIndex := idxErase s.orderIndex id,
                freeList := o.slot :: s.freeList } := by
  have hOwnS := inv_own_sorted hinv sd
  have hOppS := inv_opp_sorted hinv sd
  have hOwnP := inv_own_pred hinv sd
  have hOppP := inv_opp_pred hinv sd
  have hNd := inv_slots_nodup hinv sd
  have hFree := inv_free hinv sd
  have hFlN := inv_freeN hinv
  have hKeys := inv_keys hinv
  have hValid := inv_valid hinv sd
  have hUn := inv_uncross hinv sd
  have hNdSplit := List.nodup_append.mp hNd
  obtain ⟨o₁, A, B, h1, h2, h3, hsubp, pl₀, hpl₀, hplp, ho₁⟩ := removeAt_some hra
  have ho₁own : o₁ ∈ levelsOrders (ownLevels s sd) := by
    rw [h2]
    exact List.mem_append_right _ (List.mem_cons_self _ _)
  have hOwnAll : ∀ x ∈ levelsOrders (ownLevels s sd), x ∈ allOrders s := by
    intro x hx
    cases sd
    · exact List.mem_append_left _ hx
    · exact List.mem_append_right _ hx
  have ho₁o : o₁ = o := slot_inj_all hinv (hOwnAll _ ho₁own) (hOwnAll _ ho) (by rw [h1, hslot])
  -- the id being erased is the removed order's id
  have hoid : o.orderId = id := by
    obtain ⟨o₀, ho₀, hs1, hs2⟩ := hinv.2.2.2.2.2.2.2.2.2 (id, σ) (idxLookup_mem hl)
    have : o₀ = o := slot_inj_all hinv ho₀ (hOwnAll _ ho) (by rw [hs1, hslot])
    rw [← this] at *
    exact hs2
  have hOwnSlots : levelsSlots (ownLevels s sd) = A.map Order.slot ++ σ :: B.map Order.slot := by
    rw [levelsSlots, h2, ho₁o]
    simp [hslot]
  have hBooksSlots : levelsSlots books' = A.map Order.slot ++ B.map Order.slot := by
    rw [levelsSlots, h3]
    simp
  have hOwnSl : List.Sublist (levelsSlots books') (levelsSlots (ownLevels s sd)) := by
    rw [hOwnSlots, hBooksSlots]
    exact List.Sublist.append_left (List.sublist_cons_self _ _) _
  have hσown : σ ∈ levelsSlots (ownLevels s sd) := by
    rw [hOwnSlots]
    exact List.mem_append_right _ (List.mem_cons_self _ _)
  have hσnot : σ ∉ levelsSlots books' := by
    have := hNdSplit.1
    rw [hOwnSlots] at this
    have hmid := List.nodup_middle.mp (by simpa using this)
    rw [hBooksSlots]
    exact (List.nodup_cons.mp hmid).1
  refine engineInv_of_sides _ sd ?_ ?_ ?_ ?_ ?_ ?_ ?_ ?_ ?_ ?_
  · simp only [state_upd2_own, ownLevels_setOwn]
    exact hOwnS.sublist hsubp
  · simp only [state_upd2_opp, oppLevels_setOwn]
    exact hOppS
  · simp only [state_upd2_own, state_upd2_opp, ownLevels_setOwn, oppLevels_setOwn]
    intro oh hoh ph hph
    cases hop : (ownLevels s sd).head? with
    | none =>
      exfalso
      cases hown : ownLevels s sd with
      | nil => rw [hown] at hra; simp [removeAt] at hra
      | cons a b => rw [hown] at hop; simp at hop
    | some hd =>
      have hm : oh.price ∈ (ownLevels s sd).map PriceLevel.price :=
        hsubp.mem (List.mem_map_of_mem _ (mem_of_head? hoh))
      exact crossesPrice_mono_own (hUn hd hop ph hph)
        (sorted_head_best hOwnS hop oh.price hm)
  · simp only [state_upd2_own, ownLevels_setOwn]
    exact removeAt_pred sd hOwnP hra
  · simp only [state_upd2_opp, oppLevels_setOwn]
    exact hOppP
  · simp only [state_upd2_own, state_upd2_opp, ownLevels_setOwn, oppLevels_setOwn]
    exact hNd.sublist (hOwnSl.append (List.Sublist.refl _))
  · simp only [state_upd2_own, state_upd2_opp, ownLevels_setOwn, oppLevels_setOwn]
    show ∀ x ∈ o.slot :: s.freeList, _
    intro x hx
    rcases List.mem_cons.mp hx with rfl | hx
    · rw [hslot]
      exact ⟨hσnot, fun hmem => hNdSplit.2.2 hσown hmem⟩
    · obtain ⟨hx1, hx2⟩ := hFree x hx
      exact ⟨fun hmem => hx1 (hOwnSl.mem hmem), hx2⟩
  · show (o.slot :: s.freeList).Nodup
    refine List.nodup_cons.mpr ⟨?_, hFlN⟩
    intro hmem
    exact (hFree o.slot hmem).1 (hslot ▸ hσown)
  · show ((idxErase s.orderIndex id).map Prod.fst).Nodup
    exact hKeys.sublist ((idxErase_sublist _ _).map Prod.fst)
  · simp only [state_upd2_own, state_upd2_opp, ownLevels_setOwn, oppLevels_setOwn]
    intro e he
    obtain ⟨heIdx, heId⟩ := (mem_idxErase _ _ _).mp he
    obtain ⟨o', ho', hs1, hs2⟩ := hValid e heIdx
    rcases List.mem_append.mp ho' with hown | hopp
    · have ho'ne : o' ≠ o := by
        intro hcon
        rw [hcon, hoid] at hs2
        exact heId hs2.symm
      have : o' ∈ levelsOrders books' := by
        rw [h2, ho₁o] at hown
        rw [h3]
        rcases List.mem_append.mp hown with hA | hB
        · exact List.mem_append_left _ hA
        · rcases List.mem_cons.mp hB with rfl | hB
          · exact absurd rfl ho'ne
          · exact List.mem_append_right _ hB
      exact ⟨o', List.mem_append_left _ this, hs1, hs2⟩
    · exact ⟨o', List.mem_append_right _ hopp, hs1, hs2⟩

/-- `cancelOrder` preserves the engine invariant. -/
theorem inv_cancelOrder {s : State} {id : Nat} {s' : State} {rem : Option Order}
    (hinv : EngineInv s) (h : cancelOrder s id = some (s', rem)) : EngineInv s' := by
  rcases cancelOrder_some h with ⟨_, rfl, _⟩ | ⟨σ, o, books', hl, hf, hrem, hcase⟩
  · exact hinv
  · obtain ⟨hmem, hslot⟩ := findSlot_some hf
    rcases hcase with ⟨hsd, hra, rfl⟩ | ⟨hsd, hra, rfl⟩
    · have hob : o ∈ levelsOrders (ownLevels s Side.Buy) := by
        rcases List.mem_append.mp hmem with hb | ha
        · exact hb
        · exfalso
          obtain ⟨pl, hpl, hopl⟩ := mem_levelsOrders.mp ha
          have := ((hinv.2.2.2.2.1 pl hpl).2.2 o hopl).2.1
          rw [hsd] at this
          cases this
      exact cancel_core Side.Buy hinv hl hob hslot hra
    · have hoa : o ∈ levelsOrders (ownLevels s Side.Sell) := by
        rcases List.mem_append.mp hmem with hb | ha
        · exfalso
          obtain ⟨pl, hpl, hopl⟩ := mem_levelsOrders.mp hb
          have := ((hinv.2.2.2.1 pl hpl).2.2 o hopl).2.1
          rw [hsd] at this
          cases this
        · exact ha
      exact cancel_core Side.Sell hinv hl hoa hslot hra

/-! ## Run-level invariance -/

/-- The implicit `uint32_t` bound on the quantity argument of
`addLimitOrder` (prices and ids need no bound for any claim below). -/
def OpOk : Op → Prop
  | Op.add _ _ qty _ _ => qty < 4294967296
  | Op.cancel _ => True

instance (op : Op) : Decidable (OpOk op) := by
  cases op <;> simp only [OpOk] <;> infer_instance

theorem inv_step {s : State} {op : Op} {s' : State} {ts : List Trade}
    (hinv : EngineInv s) (hok : OpOk op) (h : step s op = some (s', ts)) :
    EngineInv s' := by
  cases op with
  | add sd p q id pid => exact inv_addLimitOrder hinv hok h
  | cancel id =>
    simp only [step] at h
    cases hc : cancelOrder s id with
    | none => rw [hc] at h; simp at h
    | some pr =>
      obtain ⟨s₀, rem⟩ := pr
      rw [hc] at h
      simp only [Option.some.injEq, Prod.mk.injEq] at h
      exact h.1 ▸ inv_cancelOrder hinv hc

theorem inv_runFrom {s : State} {ops : List Op} {t : State}
    (hinv : EngineInv s) (hok : ∀ op ∈ ops, OpOk op)
    (h : runFrom s ops = some t) : EngineInv t := by
  induction ops generalizing s with
  | nil => simp only [runFrom, Option.some.injEq] at h; exact h ▸ hinv
  | cons op rest ih =>
    simp only [runFrom] at h
    cases hs : step s op with
    | none => rw [hs] at h; simp at h
    | some pr =>
      rw [hs] at h
      exact ih (inv_step hinv (hok op (List.mem_cons_self _ _)) hs)
        (fun x hx => hok x (List.mem_cons_of_mem _ hx)) h

theorem inv_run {cap : Nat} {ops : List Op} {t : State}
    (hok : ∀ op ∈ ops, OpOk op) (h : run cap ops = some t) : EngineInv t :=
  inv_runFrom (inv_mkEngine cap) hok h

/-! ## Claim theorems -/

/-- **C1** (invariants; spec I4, P4).  For every finite sequence of
`addLimitOrder` and `cancelOrder` calls starting from a fresh engine,
after each call returns, if both side books are non-empty then the best
bid level's price is strictly less than the best ask level's price (the
book is never crossed).  The sequence of calls is arbitrary, so the state
after each intermediate call is covered by quantifying over all prefixes;
`OpOk` records that quantities fit in `uint32_t`, as the C++ signature
enforces, and a `some` result excludes runs that violate the arena
capacity contract (a fatal `assert` in the source). -/
theorem claim_C1 (cap : Nat) (ops : List Op) (s : State)
    (hok : ∀ op ∈ ops, OpOk op) (hrun : run cap ops = some s) :
    uncrossedB s = true :=
  (inv_run hok hrun).2.2.1

/-- Two resting orders on opposite sides that do not cross. -/
def c1Ops : List Op :=
  [Op.add Side.Buy 100 5 1 1, Op.add Side.Sell 101 5 2 2]

theorem claim_C1_witness : uncrossedB ((run 4 c1Ops).getD (mkEngine 0)) = true :=
  claim_C1 4 c1Ops _ (by decide) (by rfl)

/-- **C7** (error handling; spec §4.4 cancel step 1, §7 UnknownOrder).
`cancelOrder(id)` for an id with no entry in the OrderIndex returns
without signalling any error, emits no trade events, and leaves the
entire engine state — arena free list, both side books, OrderIndex and
sequence counter — unchanged. -/
theorem claim_C7 (s : State) (id : Nat)
    (h : idxLookup s.orderIndex id = none) :
    cancelOrder s id = some (s, none) ∧ step s (Op.cancel id) = some (s, []) := by
  have hc : cancelOrder s id = some (s, none) := by
    unfold cancelOrder
    rw [h]
  exact ⟨hc, by simp only [step]; rw [hc]⟩

theorem claim_C7_witness :
    cancelOrder ((run 4 c1Ops).getD (mkEngine 0)) 999
        = some ((run 4 c1Ops).getD (mkEngine 0), none)
      ∧ step ((run 4 c1Ops).getD (mkEngine 0)) (Op.cancel 999)
        = some ((run 4 c1Ops).getD (mkEngine 0), []) :=
  claim_C7 _ 999 (by decide)

/-- Does some resting order of the given book explain the trade: same id
as the trade's resting-side party and the same price? -/
def tradeAtRestingPrice (sd : Side) (book : List PriceLevel) (t : Trade) : Bool :=
  (levelsOrders book).any (fun r => restingIdOf sd t == r.orderId
    && t.price == r.price)

theorem c2_aux (s : State) (sd : Side) (p q id pid : Nat) (s' : State)
    (ts : List Trade) (hinv : EngineInv s)
    (hadd : addLimitOrder s sd p q id pid = some (s', ts)) :
    ∀ t ∈ ts, ∃ r ∈ levelsOrders (oppLevels s sd),
      restingIdOf sd t = r.orderId ∧ t.price = r.price := by
  obtain ⟨slot, fl, hfl, hts, _⟩ := addLimitOrder_some hadd
  subst hts
  intro t ht
  have hq : ∀ pl ∈ oppLevels s sd, ∀ o ∈ pl.orders, 0 < o.quantity := by
    intro pl hpl o ho
    exact ((inv_opp_pred hinv sd pl hpl).2.2 o ho).2.2.1
  obtain ⟨pl, hpl, _, r, hr, f, _, _, rfl⟩ := amr_trades s sd p q id pid hq t ht
  refine ⟨r, mem_levelsOrders.mpr ⟨pl, hpl, hr⟩,
    restingIdOf_mkTradeFor sd id r.orderId pl.price f, ?_⟩
  rw [mkTradeFor_price]
  exact (((inv_opp_pred hinv sd) pl hpl).2.2 r hr).1.symm

/-- **C2** (functional correctness; spec "Pricing", L2).  Every `Trade`
emitted through the sink during any `addLimitOrder` call has price equal
to the price of the resting counterparty's price level at the moment of
the fill — which equals the resting order's limit price — regardless of
the incoming order's limit price.  The counterparty is identified in the
pre-call opposite book by the trade's resting-side id; `EngineInv` holds
of every reachable state by `inv_run`. -/
theorem claim_C2 (s : State) (sd : Side) (p q id pid : Nat) (s' : State)
    (ts : List Trade) (hinv : EngineInv s)
    (hadd : addLimitOrder s sd p q id pid = some (s', ts)) :
    ts.all (tradeAtRestingPrice sd (oppLevels s sd)) = true := by
  rw [List.all_eq_true]
  intro t ht
  obtain ⟨r, hr, h1, h2⟩ := c2_aux s sd p q id pid s' ts hinv hadd t ht
  rw [tradeAtRestingPrice, List.any_eq_true]
  exact ⟨r, hr, by rw [Bool.and_eq_true, beq_iff_eq, beq_iff_eq]; exact ⟨h1, h2⟩⟩

/-- One resting ask at 100, then an aggressive buy at 105. -/
def c2State : State := (run 4 [Op.add Side.Sell 100 50 1 1]).getD (mkEngine 0)

theorem claim_C2_witness :
    ((addLimitOrder c2State Side.Buy 105 50 2 2).getD (mkEngine 0, [])).2.all
      (tradeAtRestingPrice Side.Buy (oppLevels c2State Side.Buy)) = true :=
  claim_C2 c2State Side.Buy 105 50 2 2 _ _ (by decide) (by rfl)

/-- The incoming party of the trade is the incoming order (on the buy
side for `matchBuy`, the sell side for `matchSell`), the resting-side id
belongs to some resting order of the given book, and the fill quantity is
strictly positive. -/
def tradePartiesOk (sd : Side) (id : Nat) (book : List PriceLevel) (t : Trade) : Bool :=
  decide (0 < t.quantity) && (incomingIdOf sd t == id)
    && (levelsOrders book).any (fun r => restingIdOf sd t == r.orderId)

/-- **C8** (functional correctness; spec §4.4 step 6, §6 Trade record).
In every emitted `Trade`, `buyOrderId` is the order id of the buy-side
party and `sellOrderId` of the sell-side party, as determined by the
incoming order's side (incoming buy: `buyOrderId` = incoming,
`sellOrderId` = resting; incoming sell: the reverse — via `incomingIdOf`
and `restingIdOf`), and the trade's quantity is strictly positive. -/
theorem claim_C8 (s : State) (sd : Side) (p q id pid : Nat) (s' : State)
    (ts : List Trade) (hinv : EngineInv s)
    (hadd : addLimitOrder s sd p q id pid = some (s', ts)) :
    ts.all (tradePartiesOk sd id (oppLevels s sd)) = true := by
  obtain ⟨slot, fl, hfl, hts, _⟩ := addLimitOrder_some hadd
  subst hts
  rw [List.all_eq_true]
  intro t ht
  have hq : ∀ pl ∈ oppLevels s sd, ∀ o ∈ pl.orders, 0 < o.quantity := by
    intro pl hpl o ho
    exact ((inv_opp_pred hinv sd pl hpl).2.2 o ho).2.2.1
  obtain ⟨pl, hpl, _, r, hr, f, hf0, _, rfl⟩ := amr_trades s sd p q id pid hq t ht
  rw [tradePartiesOk]
  simp only [Bool.and_eq_true, decide_eq_true_eq, beq_iff_eq, List.any_eq_true]
  refine ⟨⟨by rw [mkTradeFor_quantity]; exact hf0,
    incomingIdOf_mkTradeFor sd id r.orderId pl.price f⟩,
    r, mem_levelsOrders.mpr ⟨pl, hpl, hr⟩, ?_⟩
  rw [restingIdOf_mkTradeFor]

theorem claim_C8_witness :
    ((addLimitOrder c2State Side.Buy 105 50 2 2).getD (mkEngine 0, [])).2.all
      (tradePartiesOk Side.Buy 2 (oppLevels c2State Side.Buy)) = true :=
  claim_C8 c2State Side.Buy 105 50 2 2 _ _ (by decide) (by rfl)

/-! ## Claim C5: add-then-cancel -/

/-- `addLimitOrder` immediately followed by `cancelOrder` of the same id. -/
def addThenCancel (s : State) (sd : Side) (p q id pid : Nat) : Option State :=
  match addLimitOrder s sd p q id pid with
  | none => none
  | some (s1, _) =>
    match cancelOrder s1 id with
    | none => none
    | some (s2, _) => s2

theorem setOpp_self (s : State) (sd : Side) : setOpp s sd (oppLevels s sd) = s := by
  cases sd <;> rfl

theorem tryEmplace_none {idx : List (Nat × Nat)} {k σ : Nat}
    (h : idxLookup idx k = none) : tryEmplace idx k σ = (k, σ) :: idx := by
  unfold tryEmplace
  rw [h]

theorem idxErase_of_not_mem {idx : List (Nat × Nat)} {k : Nat}
    (h : ∀ e ∈ idx, e.1 ≠ k) : idxErase idx k = idx :=
  List.filter_eq_self.mpr (fun e he => by simpa using h e he)

theorem removeSlot_append_last {orders : List Order} {o : Order} {σ : Nat}
    (h : ∀ x ∈ orders, x.slot ≠ σ) (ho : o.slot = σ) :
    removeSlot (orders ++ [o]) σ = some (o, orders) := by
  induction orders with
  | nil => simp [removeSlot, ho]
  | cons x rest ih =>
    have hx : x.slot ≠ σ := h x (List.mem_cons_self _ _)
    simp only [List.cons_append, removeSlot, if_neg hx, List.append_eq]
    rw [ih (fun y hy => h y (List.mem_cons_of_mem _ hy))]

theorem insertOrder_removeAt (sd : Side) (p : Nat) (o : Order) :
    ∀ (levels : List PriceLevel),
      (∀ pl ∈ levels, pl.orders ≠ [] ∧ pl.totalQuantity < 4294967296) →
      o.slot ∉ levelsSlots levels →
      removeAt (insertOrder sd p o levels) p o.slot = some levels := by
  intro levels
  induction levels with
  | nil =>
    intro _ _
    simp [insertOrder, removeAt, PriceLevel.addToTail, removeSlot]
  | cons pl rest ih =>
    intro hlv hns
    have hplo : ∀ x ∈ pl.orders, x.slot ≠ o.slot := by
      intro x hx hcon
      exact hns (by
        simp only [levelsSlots_cons, List.mem_append]
        exact Or.inl (by rw [← hcon]; exact List.mem_map_of_mem _ hx))
    have hnsrest : o.slot ∉ levelsSlots rest := by
      intro hcon
      exact hns (by simp only [levelsSlots_cons, List.mem_append]; exact Or.inr hcon)
    by_cases hp : pl.price = p
    · simp only [insertOrder, if_pos hp, removeAt, PriceLevel.addToTail, if_pos hp]
      rw [removeSlot_append_last hplo rfl]
      simp only
      have hne : pl.orders ≠ [] := (hlv pl (List.mem_cons_self _ _)).1
      rw [if_neg (by simpa using hne)]
      rw [u32sub_wrap32_add _ _ (hlv pl (List.mem_cons_self _ _)).2]
    · by_cases hb : priorB sd p pl.price
      · simp only [insertOrder, if_neg hp, if_pos hb, removeAt, PriceLevel.addToTail]
        simp [removeSlot]
      · simp only [insertOrder, if_neg hp, if_neg hb, removeAt, if_neg hp]
        rw [ih (fun q hq => hlv q (List.mem_cons_of_mem _ hq)) hnsrest]

theorem find?_slot_unique {σ : Nat} {o : Order} :
    ∀ (l : List Order), o ∈ l → o.slot = σ → (∀ x ∈ l, x.slot = σ → x = o) →
      l.find? (fun x => x.slot = σ) = some o := by
  intro l
  induction l with
  | nil => intro h; simp at h
  | cons x rest ih =>
    intro hmem ho huniq
    by_cases hx : x.slot = σ
    · have : x = o := huniq x (List.mem_cons_self _ _) hx
      subst this
      simp [List.find?, hx]
    · have : o ∈ rest := by
        rcases List.mem_cons.mp hmem with rfl | h
        · exact absurd ho hx
        · exact h
      simp only [List.find?]
      rw [decide_eq_false hx]
      exact ih this ho (fun y hy => huniq y (List.mem_cons_of_mem _ hy))

@[simp] theorem eraseIds_nil (idx : List (Nat × Nat)) : eraseIds [] idx = idx := rfl

@[simp] theorem pushSlots_nil (fl : List Nat) : pushSlots [] fl = fl := rfl

theorem addThenCancel_eq {s : State} {sd : Side} {p q id pid : Nat} {S1 : State}
    {ts : List Trade} {S2 : State} {r : Option Order}
    (h : addLimitOrder s sd p q id pid = some (S1, ts))
    (h2 : cancelOrder S1 id = some (S2, r)) :
    addThenCancel s sd p q id pid = some S2 := by
  unfold addThenCancel
  simp only [h, h2]

/-- **C5 (amended)** (algebraic/relational; spec L1).  The original claim
quantifies over *every* engine state and order; it fails when the add
matches (see `claim_C5_cex`), because matched liquidity is consumed and
cancel of a fully filled order is a no-op.  Amended as the
counterexample forces: provided the order's id is not already indexed
and the incoming does not cross the opposite best (so the add only
rests), `addLimitOrder` followed by `cancelOrder` of the same id returns
the engine — arena free list, both side books, and OrderIndex — to
exactly the state before the add, modulo the `sequence` counter. -/
theorem claim_C5 (s : State) (sd : Side) (p q id pid : Nat)
    (hinv : EngineInv s)
    (hid : idxLookup s.orderIndex id = none)
    (hcross : doCross s sd p = false)
    (hfl : s.freeList ≠ []) :
    addThenCancel s sd p q id pid
      = some { s with sequence := wrap64 (s.sequence + 1) } := by
  cases hfl' : s.freeList with
  | nil => exact absurd hfl' hfl
  | cons slot fl =>
  have hbr : addMatchResult s sd p q id pid = ⟨q, oppLevels s sd, [], [], none, 0⟩ := by
    rw [addMatchResult_eq, if_neg (by simp [hcross])]
  have hidne : ∀ e ∈ s.orderIndex, e.1 ≠ id := (idxLookup_eq_none_iff _ _).mp hid
  have hSlotFree := inv_free hinv sd slot (by rw [hfl']; exact List.mem_cons_self _ _)
  by_cases hq0 : 0 < q
  · -- the order rests, then cancel removes exactly it
    have hadd : addLimitOrder s sd p q id pid
        = some ({ setOwn s sd
                    (insertOrder sd p ⟨id, p, q, s.sequence, sd, pid, slot⟩ (ownLevels s sd)) with
                  orderIndex := (id, slot) :: s.orderIndex,
                  freeList := fl,
                  sequence := wrap64 (s.sequence + 1) }, []) := by
      rw [addLimitOrder, hfl']
      simp only [hbr, eraseIds_nil, pushSlots_nil]
      rw [if_pos hq0]
      rw [setOpp_self, tryEmplace_none hid]
    set o : Order := ⟨id, p, q, s.sequence, sd, pid, slot⟩ with hoo
    set own' := insertOrder sd p o (ownLevels s sd) with hown'
    set S1 : State := { setOwn s sd own' with
                  orderIndex := (id, slot) :: s.orderIndex,
                  freeList := fl,
                  sequence := wrap64 (s.sequence + 1) } with hS1
    have hpermS1 : List.Perm (levelsOrders own') (o :: levelsOrders (ownLevels s sd)) :=
      insertOrder_orders_perm sd p o _
    have herase : idxErase ((id, slot) :: s.orderIndex) id = s.orderIndex := by
      unfold idxErase
      rw [List.filter_cons, if_neg (by simp)]
      exact idxErase_of_not_mem hidne
    have hrem : removeAt own' p slot = some (ownLevels s sd) :=
      insertOrder_removeAt sd p o (ownLevels s sd)
        (fun pl hpl => ⟨(inv_own_pred hinv sd pl hpl).1, (inv_own_pred hinv sd pl hpl).2.1⟩)
        hSlotFree.1
    have huniq : ∀ x ∈ levelsOrders own' ++ levelsOrders (oppLevels s sd),
        x.slot = slot → x = o := by
      intro x hx hxs
      rcases List.mem_append.mp hx with hxm | hxm
      · rcases List.mem_cons.mp (hpermS1.mem_iff.mp hxm) with rfl | hxm'
        · rfl
        · exact absurd (mem_levelsSlots.mpr ⟨x, hxm', hxs⟩) hSlotFree.1
      · exact absurd (mem_levelsSlots.mpr ⟨x, hxm, hxs⟩) hSlotFree.2
    have homem : o ∈ levelsOrders own' ++ levelsOrders (oppLevels s sd) :=
      List.mem_append_left _ (hpermS1.mem_iff.mpr (List.mem_cons_self _ _))
    have hlook : idxLookup S1.orderIndex id = some slot := by
      show idxLookup ((id, slot) :: s.orderIndex) id = some slot
      simp [idxLookup]
    cases sd with
    | Buy =>
      have hfind : findSlot S1 slot = some o := by
        unfold findSlot
        exact find?_slot_unique _ homem rfl huniq
      have hrem' : removeAt S1.bids o.price slot = some s.bids := hrem
      have herase' : idxErase S1.orderIndex id = s.orderIndex := herase
      have hcan : cancelOrder S1 id
          = some ({ s with sequence := wrap64 (s.sequence + 1) }, some o) := by
        unfold cancelOrder
        simp only [hlook, hfind, hrem', herase']
        rw [← hfl']
        rfl
      rw [addThenCancel_eq hadd hcan, hfl']
    | Sell =>
      have hfind : findSlot S1 slot = some o := by
        unfold findSlot
        have hsplit : levelsOrders S1.bids ++ levelsOrders S1.asks
            = levelsOrders (oppLevels s Side.Sell) ++ levelsOrders own' := rfl
        rw [hsplit]
        refine find?_slot_unique _ ?_ rfl ?_
        · exact List.mem_append_right _ (hpermS1.mem_iff.mpr (List.mem_cons_self _ _))
        · intro x hx hxs
          exact huniq x (List.mem_append.mpr (List.mem_append.mp hx).symm) hxs
      have hrem' : removeAt S1.asks o.price slot = some s.asks := hrem
      have herase' : idxErase S1.orderIndex id = s.orderIndex := herase
      have hcan : cancelOrder S1 id
          = some ({ s with sequence := wrap64 (s.sequence + 1) }, some o) := by
        unfold cancelOrder
        simp only [hlook, hfind, hrem', herase']
        rw [← hfl']
        rfl
      rw [addThenCancel_eq hadd hcan, hfl']
  · -- quantity zero: the order is released at once and cancel is a no-op
    have hadd : addLimitOrder s sd p q id pid
        = some ({ s with
                  freeList := slot :: fl,
                  sequence := wrap64 (s.sequence + 1) }, []) := by
      rw [addLimitOrder, hfl']
      simp only [hbr, eraseIds_nil, pushSlots_nil]
      rw [if_neg (by simpa using hq0)]
      rw [setOpp_self]
    have hcan : cancelOrder { s with
        freeList := slot :: fl,
        sequence := wrap64 (s.sequence + 1) } id
        = some ({ s with
                  freeList := slot :: fl,
                  sequence := wrap64 (s.sequence + 1) }, none) := by
      unfold cancelOrder
      rw [show idxLookup ({ s with
          freeList := slot :: fl,
          sequence := wrap64 (s.sequence + 1) } : State).orderIndex id = none from hid]
    rw [addThenCancel_eq hadd hcan]

/-- **C5, counterexample to the original wording.**  The original claim
quantifies over *every* engine state and order.  It fails when the add
crosses: with a resting ask 50@100, a buy 50@100 matches and consumes the
ask entirely, leaves nothing to cancel, and `cancelOrder` is a no-op — the
final state has an empty ask book, not the original one-level ask book. -/
theorem claim_C5_cex :
    addThenCancel c2State Side.Buy 100 50 2 2
      ≠ some { c2State with sequence := wrap64 (c2State.sequence + 1) } := by
  decide

theorem claim_C5_witness :
    addThenCancel c2State Side.Buy 99 7 2 2
      = some { c2State with sequence := wrap64 (c2State.sequence + 1) } :=
  claim_C5 c2State Side.Buy 99 7 2 2 (by decide) (by decide) (by decide) (by decide)

theorem idxLookup_idxErase_ne (idx : List (Nat × Nat)) (k j : Nat) (h : k ≠ j) :
    idxLookup (idxErase idx j) k = idxLookup idx k := by
  induction idx with
  | nil => rfl
  | cons e rest ih =>
    by_cases he : e.1 = j
    · have hstep : idxErase (e :: rest) j = idxErase rest j := by
        simp [idxErase, List.filter_cons, he]
      rw [hstep, ih]
      have hek : ¬ e.1 = k := fun hk => h (hk.symm.trans he)
      rw [idxLookup, if_neg hek]
    · have hstep : idxErase (e :: rest) j = e :: idxErase rest j := by
        simp [idxErase, List.filter_cons, he]
      rw [hstep]
      by_cases hk : e.1 = k
      · rw [idxLookup, if_pos hk, idxLookup, if_pos hk]
      · rw [idxLookup, if_neg hk, idxLookup, if_neg hk, ih]

theorem idxLookup_eraseIds_not_removed (removed : List Order) :
    ∀ (idx : List (Nat × Nat)) (k : Nat), k ∉ removed.map Order.orderId →
      idxLookup (eraseIds removed idx) k = idxLookup idx k := by
  induction removed with
  | nil => intro idx k _; rfl
  | cons r rest ih =>
    intro idx k hk
    have h1 : k ∉ rest.map Order.orderId := fun h => hk (by simp [h])
    have h2 : k ≠ r.orderId := fun h => hk (by simp [h])
    show idxLookup (eraseIds rest (idxErase idx r.orderId)) k = _
    rw [ih _ k h1, idxLookup_idxErase_ne idx k r.orderId h2]

theorem idxLookup_eraseIds_none (removed : List Order) (idx : List (Nat × Nat)) (k : Nat)
    (h : idxLookup idx k = none) : idxLookup (eraseIds removed idx) k = none := by
  rw [idxLookup_eq_none_iff] at h ⊢
  intro e he
  exact h e ((eraseIds_sublist removed idx).subset he)

/-- State before the self-match-prevention counterexample: two resting
asks sharing orderId 7 (the second `try_emplace` was a no-op), the index
entry pointing at the ask at 101 owned by participant 2. -/
def c3Pre : State :=
  (run 4 [Op.add Side.Sell 101 5 7 2, Op.add Side.Sell 100 5 7 1]).getD (mkEngine 0)

/-- State after participant 2's buy at 101 for 10: the fill of the ask at
100 erases index key 7 (`orderIndex_.erase(resting->orderId)`), then the
ask at 101 triggers self-match prevention and keeps resting. -/
def c3Post : State :=
  (run 4 [Op.add Side.Sell 101 5 7 2, Op.add Side.Sell 100 5 7 1,
          Op.add Side.Buy 101 10 9 2]).getD (mkEngine 0)

/-- **C3, counterexample to the original wording.**  The claim says the
blocking resting order's index entry is unchanged.  It is not when an
earlier fill in the same match loop removed a resting order with the same
orderId: the erase-by-orderId deletes the blocker's entry.  Here the call
triggers self-match prevention (the blocker is the resting ask at 101,
participant 2, the incoming's owner), key 7 was indexed before the call
and points at the blocker's slot 0, yet after the call key 7 is gone from
the index while the blocker still rests in the ask book. -/
theorem claim_C3_cex :
    (addMatchResult c3Pre Side.Buy 101 10 9 2).blocker
        = some ⟨7, 101, 5, 0, Side.Sell, 2, 0⟩
      ∧ idxLookup c3Pre.orderIndex 7 = some 0
      ∧ idxLookup c3Post.orderIndex 7 = none
      ∧ (levelsOrders c3Post.asks).any (fun o => o.orderId == 7) = true := by
  decide

/-- **C3 (amended)** (error handling; spec's SMP policy).  When the match
loop of `addLimitOrder` stops on self-match prevention — the front
resting order `b` of the current best opposite level has the incoming's
participantId (`(addMatchResult …).blocker = some b`) — then: the
incoming's remaining quantity becomes zero and matching stops; the
emitted trades are exactly those produced before that point and remain
final; the blocker keeps its record, quantity and queue position at the
front of the best opposite level; the incoming does not rest (the own
side is untouched) and receives no OrderIndex entry; and — *provided no
resting order with the blocker's orderId was removed earlier in the same
loop* (the amendment forced by `claim_C3_cex`) — the blocker's index
entry is unchanged. -/
theorem claim_C3 (s : State) (sd : Side) (p q id pid : Nat) (s' : State)
    (ts : List Trade) (b : Order)
    (hadd : addLimitOrder s sd p q id pid = some (s', ts))
    (hb : (addMatchResult s sd p q id pid).blocker = some b)
    (hbid : b.orderId ∉ (addMatchResult s sd p q id pid).removed.map Order.orderId)
    (hid : idxLookup s.orderIndex id = none) :
    (addMatchResult s sd p q id pid).qty = 0
      ∧ b.participantId = pid
      ∧ ts = (addMatchResult s sd p q id pid).trades
      ∧ (∃ plh lrest, oppLevels s' sd = plh :: lrest ∧ plh.orders.head? = some b)
      ∧ ownLevels s' sd = ownLevels s sd
      ∧ idxLookup s'.orderIndex b.orderId = idxLookup s.orderIndex b.orderId
      ∧ idxLookup s'.orderIndex id = none := by
  obtain ⟨hq0, _, hpid, plh, lrest, hlev, hhead⟩ := amr_blocker s sd p q id pid b hb
  obtain ⟨slot, fl, hfl, hts, hcase⟩ := addLimitOrder_some hadd
  rcases hcase with ⟨hpos, _⟩ | ⟨_, hs'⟩
  · omega
  · subst hs'
    refine ⟨hq0, hpid, hts, ?_, ?_, ?_, ?_⟩
    · refine ⟨plh, lrest, ?_, hhead⟩
      cases sd <;> exact hlev
    · cases sd <;> rfl
    · exact idxLookup_eraseIds_not_removed _ _ _ hbid
    · exact idxLookup_eraseIds_none _ _ _ hid

/-- One resting ask 5@100 owned by participant 5. -/
def c3State : State := (run 4 [Op.add Side.Sell 100 5 1 5]).getD (mkEngine 0)

/-- The resting ask of `c3State` (orderId 1, slot 0), which blocks a buy
from the same participant 5. -/
def c3Blocker : Order := ⟨1, 100, 5, 0, Side.Sell, 5, 0⟩

/-- `c3State` after the blocked buy: only the sequence counter moved. -/
def c3After : State := { c3State with sequence := wrap64 (c3State.sequence + 1) }

theorem claim_C3_witness :
    (addMatchResult c3State Side.Buy 100 10 2 5).qty = 0
      ∧ c3Blocker.participantId = 5
      ∧ ([] : List Trade) = (addMatchResult c3State Side.Buy 100 10 2 5).trades
      ∧ (∃ plh lrest, oppLevels c3After Side.Buy = plh :: lrest
          ∧ plh.orders.head? = some c3Blocker)
      ∧ ownLevels c3After Side.Buy = ownLevels c3State Side.Buy
      ∧ idxLookup c3After.orderIndex c3Blocker.orderId
          = idxLookup c3State.orderIndex c3Blocker.orderId
      ∧ idxLookup c3After.orderIndex 2 = none :=
  claim_C3 c3State Side.Buy 100 10 2 5 c3After [] c3Blocker
    (by decide) (by decide) (by decide) (by decide)

theorem tryEmplace_some {idx : List (Nat × Nat)} {k σ v : Nat}
    (h : idxLookup idx k = some v) : tryEmplace idx k σ = idx := by
  unfold tryEmplace
  rw [h]

/-- One resting ask 5@100, orderId 7, slot 0: key 7 is indexed to slot 0. -/
def c9Pre : State := (run 4 [Op.add Side.Sell 100 5 7 1]).getD (mkEngine 0)

/-- `c9Pre` after a buy 8@100 that reuses orderId 7: the fill of the
resting ask erases index key 7, and the remainder rests and re-emplaces
key 7 at the *new* slot 1. -/
def c9Post : State :=
  (run 4 [Op.add Side.Sell 100 5 7 1, Op.add Side.Buy 100 8 7 2]).getD (mkEngine 0)

/-- **C9, counterexample to the original wording.**  The claim says that
when an already-indexed orderId is reused and the new order rests, the
index keeps its existing mapping (try_emplace does not overwrite).  But
if the match loop of the same call fully fills the previously indexed
order, its `orderIndex_.erase(resting->orderId)` removes key 7 first, so
the later `try_emplace` succeeds: the mapping changes from slot 0 to the
new order's slot 1 (and the new order *can* then be cancelled). -/
theorem claim_C9_cex :
    idxLookup c9Pre.orderIndex 7 = some 0
      ∧ 0 < (addMatchResult c9Pre Side.Buy 100 8 7 2).qty
      ∧ idxLookup c9Post.orderIndex 7 = some 1 := by
  decide

/-- **C9 (amended)** (implicit; `try_emplace` in `addLimitOrder` and the
index-driven `cancelOrder`).  If `addLimitOrder` is called with an
orderId already mapped to slot `σ` in the OrderIndex, the new order
rests, and — the amendment forced by `claim_C9_cex` — no resting order
with that orderId is removed by the call's own match loop, then:
try_emplace does not overwrite, so the index keeps the mapping `id ↦ σ`;
the new order is linked into its price level on its own side under the
freshly allocated slot; no index entry points at that fresh slot (so the
new order is unreachable through the index); `σ` is not the fresh slot;
and a subsequent successful `cancelOrder id` removes the order at slot
`σ` — the previously indexed order — never the new one. -/
theorem claim_C9 (s : State) (sd : Side) (p q id pid slot : Nat) (fl : List Nat)
    (s' : State) (ts : List Trade) (σ : Nat)
    (hinv : EngineInv s)
    (hfl : s.freeList = slot :: fl)
    (hadd : addLimitOrder s sd p q id pid = some (s', ts))
    (hrest : 0 < (addMatchResult s sd p q id pid).qty)
    (hold : idxLookup s.orderIndex id = some σ)
    (hnotrem : id ∉ (addMatchResult s sd p q id pid).removed.map Order.orderId) :
    idxLookup s'.orderIndex id = some σ
      ∧ (⟨id, p, (addMatchResult s sd p q id pid).qty, s.sequence, sd, pid, slot⟩ : Order)
          ∈ levelsOrders (ownLevels s' sd)
      ∧ (∀ e ∈ s'.orderIndex, e.2 ≠ slot)
      ∧ σ ≠ slot
      ∧ (∀ s'' r, cancelOrder s' id = some (s'', some r) → r.slot = σ ∧ r.slot ≠ slot) := by
  obtain ⟨slot₀, fl₀, hfl₀, hts, hcase⟩ := addLimitOrder_some hadd
  rw [hfl] at hfl₀
  obtain ⟨rfl, rfl⟩ : slot = slot₀ ∧ fl = fl₀ := by
    constructor <;> [exact (List.cons.injEq _ _ _ _ ▸ hfl₀).1; exact (List.cons.injEq _ _ _ _ ▸ hfl₀).2]
  rcases hcase with ⟨_, hs'⟩ | ⟨hz, _⟩
  · have hkeep : idxLookup
        (eraseIds (addMatchResult s sd p q id pid).removed s.orderIndex) id = some σ := by
      rw [idxLookup_eraseIds_not_removed _ _ _ hnotrem]
      exact hold
    have hIdx : s'.orderIndex
        = eraseIds (addMatchResult s sd p q id pid).removed s.orderIndex := by
      rw [hs']
      exact tryEmplace_some hkeep
    have hOwn : ownLevels s' sd
        = insertOrder sd p
            ⟨id, p, (addMatchResult s sd p q id pid).qty, s.sequence, sd, pid, slot⟩
            (ownLevels s sd) := by
      rw [hs']
      cases sd <;> rfl
    have hslotfree := inv_free hinv sd slot (by rw [hfl]; exact List.mem_cons_self _ _)
    have hnoslot : ∀ e ∈ s.orderIndex, e.2 ≠ slot := by
      intro e he h2
      obtain ⟨o, ho, ho1, _⟩ := inv_valid hinv sd e he
      rcases List.mem_append.mp ho with hm | hm
      · exact hslotfree.1 (mem_levelsSlots.mpr ⟨o, hm, by rw [ho1, h2]⟩)
      · exact hslotfree.2 (mem_levelsSlots.mpr ⟨o, hm, by rw [ho1, h2]⟩)
    have hnoslot' : ∀ e ∈ s'.orderIndex, e.2 ≠ slot := by
      intro e he
      rw [hIdx] at he
      exact hnoslot e ((eraseIds_sublist _ _).subset he)
    have hσne : σ ≠ slot := hnoslot (id, σ) (idxLookup_mem hold)
    refine ⟨by rw [hIdx]; exact hkeep, ?_, hnoslot', hσne, ?_⟩
    · rw [hOwn]
      exact (insertOrder_orders_perm sd p _ (ownLevels s sd)).mem_iff.mpr
        (List.mem_cons_self _ _)
    · intro s'' r hc
      rcases cancelOrder_some hc with ⟨_, _, hno⟩ | ⟨σ', o, books', hl, hfind, hro, _⟩
      · exact absurd hno (by simp)
      · obtain rfl : σ' = σ := Option.some.inj (hl.symm.trans (by rw [hIdx]; exact hkeep))
        obtain rfl : r = o := Option.some.inj hro
        obtain ⟨_, hslot⟩ := findSlot_some hfind
        exact ⟨hslot, by rw [hslot]; exact hσne⟩
  · omega

/-- `c9Pre` after a *non-crossing* second add that reuses orderId 7: the
new ask 4@101 rests at slot 1 while key 7 keeps pointing at slot 0. -/
def c9W : State :=
  (run 4 [Op.add Side.Sell 100 5 7 1, Op.add Side.Sell 101 4 7 3]).getD (mkEngine 0)

theorem claim_C9_witness :
    idxLookup c9W.orderIndex 7 = some 0
      ∧ (⟨7, 101, (addMatchResult c9Pre Side.Sell 101 4 7 3).qty, c9Pre.sequence,
            Side.Sell, 3, 1⟩ : Order)
          ∈ levelsOrders (ownLevels c9W Side.Sell)
      ∧ (∀ e ∈ c9W.orderIndex, e.2 ≠ 1)
      ∧ 0 ≠ 1
      ∧ (∀ s'' r, cancelOrder c9W 7 = some (s'', some r) → r.slot = 0 ∧ r.slot ≠ 1) :=
  claim_C9 c9Pre Side.Sell 101 4 7 3 1 [2, 3] c9W [] 0
    (by decide) (by decide) (by decide) (by decide) (by decide) (by decide)

/-- The resting order `b` sits in a level of price `P` of `L`, queued
strictly behind the order occupying slot `σ` (FIFO time priority). -/
def aheadIn (L : List PriceLevel) (P σ : Nat) (b : Order) : Prop :=
  ∃ pl pre suf, pl ∈ L ∧ pl.price = P ∧ pl.orders = pre ++ b :: suf
    ∧ σ ∈ pre.map Order.slot

theorem fillLevel_fifo (sd : Side) (iId pid P : Nat) (orders : List Order)
    (iq tq σ : Nat) (b : Order) (pre suf : List Order)
    (hsplit : orders = pre ++ b :: suf)
    (hσ : σ ∈ pre.map Order.slot)
    (hnd : (orders.map Order.slot).Nodup) :
    σ ∉ (fillLevel sd iId pid P iq tq orders).orders.map Order.slot
    ∨ ∃ pre' suf', (fillLevel sd iId pid P iq tq orders).orders = pre' ++ b :: suf'
        ∧ σ ∈ pre'.map Order.slot := by
  obtain ⟨PRE, SUF, hPS, _, hres⟩ := fillLevel_shape sd iId pid P orders iq tq
  have hRS : (fillLevel sd iId pid P iq tq orders).orders.map Order.slot
      = SUF.map Order.slot := by
    rcases hres with h | ⟨r, rest, f, hsuf, _, _, h⟩
    · rw [h]
    · rw [h, hsuf]
      rfl
  have hnd' : ((PRE ++ SUF).map Order.slot).Nodup := by rw [← hPS]; exact hnd
  rw [List.map_append] at hnd'
  have hdisj := (List.nodup_append.mp hnd').2.2
  have hPSeq : pre ++ b :: suf = PRE ++ SUF := hsplit ▸ hPS
  rcases List.append_eq_append_iff.mp hPSeq with ⟨a', hPRE, hSUF⟩ | ⟨c', hpre, hSUF⟩
  · left
    rw [hRS]
    intro hmem
    exact hdisj (by rw [hPRE, List.map_append]; exact List.mem_append_left _ hσ) hmem
  · rw [hpre, List.map_append] at hσ
    rcases List.mem_append.mp hσ with hσP | hσc
    · left
      rw [hRS]
      intro hmem
      exact hdisj hσP hmem
    · right
      rcases hres with h | ⟨r, rest, f, hsuf2, _, _, h⟩
      · exact ⟨c', suf, by rw [h, hSUF], hσc⟩
      · cases c' with
        | nil => simp at hσc
        | cons c0 c2 =>
          have hinj : c0 :: (c2 ++ b :: suf) = r :: rest := by
            rw [← hsuf2, hSUF]
            rfl
          obtain ⟨rfl, hrest⟩ : c0 = r ∧ c2 ++ b :: suf = rest := by
            have h1 := (List.cons.injEq _ _ _ _ ▸ hinj)
            exact ⟨h1.1, h1.2⟩
          refine ⟨{ c0 with quantity := c0.quantity - f } :: c2, suf, ?_, ?_⟩
          · rw [h, ← hrest]
            rfl
          · simpa using hσc

theorem matchBook_fifo (sd : Side) (iId pid iprice : Nat) :
    ∀ (levels : List PriceLevel) (iq P σ : Nat) (b : Order),
      (levelsSlots levels).Nodup →
      aheadIn levels P σ b →
      σ ∉ levelsSlots (matchBook sd iId pid iprice iq levels).levels
        ∨ aheadIn (matchBook sd iId pid iprice iq levels).levels P σ b := by
  intro levels
  induction levels with
  | nil =>
    intro iq P σ b _ h
    obtain ⟨pl, _, _, hm, _⟩ := h
    simp at hm
  | cons pl rest ih =>
    intro iq P σ b hnd h
    obtain ⟨pl₀, pre, suf, hmem, hP, hord, hσ⟩ := h
    have hndsplit := List.nodup_append.mp (by rw [← levelsSlots_cons]; exact hnd :
      (pl.orders.map Order.slot ++ levelsSlots rest).Nodup)
    rcases matchBook_cons sd iId pid iprice iq pl rest with
      ⟨_, hres⟩ | ⟨_, hres⟩ | ⟨r, _, _, hb, hres⟩ | ⟨_, _, hb, he, hres⟩ | ⟨_, _, hb, he, hres⟩
    · rw [hres]
      right
      exact ⟨pl₀, pre, suf, hmem, hP, hord, hσ⟩
    · rw [hres]
      right
      exact ⟨pl₀, pre, suf, hmem, hP, hord, hσ⟩
    · rw [hres]
      rcases List.mem_cons.mp hmem with rfl | hmem'
      · have hσpl : σ ∈ pl₀.orders.map Order.slot := by
          rw [hord, List.map_append]
          exact List.mem_append_left _ hσ
        rcases fillLevel_fifo sd iId pid pl₀.price pl₀.orders iq pl₀.totalQuantity σ b
            pre suf hord hσ hndsplit.1 with h1 | ⟨pre', suf', hres', hσ'⟩
        · left
          simp only [levelsSlots_cons]
          intro hmem2
          rcases List.mem_append.mp hmem2 with hA | hB
          · exact h1 hA
          · exact hndsplit.2.2 hσpl hB
        · right
          exact ⟨_, pre', suf', List.mem_cons_self _ _, hP, hres', hσ'⟩
      · right
        exact ⟨pl₀, pre, suf, List.mem_cons_of_mem _ hmem', hP, hord, hσ⟩
    · rw [hres]
      simp only
      rcases List.mem_cons.mp hmem with rfl | hmem'
      · left
        have hσpl : σ ∈ pl₀.orders.map Order.slot := by
          rw [hord, List.map_append]
          exact List.mem_append_left _ hσ
        intro hmem2
        have hrest : σ ∈ levelsSlots rest := by
          have hms := matchBook_slots sd iId pid iprice rest
            (fillLevel sd iId pid pl₀.price iq pl₀.totalQuantity pl₀.orders).qty
          rw [← hms]
          exact List.mem_append_right _ hmem2
        exact hndsplit.2.2 hσpl hrest
      · rcases ih (fillLevel sd iId pid pl.price iq pl.totalQuantity pl.orders).qty P σ b
            hndsplit.2.1 ⟨pl₀, pre, suf, hmem', hP, hord, hσ⟩ with h1 | h2
        · left; exact h1
        · right; exact h2
    · rw [hres]
      rcases List.mem_cons.mp hmem with rfl | hmem'
      · have hσpl : σ ∈ pl₀.orders.map Order.slot := by
          rw [hord, List.map_append]
          exact List.mem_append_left _ hσ
        rcases fillLevel_fifo sd iId pid pl₀.price pl₀.orders iq pl₀.totalQuantity σ b
            pre suf hord hσ hndsplit.1 with h1 | ⟨pre', suf', hres', hσ'⟩
        · left
          simp only [levelsSlots_cons]
          intro hmem2
          rcases List.mem_append.mp hmem2 with hA | hB
          · exact h1 hA
          · exact hndsplit.2.2 hσpl hB
        · right
          exact ⟨_, pre', suf', List.mem_cons_self _ _, hP, hres', hσ'⟩
      · right
        exact ⟨pl₀, pre, suf, List.mem_cons_of_mem _ hmem', hP, hord, hσ⟩

theorem amr_fifo (s : State) (sd : Side) (p q id pid P σ : Nat) (b : Order)
    (hnd : (levelsSlots (oppLevels s sd)).Nodup)
    (h : aheadIn (oppLevels s sd) P σ b) :
    σ ∉ levelsSlots (addMatchResult s sd p q id pid).levels
      ∨ aheadIn (addMatchResult s sd p q id pid).levels P σ b := by
  rw [addMatchResult_eq]
  by_cases hc : doCross s sd p
  · simp only [if_pos hc]
    exact matchBook_fifo sd id pid p (oppLevels s sd) q P σ b hnd h
  · simp only [if_neg hc]
    right
    exact h

theorem addLimitOrder_opp {s : State} {sd : Side} {p q id pid : Nat} {s' : State}
    {ts : List Trade} (hadd : addLimitOrder s sd p q id pid = some (s', ts)) :
    oppLevels s' sd = (addMatchResult s sd p q id pid).levels := by
  obtain ⟨slot, fl, _, _, hcase⟩ := addLimitOrder_some hadd
  rcases hcase with ⟨_, hs'⟩ | ⟨_, hs'⟩ <;> rw [hs'] <;> cases sd <;> rfl

theorem addLimitOrder_fifo {s : State} {sd : Side} {p q id pid : Nat} {s' : State}
    {ts : List Trade} {P σ : Nat} {b : Order}
    (hinv : EngineInv s)
    (hadd : addLimitOrder s sd p q id pid = some (s', ts))
    (h : aheadIn (oppLevels s sd) P σ b) :
    σ ∉ levelsSlots (oppLevels s' sd) ∨ aheadIn (oppLevels s' sd) P σ b := by
  have hnd : (levelsSlots (oppLevels s sd)).Nodup :=
    (List.nodup_append.mp (inv_slots_nodup hinv sd)).2.1
  rw [addLimitOrder_opp hadd]
  exact amr_fifo s sd p q id pid P σ b hnd h

theorem addLimitOrder_opp_slots_sub {s : State} {sd : Side} {p q id pid : Nat}
    {s' : State} {ts : List Trade}
    (hadd : addLimitOrder s sd p q id pid = some (s', ts)) :
    ∀ x ∈ levelsSlots (oppLevels s' sd), x ∈ levelsSlots (oppLevels s sd) := by
  intro x hx
  rw [addLimitOrder_opp hadd] at hx
  rw [← amr_slots s sd p q id pid]
  exact List.mem_append_right _ hx

theorem runFrom_opp_slots_sub (sd : Side) :
    ∀ (ops : List Op) (s s' : State),
      (∀ op ∈ ops, ∃ p' q' id' pid', op = Op.add sd p' q' id' pid') →
      runFrom s ops = some s' →
      ∀ x ∈ levelsSlots (oppLevels s' sd), x ∈ levelsSlots (oppLevels s sd) := by
  intro ops
  induction ops with
  | nil =>
    intro s s' _ h x hx
    simp only [runFrom, Option.some.injEq] at h
    rw [h]
    exact hx
  | cons op rest ih =>
    intro s s' hops h x hx
    obtain ⟨p', q', id', pid', rfl⟩ := hops op (List.mem_cons_self _ _)
    simp only [runFrom, step] at h
    cases hs : addLimitOrder s sd p' q' id' pid' with
    | none => rw [hs] at h; simp at h
    | some pr =>
      obtain ⟨s₁, ts₁⟩ := pr
      rw [hs] at h
      simp only at h
      exact addLimitOrder_opp_slots_sub hs x
        (ih s₁ s' (fun o ho => hops o (List.mem_cons_of_mem _ ho)) h x hx)

/-- **C4** (functional correctness; spec L4, price-time priority).  FIFO
within a level: let `b` be a resting order queued strictly behind the
order occupying slot `σ` (the earlier-added order `a`) in the level at
price `P` — new orders are appended at the tail (`PriceLevel::addToTail`),
so an order added later at the same price sits behind.  Then over any
sequence of aggressing adds on the opposite side, either `b`'s record is
completely untouched — still resting with its full quantity, still queued
behind slot `σ` — or the order at slot `σ` has been fully filled and
unlinked from the book.  Matching consumes the head of the best level
first, so no quantity of `b` fills while `a` still rests: `a` fills
strictly before `b`. -/
theorem claim_C4 (sd : Side) (s : State) (ops : List Op) (s' : State)
    (P σ : Nat) (b : Order)
    (hinv : EngineInv s)
    (hops : ∀ op ∈ ops, ∃ p' q' id' pid', op = Op.add sd p' q' id' pid'
      ∧ q' < 4294967296)
    (hahead : aheadIn (oppLevels s sd) P σ b)
    (hrun : runFrom s ops = some s') :
    σ ∉ levelsSlots (oppLevels s' sd) ∨ aheadIn (oppLevels s' sd) P σ b := by
  induction ops generalizing s with
  | nil =>
    simp only [runFrom, Option.some.injEq] at hrun
    right
    rw [← hrun]
    exact hahead
  | cons op rest ih =>
    obtain ⟨p', q', id', pid', rfl, hq'⟩ := hops op (List.mem_cons_self _ _)
    simp only [runFrom, step] at hrun
    cases hs : addLimitOrder s sd p' q' id' pid' with
    | none => rw [hs] at hrun; simp at hrun
    | some pr =>
      obtain ⟨s₁, ts₁⟩ := pr
      rw [hs] at hrun
      simp only at hrun
      have hinv₁ : EngineInv s₁ := inv_addLimitOrder hinv hq' hs
      rcases addLimitOrder_fifo hinv hs hahead with h1 | h2
      · left
        intro hx
        exact h1 (runFrom_opp_slots_sub sd rest s₁ s'
          (fun o ho => ⟨_, _, _, _, ((hops o (List.mem_cons_of_mem _ ho)).choose_spec.choose_spec.choose_spec.choose_spec.1 : o = _)⟩) hrun σ hx)
      · exact ih s₁ hinv₁ (fun o ho => hops o (List.mem_cons_of_mem _ ho)) h2 hrun

/-- First resting ask 5@100 (slot 0, added first). -/
def c4A : Order := ⟨1, 100, 5, 0, Side.Sell, 1, 0⟩

/-- Second resting ask 5@100 (slot 1, added after `c4A`, so queued
behind it in the level's FIFO). -/
def c4B : Order := ⟨2, 100, 5, 1, Side.Sell, 2, 1⟩

/-- Two asks at 100 added in sequence: the level FIFO is `[c4A, c4B]`. -/
def c4State : State :=
  (run 4 [Op.add Side.Sell 100 5 1 1, Op.add Side.Sell 100 5 2 2]).getD (mkEngine 0)

/-- `c4State` after an aggressing buy 3@100: partially fills `c4A`,
leaves `c4B` untouched behind it. -/
def c4Post : State :=
  (run 4 [Op.add Side.Sell 100 5 1 1, Op.add Side.Sell 100 5 2 2,
          Op.add Side.Buy 100 3 9 9]).getD (mkEngine 0)

theorem claim_C4_witness :
    0 ∉ levelsSlots (oppLevels c4Post Side.Buy)
      ∨ aheadIn (oppLevels c4Post Side.Buy) 100 0 c4B :=
  claim_C4 Side.Buy c4State [Op.add Side.Buy 100 3 9 9] c4Post 100 0 c4B
    (by decide)
    (by
      intro op hop
      rw [List.mem_singleton.mp hop]
      exact ⟨100, 3, 9, 9, rfl, by decide⟩)
    ⟨⟨100, 10, [c4A, c4B]⟩, [c4A], [], by decide, by decide, by decide, by decide⟩
    (by decide)

/-- Does the trade involve the order with id `id₀` (as either party)? -/
def involves (id₀ : Nat) (t : Trade) : Bool :=
  t.buyOrderId == id₀ || t.sellOrderId == id₀

/-- Total quantity of the trades involving `id₀`. -/
def tradedQty (ts : List Trade) (id₀ : Nat) : Nat :=
  sumTr (ts.filter (involves id₀))

/-- Remaining quantity of `id₀`'s resting orders in the books. -/
def restingQty (s : State) (id₀ : Nat) : Nat :=
  sumQ ((allOrders s).filter (fun o => o.orderId == id₀))

/-- Ghost accounting of the quantity an operation discards, as
`(orderId, quantity)` records: the incoming remainder zeroed by
self-match prevention (`incoming->quantity = 0`), and the remaining
quantity of an order removed by an explicit `cancelOrder`. -/
def discardOf (s : State) : Op → List (Nat × Nat)
  | Op.add sd p q id pid =>
    match (addMatchResult s sd p q id pid).blocker with
    | some _ => [(id, (addMatchResult s sd p q id pid).smpQty)]
    | none => []
  | Op.cancel cid =>
    match cancelOrder s cid with
    | some (_, some o) => [(o.orderId, o.quantity)]
    | _ => []

/-- Total discarded quantity attributed to `id₀`. -/
def discardedQty (ds : List (Nat × Nat)) (id₀ : Nat) : Nat :=
  (ds.map (fun d => if d.1 = id₀ then d.2 else 0)).sum

/-- `runFrom` instrumented with the emitted trades and the ghost discard
records of every operation. -/
def runLedger (s : State) : List Op → Option (State × List Trade × List (Nat × Nat))
  | [] => some (s, [], [])
  | op :: ops =>
    match step s op with
    | none => none
    | some (s', ts) =>
      match runLedger s' ops with
      | none => none
      | some (t, tss, ds) => some (t, ts ++ tss, discardOf s op ++ ds)

/-- The orderId an operation submits, if it is an add. -/
def addIdOf : Op → Option Nat
  | Op.add _ _ _ id _ => some id
  | Op.cancel _ => none

/-- Total initial quantity submitted under orderId `id₀`. -/
def addQty : List Op → Nat → Nat
  | [], _ => 0
  | Op.add _ _ q id _ :: rest, id₀ => (if id = id₀ then q else 0) + addQty rest id₀
  | Op.cancel _ :: rest, id₀ => addQty rest id₀

theorem sumQ_perm {l l' : List Order} (h : l.Perm l') : sumQ l = sumQ l' :=
  (h.map Order.quantity).sum_eq

theorem involves_eq (sd : Side) (id₀ : Nat) (t : Trade) :
    involves id₀ t = ((incomingIdOf sd t == id₀) || (restingIdOf sd t == id₀)) := by
  cases sd
  · rfl
  · exact Bool.or_comm _ _

theorem restingQty_split (s : State) (sd : Side) (id₀ : Nat) :
    restingQty s id₀
      = sumQ ((levelsOrders (ownLevels s sd)).filter (fun o => o.orderId == id₀))
        + sumQ ((levelsOrders (oppLevels s sd)).filter (fun o => o.orderId == id₀)) := by
  cases sd <;>
    simp [restingQty, allOrders, ownLevels, oppLevels, List.filter_append, sumQ_append] <;>
    omega

theorem tradedQty_append (a b : List Trade) (id₀ : Nat) :
    tradedQty (a ++ b) id₀ = tradedQty a id₀ + tradedQty b id₀ := by
  simp [tradedQty, List.filter_append, sumTr_append]

theorem discardedQty_append (a b : List (Nat × Nat)) (id₀ : Nat) :
    discardedQty (a ++ b) id₀ = discardedQty a id₀ + discardedQty b id₀ := by
  simp [discardedQty]

theorem step_add_ledger {s : State} {sd : Side} {p q id pid : Nat} {s' : State}
    {ts : List Trade} (id₀ : Nat)
    (hinv : EngineInv s)
    (hadd : addLimitOrder s sd p q id pid = some (s', ts))
    (hpre : id = id₀ → restingQty s id₀ = 0) :
    (if id = id₀ then q else 0) + restingQty s id₀
      = tradedQty ts id₀ + restingQty s' id₀
        + discardedQty (discardOf s (Op.add sd p q id pid)) id₀ := by
  obtain ⟨slot, fl, hfl, hts, hcase⟩ := addLimitOrder_some hadd
  subst hts
  have hperId := amr_perId s sd p q id pid id₀
  have hconserv := amr_conserv_inc s sd p q id pid
  have hopp' : oppLevels s' sd = (addMatchResult s sd p q id pid).levels :=
    addLimitOrder_opp hadd
  have hsplit := restingQty_split s sd id₀
  have hsplit' := restingQty_split s' sd id₀
  rw [hopp'] at hsplit'
  have hinc := amr_incomingId s sd p q id pid
  by_cases hid : id = id₀
  · subst hid
    rw [if_pos rfl]
    have h0 := hpre rfl
    rw [hsplit] at h0
    have hT : tradedQty (addMatchResult s sd p q id pid).trades id
        = sumTr (addMatchResult s sd p q id pid).trades := by
      unfold tradedQty
      congr 1
      apply List.filter_eq_self.mpr
      intro t ht
      rw [involves_eq sd, hinc t ht]
      simp
    rcases hcase with ⟨hq0, hs'⟩ | ⟨hq0, hs'⟩
    · have hown' : ownLevels s' sd
          = insertOrder sd p
              ⟨id, p, (addMatchResult s sd p q id pid).qty, s.sequence, sd, pid, slot⟩
              (ownLevels s sd) := by
        rw [hs']
        cases sd <;> rfl
      have hOF' : sumQ ((levelsOrders (ownLevels s' sd)).filter (fun o => o.orderId == id))
          = (addMatchResult s sd p q id pid).qty
            + sumQ ((levelsOrders (ownLevels s sd)).filter (fun o => o.orderId == id)) := by
        rw [hown']
        rw [sumQ_perm ((insertOrder_orders_perm sd p
          ⟨id, p, (addMatchResult s sd p q id pid).qty, s.sequence, sd, pid, slot⟩
          (ownLevels s sd)).filter (fun o => o.orderId == id))]
        simp [List.filter_cons, sumQ_cons]
      cases hb : (addMatchResult s sd p q id pid).blocker with
      | none =>
        have hD : discardedQty (discardOf s (Op.add sd p q id pid)) id = 0 := by
          simp only [discardOf, hb]
          rfl
        rw [hb] at hconserv
        simp only at hconserv
        rw [hT, hD, hsplit', hOF']
        omega
      | some b =>
        exfalso
        have hz := (amr_blocker s sd p q id pid b hb).1
        omega
    · have hown' : ownLevels s' sd = ownLevels s sd := by
        rw [hs']
        cases sd <;> rfl
      cases hb : (addMatchResult s sd p q id pid).blocker with
      | none =>
        have hD : discardedQty (discardOf s (Op.add sd p q id pid)) id = 0 := by
          simp only [discardOf, hb]
          rfl
        rw [hb] at hconserv
        simp only at hconserv
        rw [hT, hD, hsplit', hown']
        omega
      | some b =>
        have hD : discardedQty (discardOf s (Op.add sd p q id pid)) id
            = (addMatchResult s sd p q id pid).smpQty := by
          simp only [discardOf, hb]
          simp [discardedQty]
        rw [hb] at hconserv
        simp only at hconserv
        rw [hT, hD, hsplit', hown']
        omega
  · rw [if_neg hid]
    have hT : tradedQty (addMatchResult s sd p q id pid).trades id₀
        = sumTr ((addMatchResult s sd p q id pid).trades.filter
            (fun t => restingIdOf sd t == id₀)) := by
      unfold tradedQty
      congr 1
      apply List.filter_congr
      intro t ht
      rw [involves_eq sd, hinc t ht]
      simp [hid]
    have hD : discardedQty (discardOf s (Op.add sd p q id pid)) id₀ = 0 := by
      cases hb : (addMatchResult s sd p q id pid).blocker with
      | none =>
        simp only [discardOf, hb]
        rfl
      | some b =>
        simp only [discardOf, hb]
        simp [discardedQty, hid]
    have hOF' : sumQ ((levelsOrders (ownLevels s' sd)).filter (fun o => o.orderId == id₀))
        = sumQ ((levelsOrders (ownLevels s sd)).filter (fun o => o.orderId == id₀)) := by
      rcases hcase with ⟨hq0, hs'⟩ | ⟨hq0, hs'⟩
      · have hown' : ownLevels s' sd
            = insertOrder sd p
                ⟨id, p, (addMatchResult s sd p q id pid).qty, s.sequence, sd, pid, slot⟩
                (ownLevels s sd) := by
          rw [hs']
          cases sd <;> rfl
        rw [hown']
        rw [sumQ_perm ((insertOrder_orders_perm sd p
          ⟨id, p, (addMatchResult s sd p q id pid).qty, s.sequence, sd, pid, slot⟩
          (ownLevels s sd)).filter (fun o => o.orderId == id₀))]
        simp [List.filter_cons, hid]
      · have hown' : ownLevels s' sd = ownLevels s sd := by
          rw [hs']
          cases sd <;> rfl
        rw [hown']
    rw [hT, hD, hsplit', hsplit, hOF']
    omega

theorem restingQty_bidsasks (s : State) (id₀ : Nat) :
    restingQty s id₀
      = sumQ ((levelsOrders s.bids).filter (fun o => o.orderId == id₀))
        + sumQ ((levelsOrders s.asks).filter (fun o => o.orderId == id₀)) := by
  simp [restingQty, allOrders, List.filter_append, sumQ_append]

theorem step_cancel_ledger {s : State} {cid : Nat} {s' : State} {ts : List Trade}
    (id₀ : Nat)
    (hinv : EngineInv s)
    (hstep : step s (Op.cancel cid) = some (s', ts)) :
    restingQty s id₀
      = tradedQty ts id₀ + restingQty s' id₀
        + discardedQty (discardOf s (Op.cancel cid)) id₀ := by
  simp only [step] at hstep
  cases hc : cancelOrder s cid with
  | none =>
    rw [hc] at hstep
    simp at hstep
  | some pr =>
    obtain ⟨s₀, rem⟩ := pr
    rw [hc] at hstep
    simp only [Option.some.injEq, Prod.mk.injEq] at hstep
    obtain ⟨h1, h2⟩ := hstep
    rw [← h1, ← h2]
    rcases cancelOrder_some hc with ⟨_, hss, hrem⟩ | ⟨σ, o, books', _, hfind, hrem, hside⟩
    · subst hrem
      have hD : discardedQty (discardOf s (Op.cancel cid)) id₀ = 0 := by
        simp only [discardOf, hc]
        rfl
      rw [hD, hss]
      simp [tradedQty, sumTr]
    · subst hrem
      have hD : discardedQty (discardOf s (Op.cancel cid)) id₀
          = if o.orderId = id₀ then o.quantity else 0 := by
        simp only [discardOf, hc]
        simp [discardedQty]
      have hT : tradedQty [] id₀ = 0 := by simp [tradedQty, sumTr]
      rcases hside with ⟨_, hra, hs₀⟩ | ⟨_, hra, hs₀⟩
      · obtain ⟨o₂, A, B, ho₂s, hLs, hLb, _, _⟩ := removeAt_some hra
        have ho₂mem : o₂ ∈ allOrders s := by
          apply List.mem_append_left
          rw [hLs]
          exact List.mem_append_right _ (List.mem_cons_self _ _)
        obtain ⟨homem, hoslot⟩ := findSlot_some hfind
        have ho₂ : o₂ = o := slot_inj_all hinv ho₂mem homem (ho₂s.trans hoslot.symm)
        subst ho₂
        rw [hT, hD, restingQty_bidsasks s id₀, restingQty_bidsasks s₀ id₀, hs₀]
        simp only [hLs, hLb]
        by_cases hoid : o₂.orderId = id₀
        · simp [List.filter_append, List.filter_cons, sumQ_append, sumQ_cons, hoid]
          omega
        · simp [List.filter_append, List.filter_cons, sumQ_append, sumQ_cons, hoid]
      · obtain ⟨o₂, A, B, ho₂s, hLs, hLb, _, _⟩ := removeAt_some hra
        have ho₂mem : o₂ ∈ allOrders s := by
          apply List.mem_append_right
          rw [hLs]
          exact List.mem_append_right _ (List.mem_cons_self _ _)
        obtain ⟨homem, hoslot⟩ := findSlot_some hfind
        have ho₂ : o₂ = o := slot_inj_all hinv ho₂mem homem (ho₂s.trans hoslot.symm)
        subst ho₂
        rw [hT, hD, restingQty_bidsasks s id₀, restingQty_bidsasks s₀ id₀, hs₀]
        simp only [hLs, hLb]
        by_cases hoid : o₂.orderId = id₀
        · simp [List.filter_append, List.filter_cons, sumQ_append, sumQ_cons, hoid]
          omega
        · simp [List.filter_append, List.filter_cons, sumQ_append, sumQ_cons, hoid]

theorem runLedger_acct (id₀ : Nat) :
    ∀ (ops : List Op) (s t : State) (ts : List Trade) (ds : List (Nat × Nat)),
      EngineInv s →
      (∀ op ∈ ops, OpOk op) →
      (ops.filterMap addIdOf).count id₀ ≤ 1 →
      ((∃ op ∈ ops, addIdOf op = some id₀) → restingQty s id₀ = 0) →
      runLedger s ops = some (t, ts, ds) →
      addQty ops id₀ + restingQty s id₀
        = tradedQty ts id₀ + restingQty t id₀ + discardedQty ds id₀ := by
  intro ops
  induction ops with
  | nil =>
    intro s t ts ds _ _ _ _ h
    simp only [runLedger, Option.some.injEq, Prod.mk.injEq] at h
    obtain ⟨rfl, rfl, rfl⟩ := h
    simp [addQty, tradedQty, sumTr, discardedQty]
  | cons op rest ih =>
    intro s t ts ds hinv hok hcount hpre h
    simp only [runLedger] at h
    cases hs : step s op with
    | none => rw [hs] at h; simp at h
    | some pr =>
      obtain ⟨s₁, ts₁⟩ := pr
      rw [hs] at h
      simp only at h
      cases hr : runLedger s₁ rest with
      | none => rw [hr] at h; simp at h
      | some tr =>
        obtain ⟨t₀, tss, ds'⟩ := tr
        rw [hr] at h
        simp only [Option.some.injEq, Prod.mk.injEq] at h
        obtain ⟨rfl, rfl, rfl⟩ : t₀ = t ∧ ts₁ ++ tss = ts ∧ discardOf s op ++ ds' = ds := h
        have hinv₁ : EngineInv s₁ := inv_step hinv (hok op (List.mem_cons_self _ _)) hs
        have hok' : ∀ x ∈ rest, OpOk x := fun x hx => hok x (List.mem_cons_of_mem _ hx)
        cases op with
        | add sd p q id pid =>
          have hE1 := step_add_ledger id₀ hinv hs
            (fun hideq => hpre ⟨Op.add sd p q id pid, List.mem_cons_self _ _, by
              simp [addIdOf, hideq]⟩)
          by_cases hid : id = id₀
          · subst hid
            have hcount' : (rest.filterMap addIdOf).count id = 0 := by
              have : (List.filterMap addIdOf (Op.add sd p q id pid :: rest))
                  = id :: rest.filterMap addIdOf := by
                simp [addIdOf, List.filterMap_cons]
              rw [this, List.count_cons_self] at hcount
              omega
            have hnone : ¬ ∃ op ∈ rest, addIdOf op = some id := by
              rintro ⟨op', hop', hid'⟩
              have : id ∈ rest.filterMap addIdOf := List.mem_filterMap.mpr ⟨op', hop', hid'⟩
              rw [← List.count_pos_iff] at this
              omega
            have hE2 := ih s₁ t₀ tss ds' hinv₁ hok' (by omega) (fun hex => absurd hex hnone) hr
            show (if id = id then q else 0) + addQty rest id + restingQty s id = _
            rw [tradedQty_append, discardedQty_append]
            rw [if_pos rfl] at hE1 ⊢
            omega
          · have hcount' : (rest.filterMap addIdOf).count id₀ ≤ 1 := by
              have : (List.filterMap addIdOf (Op.add sd p q id pid :: rest))
                  = id :: rest.filterMap addIdOf := by
                simp [addIdOf, List.filterMap_cons]
              rw [this] at hcount
              have := List.count_le_count_cons id₀ id (rest.filterMap addIdOf)
              omega
            have hpre' : (∃ op ∈ rest, addIdOf op = some id₀) → restingQty s₁ id₀ = 0 := by
              intro hex
              have h0 : restingQty s id₀ = 0 := by
                obtain ⟨op', hop', hid'⟩ := hex
                exact hpre ⟨op', List.mem_cons_of_mem _ hop', hid'⟩
              rw [if_neg hid] at hE1
              omega
            have hE2 := ih s₁ t₀ tss ds' hinv₁ hok' hcount' hpre' hr
            show (if id = id₀ then q else 0) + addQty rest id₀ + restingQty s id₀ = _
            rw [tradedQty_append, discardedQty_append]
            rw [if_neg hid] at hE1 ⊢
            omega
        | cancel cid =>
          have hE1 := step_cancel_ledger id₀ hinv hs
          have hcount' : (rest.filterMap addIdOf).count id₀ ≤ 1 := by
            have : (List.filterMap addIdOf (Op.cancel cid :: rest))
                = rest.filterMap addIdOf := by
              simp [addIdOf, List.filterMap_cons]
            rw [this] at hcount
            exact hcount
          have hpre' : (∃ op ∈ rest, addIdOf op = some id₀) → restingQty s₁ id₀ = 0 := by
            intro hex
            have h0 : restingQty s id₀ = 0 := by
              obtain ⟨op', hop', hid'⟩ := hex
              exact hpre ⟨op', List.mem_cons_of_mem _ hop', hid'⟩
            omega
          have hE2 := ih s₁ t₀ tss ds' hinv₁ hok' hcount' hpre' hr
          show addQty rest id₀ + restingQty s id₀ = _
          rw [tradedQty_append, discardedQty_append]
          omega

/-- **C6 (amended)** (functional correctness; spec L3, conservation of
quantity).  Over any run from a fresh engine in which the add operations
carry pairwise-distinct orderIds (the amendment forced by
`claim_C6_cex`), for every orderId: the initial quantity submitted under
that id equals the sum of the quantities of the emitted trades involving
that id, plus the remaining quantity of its resting order in the final
book, plus the residual quantity discarded when it was consumed by
self-match prevention (`incoming->quantity = 0`) or removed by an
explicit `cancelOrder`. -/
theorem claim_C6 (cap : Nat) (ops : List Op) (id₀ : Nat) (t : State)
    (ts : List Trade) (ds : List (Nat × Nat))
    (hok : ∀ op ∈ ops, OpOk op)
    (hids : (ops.filterMap addIdOf).Nodup)
    (hrun : runLedger (mkEngine cap) ops = some (t, ts, ds)) :
    addQty ops id₀ = tradedQty ts id₀ + restingQty t id₀ + discardedQty ds id₀ := by
  have h0 : restingQty (mkEngine cap) id₀ = 0 := by
    simp [restingQty, mkEngine, allOrders, levelsOrders, sumQ]
  have hacct := runLedger_acct id₀ ops (mkEngine cap) t ts ds (inv_mkEngine cap) hok
    (List.nodup_iff_count_le_one.mp hids id₀) (fun _ => h0) hrun
  omega

/-- Three adds where orderId 7 is used twice and both of its orders are
fully filled by one aggressing buy. -/
def c6Ops : List Op :=
  [Op.add Side.Sell 100 5 7 1, Op.add Side.Sell 101 5 7 2, Op.add Side.Buy 101 10 9 3]

/-- Final state, emitted trades and ghost discard records of `c6Ops`. -/
def c6Res : State × List Trade × List (Nat × Nat) :=
  (runLedger (mkEngine 4) c6Ops).getD (mkEngine 0, [], [])

/-- **C6, counterexample to the original wording.**  The per-order
conservation equation fails when two processed orders share an orderId:
the run contains an add of an order with orderId 7 and initial quantity
5, but after the run the trades involving id 7 total 10 (both duplicate
orders were filled), nothing with id 7 rests and nothing was discarded —
so initialQuantity = fills + remaining + cancelledResidual is violated
for that order. -/
theorem claim_C6_cex :
    Op.add Side.Sell 100 5 7 1 ∈ c6Ops
      ∧ tradedQty c6Res.2.1 7 + restingQty c6Res.1 7 + discardedQty c6Res.2.2 7 ≠ 5 := by
  decide

/-- A distinct-id run exercising a fill, a rest and an explicit cancel:
order 2 (buy 8@100) fills 5 against order 1, rests 3, and is cancelled. -/
def c6WOps : List Op :=
  [Op.add Side.Sell 100 5 1 1, Op.add Side.Buy 100 8 2 2, Op.cancel 2]

/-- Final state, emitted trades and ghost discard records of `c6WOps`. -/
def c6WRes : State × List Trade × List (Nat × Nat) :=
  (runLedger (mkEngine 4) c6WOps).getD (mkEngine 0, [], [])

theorem claim_C6_witness :
    addQty c6WOps 2
      = tradedQty c6WRes.2.1 2 + restingQty c6WRes.1 2 + discardedQty c6WRes.2.2 2 :=
  claim_C6 4 c6WOps 2 c6WRes.1 c6WRes.2.1 c6WRes.2.2 (by decide) (by decide) (by rfl)
